import Mathlib

/-!
# odex: parallel extrapolation stepper

A shallow embedding of the `odex` headers (`steppers/gbs.hpp`,
`extrapolation_stepper.hpp`, `integrate.hpp`, `detail/partition.hpp`,
`detail/make_extrap_config.hpp`) together with theorems about them.

Conventions of the embedding.

* The scalar type (`Time`, `Weight`, the `float` factors of `gbs`) is a field `K`
  and the state type is a `K`-module `Y`: arithmetic is exact.
* `std::size_t` is a natural number below `2 ^ 64` and `int` is a 32 bit two's
  complement integer; conversions between them wrap.
* Mutable members become explicit state: a function returns the new value of
  everything it writes.
-/

namespace odex

/-! ## `steppers/gbs.hpp` -/

namespace steppers

/-- The type `std::array<state_type, 3>`: the three scratch slots of `gbs`. -/
structure scratch_type (Y : Type) where
  s0 : Y
  s1 : Y
  s2 : Y
deriving DecidableEq, Repr

namespace scratch_type

variable {Y : Type}

/-- Element access `scratch[i]` for `i < 3`. -/
def get (s : scratch_type Y) (i : Nat) : Y :=
  match i with
  | 0 => s.s0
  | 1 => s.s1
  | _ => s.s2

/-- Element assignment `scratch[i] = v` for `i < 3`. -/
def set (s : scratch_type Y) (i : Nat) (v : Y) : scratch_type Y :=
  match i with
  | 0 => { s with s0 := v }
  | 1 => { s with s1 := v }
  | _ => { s with s2 := v }

end scratch_type

namespace gbs

variable {K Y : Type} [Field K] [AddCommGroup Y] [Module K Y]

/-- The constant table `inds` of `gbs::step`: row `cur` of
`{{0, 1, 2}, {1, 2, 0}, {2, 0, 1}}`. -/
def inds (cur : Nat) : Nat × Nat × Nat :=
  match cur with
  | 0 => (0, 1, 2)
  | 1 => (1, 2, 0)
  | _ => (2, 0, 1)

/-- One pass through the body of the leap frog loop of `gbs::step`; the loop
state is `(cur, tn, scratch)`. -/
def leapfrog_body (system : K → Y → Y) (h : K) (st : Nat × K × scratch_type Y) :
    Nat × K × scratch_type Y :=
  let cur := if st.1 < 2 then st.1 + 1 else 0
  let tn := st.2.1 + h
  let ind0 := (inds cur).1
  let ind1 := (inds cur).2.1
  let ind2 := (inds cur).2.2
  (cur, tn, st.2.2.set ind2 (st.2.2.get ind0 + (2 * h) • system tn (st.2.2.get ind1)))

/-- The leap frog loop `for (ii = 1; ii < n; ++ii)` of `gbs::step`, run for
`iters` passes (`iters = n - 1`). -/
def leapfrog (system : K → Y → Y) (h : K) :
    Nat → Nat × K × scratch_type Y → Nat × K × scratch_type Y
  | 0, st => st
  | iters + 1, st => leapfrog system h iters (leapfrog_body system h st)

/-- The function `gbs::step`. The output `y` and the scratch ring are written
through references in the source; here both are returned. -/
def step (system : K → Y → Y) (y0 : Y) (t dt : K) (n : Nat) (fval0 : Y)
    (scratch : scratch_type Y) : Y × scratch_type Y :=
  let h := dt / (n : K)
  let tn := t
  -- Initial Forward Euler Step
  let scratch := scratch.set 0 (y0 + h • fval0)
  let tn := tn + h
  -- First Leap Frog Step
  let scratch := scratch.set 1 (y0 + (2 * h) • system tn (scratch.get 0))
  -- Leap Frog Iteration
  let st := leapfrog system h (n - 1) (2, tn, scratch)
  let cur := st.1
  let scratch := st.2.2
  -- Smoothing Step
  let ind0 := (inds cur).1
  let ind1 := (inds cur).2.1
  let ind2 := (inds cur).2.2
  ((1 / 4 : K) • (scratch.get ind0 + (2 : K) • scratch.get ind1 + scratch.get ind2), scratch)

end gbs

end steppers

/-! ## The modified midpoint recurrence, as the specification words it -/

section Midpoint

variable {K Y : Type} [Field K] [AddCommGroup Y] [Module K Y]

/-- The modified midpoint sequence of the specification: `z 0 = y0`,
`z 1 = y0 + h f(t, y0)` and `z (k+1) = z (k-1) + 2 h f(t + k h, z k)`. -/
def midpoint_z (f : K → Y → Y) (y0 : Y) (t h : K) : Nat → Y
  | 0 => y0
  | 1 => y0 + h • f t y0
  | k + 2 => midpoint_z f y0 t h k
      + (2 * h) • f (t + ((k + 1 : Nat) : K) * h) (midpoint_z f y0 t h (k + 1))

/-- The smoothed modified midpoint value `(z (n-1) + 2 z n + z (n+1)) / 4`
with `h = dt / n`. -/
def midpoint_smoothed (f : K → Y → Y) (y0 : Y) (t dt : K) (n : Nat) : Y :=
  (1 / 4 : K) • (midpoint_z f y0 t (dt / (n : K)) (n - 1)
    + (2 : K) • midpoint_z f y0 t (dt / (n : K)) n
    + midpoint_z f y0 t (dt / (n : K)) (n + 1))

end Midpoint

/-! ## `detail/partition.hpp` -/

namespace detail

/-- The number of values of `std::size_t`; arithmetic on `std::size_t` is taken
modulo this number. -/
def SIZE_MOD : Nat := 2 ^ 64

/-- The conversion `int(x)` of a `std::size_t` value: reduction modulo `2 ^ 32`
into the range `-2 ^ 31 .. 2 ^ 31 - 1`. -/
def to_int (x : Nat) : Int :=
  if x % 2 ^ 32 < 2 ^ 31 then ((x % 2 ^ 32 : Nat) : Int)
  else ((x % 2 ^ 32 : Nat) : Int) - 2 ^ 32

/-- The conversion `std::size_t(i)` of an `int` value: reduction modulo `2 ^ 64`. -/
def to_size_t (i : Int) : Nat := (i % (2 ^ 64 : Int)).toNat

/-- The lambda `ceildiv` of `partition`:
`std::size_t(-(-int(num)/int(den)))`. The unary minus applies to `int(num)`, and
`/` on `int` truncates toward zero. The result is `none` where the `int`
arithmetic has no defined value (division by zero, negation of `INT_MIN`). -/
def ceildiv (num den : Nat) : Option Nat :=
  if to_int den = 0 ∨ to_int num = -(2 ^ 31) then none
  else some (to_size_t (-(Int.tdiv (-(to_int num)) (to_int den))))

/-- The inner loop `for (jj = 0; jj < n; ++jj)` of `_try_partition` for one bin
`ii`. It walks the elements `a[jj]` together with their flags `used[jj]` and
carries `sums[ii]` and `bins[ii]`; it returns the final `sums[ii]`, `bins[ii]`
and the updated flags. -/
def _try_partition.scan (maxheight : Nat) :
    List Nat → List Bool → Nat → List Nat → Nat × List Nat × List Bool
  | x :: a, u :: used, sum, bin =>
    if !u then
      let tmp := (sum + x) % SIZE_MOD
      if tmp ≤ maxheight then
        let r := _try_partition.scan maxheight a used tmp (bin ++ [x])
        (r.1, r.2.1, true :: r.2.2)
      else
        let r := _try_partition.scan maxheight a used sum bin
        (r.1, r.2.1, u :: r.2.2)
    else
      let r := _try_partition.scan maxheight a used sum bin
      (r.1, r.2.1, u :: r.2.2)
  | _, used, sum, bin => (sum, bin, used)

/-- The outer loop `for (ii = 0; ii < k; ++ii)` of `_try_partition`: fills `k`
bins one after the other, each starting with sum `0`; returns the bins and the
final flags. -/
def _try_partition.fill (a : List Nat) (maxheight : Nat) :
    Nat → List Bool → List (List Nat) × List Bool
  | 0, used => ([], used)
  | k + 1, used =>
    let r := _try_partition.scan maxheight a used 0 []
    let rest := _try_partition.fill a maxheight k r.2.2
    (r.2.1 :: rest.1, rest.2)

/-- The function `_try_partition(a, n, k, maxheight)`: `k` bins filled in turn
from the `n` elements of `a`; the empty vector signals failure. -/
def _try_partition (a : List Nat) (n k maxheight : Nat) : List (List Nat) :=
  let r := _try_partition.fill a maxheight k (List.replicate n false)
  if r.2.all id then r.1 else []

/-- The loop `for (ii = first; ii <= n; ++ii)` of `partition`; `fuel` is the
number of passes left, `n + 1 - ii`. Falling out of the loop returns `{}`. -/
def partition.search (sorted : List Nat) (n maxheight : Nat) : Nat → Nat → List (List Nat)
  | 0, _ => []
  | fuel + 1, ii =>
    let bins := _try_partition sorted n ii maxheight
    if !bins.isEmpty then bins
    else partition.search sorted n maxheight fuel (ii + 1)

/-- The function `partition(a, n)`. The result is `none` where the behaviour of
the source is undefined: `sorted[0]` on an empty vector, or `ceildiv` undefined. -/
def partition (a : List Nat) (n : Nat) : Option (List (List Nat)) :=
  let sorted := (a.take n).insertionSort (fun x y => y ≤ x)
  match sorted.head? with
  | none => none
  | some maxheight =>
    let sum := sorted.foldl (fun acc x => (acc + x) % SIZE_MOD) 0
    match ceildiv sum maxheight with
    | none => none
    | some first => some (partition.search sorted n maxheight (n + 1 - first) first)

end detail

/-! ## `detail/make_extrap_config.hpp` -/

namespace detail

/-- The table of `make_extrap_config`: `isbn`, `step_counts` and the weights as
the rational numbers written in the source; `none` where no branch assigns. -/
def extrap_table (order num_cores : Nat) : Option (ℚ × List Nat × List ℚ) :=
  if order = 8 then
    if num_cores = 3 then
      some
        (5799 / 10000,
         [2, 16, 18, 20],
         [-1 / 498960,
          65536 / 9639,
          -531441 / 25840,
          250000 / 16929])
    else if num_cores = 6 then
      some
        (7675 / 10000,
         [2, 4, 6, 10, 8, 12, 14, 16, 18, 20, 22],
         [-32952289146985386285870523118228405533963 / 8936455970950449255004500793755553651752960000,
          577598451788090848795408620332945866052063 / 7941577083559481271537202853825736155366400000,
          85250432905463981456535914913119571901637 / 122585129917015764814876554098155742822400000,
          1677712357266484804784340039643670407130779 / 200176613749290063312100817780124401799266304,
          2165 / 767488,
          13805 / 611712,
          4553 / 72080,
          14503 / 66520,
          27058 / 7627,
          -86504 / 5761,
          40916 / 3367])
    else if num_cores = 8 then
      some
        (8176 / 10000,
         [2, 26, 28, 30, 4, 6, 8, 10, 12, 14, 16, 18, 20, 22, 24],
         [-298857882660976887631476729981565763568862608650111 / 418309165211319520505929581345807932301941968522444800000,
          54841752514603990885070634946141665271319680054382001869 / 7796886807193233666234782137510621223379391720980480000,
          -6653387365673258947809103108875129803987861502988566763111 / 258933840128714385112278118363748576398397951218483200000,
          54824130826438857272172198804804549641875992497090297 / 2867295913488162504174863944731843756709312047611904,
          6833 / 476577792,
          10847 / 91078656,
          15235 / 34643968,
          383 / 321152,
          543 / 198784,
          9947 / 1741056,
          6243 / 543104,
          6875 / 296192,
          1401 / 28496,
          17713 / 152688,
          6375 / 19264])
    else none
  else if order = 12 then
    if num_cores = 4 then
      some
        (4515 / 10000,
         [2, 8, 12, 14, 16, 20],
         [-1 / 157172400,
          4096 / 155925,
          -59049 / 15925,
          282475249 / 15752880,
          -4194304 / 178605,
          9765625 / 954261])
    else if num_cores = 8 then
      some
        (7116 / 10000,
         [2, 8, 10, 16, 24, 26, 4, 6, 12, 14, 18, 20, 22, 28, 30],
         [-1703338201142081344537976944145527211643949659234240721389419 / 23648864513368626787371236562816879339803777703368508907192320000000000,
          28566269141029842679611128435317644430416456404930682840133 / 1235974431889711160110009091223554591673172898357667840000000000,
          1661823701099033749417849761031734684833334503871915993221173 / 16039458446054067082385395561773359826518343984165155963236515840,
          297002124618857676974925717053765105019453996390390125558609 / 160179791893258872271743935365682835875612617239142743750000000,
          -5460019744535790351900106662607930219497507008045052153266932061 / 109934733569605065449891190520737372992080772483328000000000000,
          4518788471550054059819510090434891452487764271627191207619322033987247547 / 24806501237799258867871926464493230076717249339197736615936000000000000,
          235 / 21030240256,
          4147 / 1612709888,
          11521 / 39731200,
          2375 / 3528704,
          6435 / 708736,
          1291 / 15780,
          11311 / 4672,
          -180864 / 751,
          222080 / 2079])
    else none
  else if order = 16 then
    if num_cores = 5 then
      some
        (4162 / 10000,
         [2, 8, 10, 12, 14, 16, 18, 22],
         [-1 / 365783040000,
          4194304 / 456080625,
          -6103515625 / 11955879936,
          544195584 / 74449375,
          -678223072849 / 17079828480,
          68719476736 / 749962395,
          -2541865828329 / 31682560000,
          379749833583241 / 16878274560000])
    else none
  else none

/-- The function `make_extrap_config<T>(order, num_cores)`: the table entry with
the weights cast to `T`. The assertion that the step sequence is not empty
fails for a pair without an entry; that is the result `none`. -/
def make_extrap_config (K : Type) [Field K] (order num_cores : Nat) :
    Option (ℚ × List Nat × List K) :=
  match extrap_table order num_cores with
  | none => none
  | some (isbn, step_counts, weights) =>
    some (isbn, step_counts, weights.map (fun (d : ℚ) => (d : K)))

end detail

/-! ## `extrapolation_stepper.hpp` -/

/-- The data members of `extrapolation_stepper`. The members `m_input`, `m_t`
and `m_dt` are latched by `_evaluate` right before they are read and are passed
as arguments instead. The pool is represented by its number of workers; `none`
is the null pointer of a serial stepper. -/
structure extrapolation_stepper (K Y : Type) where
  m_order : Nat
  m_isbn : ℚ
  m_systems : List (K → Y → Y)
  m_scratch : List (steppers.scratch_type Y)
  m_weights : List K
  m_step_counts : List Nat
  m_outputs : List Y
  m_partitions : List (List Nat)
  m_partition_indices : List (List Nat)
  m_pool : Option Nat

namespace extrapolation_stepper

open steppers

variable {K Y : Type} [Field K] [AddCommGroup Y] [Module K Y]

/-- The member function `order()`. -/
def order (s : extrapolation_stepper K Y) : Nat := s.m_order

/-- The member function `isbn()`. -/
def isbn (s : extrapolation_stepper K Y) : ℚ := s.m_isbn

/-- The loop over sub-integrations shared by `_evaluate_serial` (over
`0 .. nsteppers-1`) and the worker target (over the indices of its bin): for
each index `ind` call `m_stepper.step(system, input, outputs[ind], t, dt,
step_counts[ind], fval0, scratch)`. -/
def run_steppers (system : K → Y → Y) (input : Y) (t dt : K) (step_counts : List Nat)
    (fval0 : Y) : List Nat → List Y × scratch_type Y → List Y × scratch_type Y
  | [], st => st
  | ind :: inds, st =>
    let r := gbs.step system input t dt (step_counts.getD ind 0) fval0 st.2
    run_steppers system input t dt step_counts fval0 inds (st.1.set ind r.1, r.2)

/-- The function `_evaluate_serial`. -/
def _evaluate_serial (s : extrapolation_stepper K Y) (input : Y) (t dt : K) :
    extrapolation_stepper K Y :=
  let system := s.m_systems.getD 0 (fun _ _ => 0)
  let scratch := s.m_scratch.getD 0 ⟨0, 0, 0⟩
  let fval0 := system t input
  let r := run_steppers system input t dt s.m_step_counts fval0
    (List.range s.m_step_counts.length) (s.m_outputs, scratch)
  { s with m_outputs := r.1, m_scratch := s.m_scratch.set 0 r.2 }

/-- The lambda `target` installed in worker `index` by `_initialize_pool`. -/
def target (s : extrapolation_stepper K Y) (input : Y) (t dt : K) (index : Nat) :
    extrapolation_stepper K Y :=
  let inds := s.m_partition_indices.getD index []
  let current_system := s.m_systems.getD index (fun _ _ => 0)
  let scratch := s.m_scratch.getD index ⟨0, 0, 0⟩
  let fval0 := current_system t input
  let r := run_steppers current_system input t dt s.m_step_counts fval0 inds
    (s.m_outputs, scratch)
  { s with m_outputs := r.1, m_scratch := s.m_scratch.set index r.2 }

/-- The function `_evaluate_parallel`, that is `m_pool->process()`: every worker
runs its target once. The workers write disjoint output slots and own their
scratch ring and system, so one round is the targets taken in some order
`sched` of the worker indices. -/
def _evaluate_parallel (s : extrapolation_stepper K Y) (input : Y) (t dt : K)
    (sched : List Nat) : extrapolation_stepper K Y :=
  sched.foldl (fun s index => target s input t dt index) s

/-- The function `_evaluate`. -/
def _evaluate (s : extrapolation_stepper K Y) (y : Y) (t dt : K) (sched : List Nat) :
    extrapolation_stepper K Y :=
  match s.m_pool with
  | some _ => _evaluate_parallel s y t dt sched
  | none => _evaluate_serial s y t dt

/-- The extrapolation inside `step`: `y = weights[0]*outputs[0]` followed by
`y += weights[jj]*outputs[jj]` for `jj = 1 .. nsteppers-1`. -/
def combine (weights : List K) (outputs : List Y) (nsteppers : Nat) : Y :=
  (List.range' 1 (nsteppers - 1)).foldl
    (fun y jj => y + weights.getD jj 0 • outputs.getD jj 0)
    (weights.getD 0 0 • outputs.getD 0 0)

/-- The result of `step`: the state `y`, the stepper, and the calls the
observer has received, oldest first. -/
structure step_result (K Y : Type) where
  y : Y
  stepper : extrapolation_stepper K Y
  observed : List (K × Y)

/-- The loop `for (ii = 0; ii < n; ++ii)` of `step`, with `n - ii` passes left.
`sched ii` is the order in which the workers finish in macro-step `ii`. -/
def step_loop (dt : K) (sched : Nat → List Nat) :
    Nat → Nat → extrapolation_stepper K Y → Y → K → List (K × Y) → step_result K Y
  | 0, _, s, y, _, observed => ⟨y, s, observed⟩
  | left + 1, ii, s, y, t, observed =>
    let s := _evaluate s y t dt (sched ii)
    let y := combine s.m_weights s.m_outputs s.m_step_counts.length
    let observed := observed ++ [(t, y)]
    let t := t + dt
    step_loop dt sched left (ii + 1) s y t observed

/-- The function `step(y, t, dt, n, observer)`. -/
def step (s : extrapolation_stepper K Y) (y : Y) (t dt : K) (n : Nat)
    (sched : Nat → List Nat) : step_result K Y :=
  step_loop dt sched n 0 s y t []

/-- The assignments of `_initialize_pool`: the partition of the step counts, the
index of every bin value in `m_step_counts` (`std::find`), a pool with one
worker per bin, and one system copy and scratch ring per worker. -/
def _initialize_pool (s : extrapolation_stepper K Y) (system : K → Y → Y) :
    Option (extrapolation_stepper K Y) :=
  match detail.partition s.m_step_counts s.m_step_counts.length with
  | none => none
  | some partitions =>
    some { s with
      m_partitions := partitions
      m_partition_indices := partitions.map (fun bin => bin.map (fun v => s.m_step_counts.indexOf v))
      m_pool := some partitions.length
      m_systems := List.replicate partitions.length system
      m_scratch := List.replicate partitions.length ⟨0, 0, 0⟩ }

/-- The constructor of `extrapolation_stepper`. -/
def make (system : K → Y → Y) (num_steppers : Nat) (step_counts : List Nat)
    (weights : List K) (order : Nat) (isbn : ℚ) (parallel : Bool) :
    Option (extrapolation_stepper K Y) :=
  let s : extrapolation_stepper K Y :=
    { m_order := order
      m_isbn := isbn
      m_systems := []
      m_scratch := []
      m_weights := weights.take num_steppers
      m_step_counts := step_counts.take num_steppers
      m_outputs := List.replicate num_steppers 0
      m_partitions := []
      m_partition_indices := []
      m_pool := none }
  if parallel then _initialize_pool s system
  else some { s with m_systems := [system], m_scratch := [⟨0, 0, 0⟩] }

end extrapolation_stepper

/-! ## `make_extrapolation_stepper.hpp` and `integrate.hpp` -/

section Integrate

variable {K Y : Type} [Field K] [AddCommGroup Y] [Module K Y]

/-- The function `make_extrapolation_stepper(system, state, order, num_cores,
parallel)`. -/
def make_extrapolation_stepper (system : K → Y → Y) (_state : Y) (order num_cores : Nat)
    (parallel : Bool) : Option (extrapolation_stepper K Y) :=
  match detail.make_extrap_config K order num_cores with
  | none => none
  | some (isbn, step_counts, weights) =>
    extrapolation_stepper.make system step_counts.length step_counts weights order isbn parallel

/-- The function `integrate(system, state, t, dt, n, observer, order, num_cores,
parallel)`: the final state together with the calls the observer received. -/
def integrate (system : K → Y → Y) (state : Y) (t dt : K) (n : Nat)
    (order num_cores : Nat) (parallel : Bool) (sched : Nat → List Nat) :
    Option (Y × List (K × Y)) :=
  match make_extrapolation_stepper system state order num_cores parallel with
  | none => none
  | some exstepper =>
    let r := exstepper.step state t dt n sched
    some (r.y, r.observed)

end Integrate

/-! ## The same functions, recording the evaluations of the system

Each function below repeats its source function line by line and returns, next
to the result, the list of the arguments `(time, state)` at which it calls the
system, in call order. -/

namespace steppers

namespace gbs

variable {K Y : Type} [Field K] [AddCommGroup Y] [Module K Y]

/-- The body of the leap frog loop of `gbs::step`, with the one call
`system(tn, scratch[ind1])` it makes. -/
def leapfrog_body_traced (system : K → Y → Y) (h : K) (st : Nat × K × scratch_type Y) :
    (Nat × K × scratch_type Y) × (K × Y) :=
  let cur := if st.1 < 2 then st.1 + 1 else 0
  let tn := st.2.1 + h
  let ind0 := (inds cur).1
  let ind1 := (inds cur).2.1
  let ind2 := (inds cur).2.2
  ((cur, tn, st.2.2.set ind2 (st.2.2.get ind0 + (2 * h) • system tn (st.2.2.get ind1))),
    (tn, st.2.2.get ind1))

/-- The leap frog loop of `gbs::step`, with the calls of the system it makes. -/
def leapfrog_traced (system : K → Y → Y) (h : K) :
    Nat → Nat × K × scratch_type Y → (Nat × K × scratch_type Y) × List (K × Y)
  | 0, st => (st, [])
  | iters + 1, st =>
    let r := leapfrog_body_traced system h st
    let rest := leapfrog_traced system h iters r.1
    (rest.1, r.2 :: rest.2)

/-- The function `gbs::step`, with the calls of the system it makes: one in the
first leap frog step and those of the leap frog loop. -/
def step_traced (system : K → Y → Y) (y0 : Y) (t dt : K) (n : Nat) (fval0 : Y)
    (scratch : scratch_type Y) : (Y × scratch_type Y) × List (K × Y) :=
  let h := dt / (n : K)
  let tn := t
  -- Initial Forward Euler Step
  let scratch := scratch.set 0 (y0 + h • fval0)
  let tn := tn + h
  -- First Leap Frog Step
  let call := (tn, scratch.get 0)
  let scratch := scratch.set 1 (y0 + (2 * h) • system tn (scratch.get 0))
  -- Leap Frog Iteration
  let r := leapfrog_traced system h (n - 1) (2, tn, scratch)
  let cur := r.1.1
  let scratch := r.1.2.2
  -- Smoothing Step
  let ind0 := (inds cur).1
  let ind1 := (inds cur).2.1
  let ind2 := (inds cur).2.2
  (((1 / 4 : K) • (scratch.get ind0 + (2 : K) • scratch.get ind1 + scratch.get ind2), scratch),
    call :: r.2)

end gbs

end steppers

/-- One call `m_stepper.step(system, input, outputs[ind], t, dt, step_counts[ind],
fval0, scratch)`: the index of the sub-integration, the value passed as `fval0`,
and the calls of the system made inside. -/
structure sub_call (K Y : Type) where
  ind : Nat
  fval0 : Y
  calls : List (K × Y)

/-- The evaluations of one `_evaluate`: `start` lists the calls of the system
made by `_evaluate_serial` or by the worker targets themselves, `subs` the calls
of `gbs::step` in the order they ran. -/
structure eval_trace (K Y : Type) where
  start : List (K × Y)
  subs : List (sub_call K Y)

namespace extrapolation_stepper

open steppers

variable {K Y : Type} [Field K] [AddCommGroup Y] [Module K Y]

/-- The loop over sub-integrations `run_steppers`, with one record per call of
`gbs::step`. -/
def run_steppers_traced (system : K → Y → Y) (input : Y) (t dt : K) (step_counts : List Nat)
    (fval0 : Y) :
    List Nat → List Y × scratch_type Y → (List Y × scratch_type Y) × List (sub_call K Y)
  | [], st => (st, [])
  | ind :: inds, st =>
    let r := gbs.step_traced system input t dt (step_counts.getD ind 0) fval0 st.2
    let rest := run_steppers_traced system input t dt step_counts fval0 inds
      (st.1.set ind r.1.1, r.1.2)
    (rest.1, ⟨ind, fval0, r.2⟩ :: rest.2)

/-- The function `_evaluate_serial`, with its evaluations: the call
`system(t, input)` that computes `fval0`, then the sub-integrations. -/
def _evaluate_serial_traced (s : extrapolation_stepper K Y) (input : Y) (t dt : K) :
    extrapolation_stepper K Y × eval_trace K Y :=
  let system := s.m_systems.getD 0 (fun _ _ => 0)
  let scratch := s.m_scratch.getD 0 ⟨0, 0, 0⟩
  let fval0 := system t input
  let r := run_steppers_traced system input t dt s.m_step_counts fval0
    (List.range s.m_step_counts.length) (s.m_outputs, scratch)
  ({ s with m_outputs := r.1.1, m_scratch := s.m_scratch.set 0 r.1.2 }, ⟨[(t, input)], r.2⟩)

/-- The worker target of `_initialize_pool`, with its evaluations: the call
`current_system(t, input)` that computes `fval0`, then the sub-integrations of
its bin. -/
def target_traced (s : extrapolation_stepper K Y) (input : Y) (t dt : K) (index : Nat) :
    extrapolation_stepper K Y × eval_trace K Y :=
  let inds := s.m_partition_indices.getD index []
  let current_system := s.m_systems.getD index (fun _ _ => 0)
  let scratch := s.m_scratch.getD index ⟨0, 0, 0⟩
  let fval0 := current_system t input
  let r := run_steppers_traced current_system input t dt s.m_step_counts fval0 inds
    (s.m_outputs, scratch)
  ({ s with m_outputs := r.1.1, m_scratch := s.m_scratch.set index r.1.2 },
    ⟨[(t, input)], r.2⟩)

/-- The function `_evaluate_parallel`, with the evaluations of the workers in
the order `sched` in which the targets are taken. -/
def _evaluate_parallel_traced (s : extrapolation_stepper K Y) (input : Y) (t dt : K)
    (sched : List Nat) : extrapolation_stepper K Y × eval_trace K Y :=
  sched.foldl
    (fun acc index =>
      let r := target_traced acc.1 input t dt index
      (r.1, ⟨acc.2.start ++ r.2.start, acc.2.subs ++ r.2.subs⟩))
    (s, ⟨[], []⟩)

/-- The function `_evaluate`, with its evaluations. -/
def _evaluate_traced (s : extrapolation_stepper K Y) (y : Y) (t dt : K) (sched : List Nat) :
    extrapolation_stepper K Y × eval_trace K Y :=
  match s.m_pool with
  | some _ => _evaluate_parallel_traced s y t dt sched
  | none => _evaluate_serial_traced s y t dt

end extrapolation_stepper

/-! ## `threading/semaphore.hpp` -/

namespace threading

/-- The state of a `semaphore`: the member `m_ready`. The mutex and the
condition variable carry no data; every member function runs under the mutex,
so each is one atomic transition of this state. -/
structure semaphore where
  m_ready : Bool
  deriving DecidableEq, Repr

namespace semaphore

/-- The constructor: `m_ready(false)`. -/
def make : semaphore := ⟨false⟩

/-- The member function `notify()`: `m_ready = true`. -/
def notify (_s : semaphore) : semaphore := ⟨true⟩

/-- The member function `wait()`: `m_cv.wait(lock, [this]{return m_ready;})`
followed by `m_ready = false`. The call returns in the state `some _` when the
flag is set; `none` says that the caller stays blocked in this state. -/
def wait (s : semaphore) : Option semaphore :=
  if s.m_ready then some ⟨false⟩ else none

end semaphore

end threading

/-! ## `threading/worker.hpp`

Threads are modelled by interleaving: a state holds the shared data and the
position of every thread, a step is one atomic action of one thread (an access
to an atomic variable, or a critical section under a mutex), and a wait on a
condition variable with a predicate is a step that can only be taken when the
predicate holds. -/

namespace threading

/-- The position of the thread of a `worker` in `_run`: in `m_semaphore.wait()`,
before `if (m_exit_flag) break;`, before the call of the target function, inside
the target function after its first action, or returned from `_run`. -/
inductive worker_pc where
  | at_wait
  | at_check
  | at_call
  | in_target
  | exited
  deriving DecidableEq, Repr

/-- The members `m_exit_flag` and `m_semaphore` of a `worker`, with the
position of its thread `m_thread`. -/
structure worker where
  m_exit_flag : Bool
  m_semaphore : semaphore
  pc : worker_pc
  deriving DecidableEq, Repr

namespace worker

/-- The constructor: `m_exit_flag(false)`, `m_semaphore()`, and the thread
started at the top of `_run`. -/
def make : worker := ⟨false, semaphore.make, worker_pc.at_wait⟩

/-- The member function `notify()`: `m_semaphore.notify()`. -/
def notify (w : worker) : worker := { w with m_semaphore := w.m_semaphore.notify }

/-- One step of the thread in `_run` outside the target function:
`m_semaphore.wait()` returns, or `if (m_exit_flag) break;` is decided. The
result is `none` when the thread cannot move (blocked in `wait()`, or returned)
and at the call of the target, whose steps belong to the target. -/
def _run (w : worker) : Option worker :=
  match w.pc with
  | worker_pc.at_wait =>
    (w.m_semaphore.wait).map (fun s => { w with m_semaphore := s, pc := worker_pc.at_check })
  | worker_pc.at_check =>
    some { w with pc := if w.m_exit_flag then worker_pc.exited else worker_pc.at_call }
  | _ => none

end worker

/-- A run of the threads: `sched` names the thread that takes each step; the
result is `none` when a named thread cannot move. -/
def exec {σ : Type} (step : σ → Nat → Option σ) : σ → List Nat → Option σ
  | st, [] => some st
  | st, th :: sched => (step st th).bind (fun st' => exec step st' sched)

/-! ### `test_worker_notify` of `Test_Threading.cpp` -/

/-- The position of the main thread in `test_worker_notify`: at
`worker.notify()`, in the loop `while (!targ.done)`, at `targ.done = false`,
then in `worker.join()` at `m_exit_flag = true`, at `notify()`, in
`m_thread.join()`, and after it. -/
inductive test_pc where
  | loop_notify
  | loop_poll
  | loop_clear
  | join_flag
  | join_notify
  | join_thread
  | finished
  deriving DecidableEq, Repr

/-- The state of `test_worker_notify` with `iters` rounds: the worker, the
members `counter` and `done` of the target, the loop variable `ii` and the
position of the main thread. `consumed` counts the returns of
`m_semaphore.wait()` that found `m_exit_flag` clear; no step reads it. -/
structure worker_test where
  w : worker
  counter : Nat
  done : Bool
  iters : Nat
  ii : Nat
  main : test_pc
  consumed : Nat
  deriving DecidableEq, Repr

namespace worker_test

/-- The state after the construction of `targ` and `worker`. -/
def init (iters : Nat) : worker_test :=
  { w := worker.make
    counter := 0
    done := false
    iters := iters
    ii := 0
    main := if 0 < iters then test_pc.loop_notify else test_pc.join_flag
    consumed := 0 }

/-- One step of the main thread. -/
def main_step (st : worker_test) : Option worker_test :=
  match st.main with
  | test_pc.loop_notify => some { st with w := st.w.notify, main := test_pc.loop_poll }
  | test_pc.loop_poll => if st.done then some { st with main := test_pc.loop_clear } else none
  | test_pc.loop_clear =>
    some { st with
      done := false
      ii := st.ii + 1
      main := if st.ii + 1 < st.iters then test_pc.loop_notify else test_pc.join_flag }
  | test_pc.join_flag =>
    some { st with w := { st.w with m_exit_flag := true }, main := test_pc.join_notify }
  | test_pc.join_notify => some { st with w := st.w.notify, main := test_pc.join_thread }
  | test_pc.join_thread =>
    if st.w.pc = worker_pc.exited then some { st with main := test_pc.finished } else none
  | test_pc.finished => none

/-- One step of the worker thread: a step of `_run`, or inside the target
`++counter` and then `done = true`, after which the target returns to the top
of the loop of `_run`. -/
def worker_step (st : worker_test) : Option worker_test :=
  match st.w.pc with
  | worker_pc.at_call =>
    some { st with counter := st.counter + 1, w := { st.w with pc := worker_pc.in_target } }
  | worker_pc.in_target =>
    some { st with done := true, w := { st.w with pc := worker_pc.at_wait } }
  | worker_pc.at_wait =>
    (st.w._run).map (fun w =>
      { st with w := w, consumed := if st.w.m_exit_flag then st.consumed else st.consumed + 1 })
  | _ => (st.w._run).map (fun w => { st with w := w })

/-- One step of thread `th`: `0` is the main thread, `1` the worker. -/
def step (st : worker_test) : Nat → Option worker_test
  | 0 => main_step st
  | 1 => worker_step st
  | _ => none

end worker_test

end threading

/-! ## `threading/pool.hpp` -/

namespace threading

/-- A slot of `m_workers` holding a worker, with the number `runs` of calls of
the function installed in the slot by `emplace`; no step reads `runs`. -/
structure pool_worker where
  w : worker
  runs : Nat
  deriving DecidableEq, Repr

/-- The members `m_workers` and `m_completion_count` of a `pool` with a target
installed in every slot, and the thread that calls `process()` `rounds` times:
`calls` of them have returned, and in the current call the loop variable is `ii`
(`ii = m_workers.size()` is the wait on the condition variable). The counter
never exceeds the number of workers, so `std::size_t` does not wrap. -/
structure pool where
  m_workers : List pool_worker
  m_completion_count : Nat
  ii : Nat
  calls : Nat
  rounds : Nat
  deriving DecidableEq, Repr

namespace pool

/-- The constructor `pool(num_workers)` followed by `emplace(index, ...)` for
every `index`: fresh workers, `m_completion_count(0)`. -/
def make (num_workers rounds : Nat) : pool :=
  { m_workers := List.replicate num_workers ⟨worker.make, 0⟩
    m_completion_count := 0
    ii := 0
    calls := 0
    rounds := rounds }

/-- The member function `notify(index)`: `m_workers[index]->notify()`. -/
def notify (p : pool) (index : Nat) : pool :=
  match p.m_workers[index]? with
  | none => p
  | some pw => { p with m_workers := p.m_workers.set index { pw with w := pw.w.notify } }

/-- One step of the thread that calls `process()`: `notify(ii)` in the loop, or
the wait `m_cv.wait(lock, [this, count]{return m_completion_count == count;})`
followed by `m_completion_count = 0` and the return. -/
def main_step (p : pool) : Option pool :=
  if p.calls < p.rounds then
    if p.ii < p.m_workers.length then some { p.notify p.ii with ii := p.ii + 1 }
    else if p.m_completion_count = p.m_workers.length then
      some { p with m_completion_count := 0, ii := 0, calls := p.calls + 1 }
    else none
  else none

/-- One step of the thread of worker `index`: a step of `_run`, or inside the
target made by `_make_target` the call `function(args...)` and then, under the
mutex, `++m_completion_count` (with the notification of the condition variable),
after which the target returns to the top of the loop of `_run`. -/
def worker_step (p : pool) (index : Nat) : Option pool :=
  match p.m_workers[index]? with
  | none => none
  | some pw =>
    match pw.w.pc with
    | worker_pc.at_call =>
      some { p with
        m_workers := p.m_workers.set index
          { w := { pw.w with pc := worker_pc.in_target }, runs := pw.runs + 1 } }
    | worker_pc.in_target =>
      some { p with
        m_workers := p.m_workers.set index { pw with w := { pw.w with pc := worker_pc.at_wait } }
        m_completion_count := p.m_completion_count + 1 }
    | _ =>
      (pw.w._run).map (fun w => { p with m_workers := p.m_workers.set index { pw with w := w } })

/-- One step of thread `th`: `0` is the thread that calls `process()`, `th + 1`
the thread of worker `th`. -/
def step (p : pool) : Nat → Option pool
  | 0 => main_step p
  | th + 1 => worker_step p th

end pool

end threading

/-! ## Definitions used to state the theorems -/

section Invariants

open steppers

variable {K Y : Type} [Field K] [AddCommGroup Y] [Module K Y]

/-- Ring invariant of the leap frog loop after `j` passes: the two slots after
`cur` hold `z (j+1)` and `z (j+2)`, slot `cur` holds `z j` once a pass has run,
and `tn = t + (j+1) h`. -/
def ring_inv (f : K → Y → Y) (y0 : Y) (t h : K) (j : Nat)
    (st : Nat × K × scratch_type Y) : Prop :=
  st.1 < 3 ∧ st.2.1 = t + ((j + 1 : Nat) : K) * h
    ∧ st.2.2.get ((st.1 + 1) % 3) = midpoint_z f y0 t h (j + 1)
    ∧ st.2.2.get ((st.1 + 2) % 3) = midpoint_z f y0 t h (j + 2)
    ∧ (1 ≤ j → st.2.2.get st.1 = midpoint_z f y0 t h j)

/-! ### The first-fit pass, as the specification words it -/

/-- The elements of `a` whose `used` flag is clear, in order. -/
def unused : List Nat → List Bool → List Nat
  | x :: a, u :: used => if u then unused a used else x :: unused a used
  | _, _ => []

/-- One bin of the first-fit pass of the specification: scan the remaining
elements in order and place every element whose addition keeps the bin sum at
most `H`. Returns the bin and the elements left over. -/
def spec_fill_bin (H : Nat) : List Nat → Nat → List Nat × List Nat
  | [], _ => ([], [])
  | x :: rest, sum =>
    if sum + x ≤ H then
      ((x :: (spec_fill_bin H rest (sum + x)).1), (spec_fill_bin H rest (sum + x)).2)
    else
      ((spec_fill_bin H rest sum).1, x :: (spec_fill_bin H rest sum).2)

/-- The first-fit pass of the specification with `k` bins of height `H`: the
bins in order and the elements that found no bin. -/
def spec_first_fit (H : Nat) : Nat → List Nat → List (List Nat) × List Nat
  | 0, remaining => ([], remaining)
  | k + 1, remaining =>
    ((spec_fill_bin H remaining 0).1 :: (spec_first_fit H k (spec_fill_bin H remaining 0).2).1,
      (spec_first_fit H k (spec_fill_bin H remaining 0).2).2)

/-- The first-fit pass with `k` bins of height `H` places every element. -/
def spec_places_all (H k : Nat) (sorted : List Nat) : Prop :=
  (spec_first_fit H k sorted).2 = []

instance (H k : Nat) (sorted : List Nat) : Decidable (spec_places_all H k sorted) :=
  inferInstanceAs (Decidable ((spec_first_fit H k sorted).2 = []))

/-- The list `A` sorted in descending order. -/
def sort_desc (A : List Nat) : List Nat := A.insertionSort (fun x y => y ≤ x)

/-- The largest element `max(A)` of a list of natural numbers (`0` when empty). -/
def list_max (A : List Nat) : Nat := A.foldr max 0

/-- The ceiling of `S / H`. -/
def ceil_div (S H : Nat) : Nat := (S + H - 1) / H

/-! ### Well-formed stepper states -/

/-- The `(order, cores)` pairs listed in `configs` of `test_simple_ode`: the
rows of the table of supported configurations. -/
def supported_configs : List (Nat × Nat) :=
  [(8, 3), (8, 6), (8, 8), (12, 4), (12, 8), (16, 5)]

/-- The output array in which slot `j` holds the smoothed modified midpoint
value for `steps[j]` started from `(t, y)`. -/
def ideal_outputs (f : K → Y → Y) (steps : List Nat) (y : Y) (t dt : K) : List Y :=
  (List.range steps.length).map (fun j => midpoint_smoothed f y t dt (steps.getD j 0))

/-- A stepper in serial mode for system `f`, step counts `steps` and weights
`weights`; the contents of the output slots and of the scratch ring are free. -/
def serial_ok (s : extrapolation_stepper K Y) (f : K → Y → Y) (steps : List Nat)
    (weights : List K) : Prop :=
  s.m_pool = none ∧ s.m_systems.getD 0 (fun _ _ => 0) = f ∧ s.m_step_counts = steps
    ∧ s.m_weights = weights ∧ s.m_outputs.length = steps.length

/-- A stepper in parallel mode with one worker per index list of `PI`; the
contents of the output slots and of the scratch rings are free. -/
def parallel_ok (s : extrapolation_stepper K Y) (f : K → Y → Y) (steps : List Nat)
    (weights : List K) (PI : List (List Nat)) : Prop :=
  s.m_pool = some PI.length ∧ s.m_systems = List.replicate PI.length f
    ∧ s.m_partition_indices = PI ∧ s.m_step_counts = steps
    ∧ s.m_weights = weights ∧ s.m_outputs.length = steps.length

/-- The index lists `PI` name every index below `m` and no other. -/
def covers (PI : List (List Nat)) (m : Nat) : Prop :=
  (∀ j, j < m → j ∈ PI.flatten) ∧ (∀ j ∈ PI.flatten, j < m)

/-! ### Polynomials as coefficient lists

The linear test equation `y' = y` turns every stage of the stepper into
multiplication by a polynomial in the step size; the coefficients are rational
and are computed here as lists, lowest degree first. -/

/-- Sum of two coefficient lists. -/
def padd : List ℚ → List ℚ → List ℚ
  | [], q => q
  | a :: p, [] => a :: p
  | a :: p, b :: q => (a + b) :: padd p q

/-- Coefficient list times a constant. -/
def pscale (c : ℚ) (p : List ℚ) : List ℚ := p.map (fun a => c * a)

/-- Coefficient list times the variable. -/
def pmulX (p : List ℚ) : List ℚ := 0 :: p

/-- Value of a coefficient list at `x` (Horner's rule). -/
def peval {K : Type} [Field K] (p : List ℚ) (x : K) : K :=
  p.foldr (fun a acc => (a : K) + x * acc) 0

/-- The coefficient lists of `z k` and `z (k+1)` of the modified midpoint
sequence for `y' = y`, `y0 = 1`, as polynomials in `h`. -/
def zpair : Nat → List ℚ × List ℚ
  | 0 => ([1], [1, 1])
  | k + 1 =>
    match zpair k with
    | (a, b) => (b, padd a (pscale 2 (pmulX b)))

/-- The smoothed value `(z (n-1) + 2 z n + z (n+1)) / 4` for `y' = y`, `y0 = 1`,
as a polynomial in `h`. -/
def gbs_poly (n : Nat) : List ℚ :=
  match zpair (n - 1) with
  | (a, b) => pscale (1 / 4) (padd (padd a (pscale 2 b)) (padd a (pscale 2 (pmulX b))))

/-- Substitution of `x / n` for the variable: coefficient `k` is divided by `n ^ k`. -/
def pdiv : List ℚ → ℚ → List ℚ
  | [], _ => []
  | a :: p, n => a :: pscale (1 / n) (pdiv p n)

/-- The polynomial in `dt` by which one macro-step with step counts `S` and
weights `W` multiplies the state of `y' = y`: the weighted sum of the
polynomials of the sub-integrations, accumulated in index order. -/
def step_poly (S : List Nat) (W : List ℚ) : List ℚ :=
  (List.range S.length).foldl
    (fun acc j => padd acc (pscale (W.getD j 0) (pdiv (gbs_poly (S.getD j 0)) (S.getD j 0))))
    []

/-- The polynomial of one macro-step for the configuration of `(order, cores)`
(the empty list when the pair has no table entry). -/
def config_poly (order cores : Nat) : List ℚ :=
  match detail.extrap_table order cores with
  | some (_, S, W) => step_poly S W
  | none => []

/-- The number of workers of the parallel stepper for `(order, cores)`: the
number of bins of the partition of its step counts (`0` when there is none). -/
def pool_size (order cores : Nat) : Nat :=
  match detail.extrap_table order cores with
  | some (_, S, _) =>
    match detail.partition S S.length with
    | some bins => bins.length
    | none => 0
  | none => 0

/-! ### The even numbers of `test_partition_sized` -/

/-- The vector `indices` that `test_partition_sized(2 * k)` builds: the even
numbers `2, 4, ..., 2k` in increasing order. -/
def even_numbers (k : Nat) : List Nat := (List.range' 1 k).map (fun i => 2 * i)

/-- The bins that the claim names for the even numbers up to `2k`: `[2k]` first,
then `[2k - 2i, 2i]` for `i = 1, 2, ...` while `2i < k`, and last `[k]` when `k` is
even. -/
def even_bins (k : Nat) : List (List Nat) :=
  [2 * k] :: ((List.range' 1 ((k - 1) / 2)).map (fun i => [2 * k - 2 * i, 2 * i])
    ++ (if k % 2 = 0 then [[k]] else []))

/-- The even numbers `2(b+n-1), ..., 2(b+1), 2b` in decreasing order. -/
def desc_evens (b n : Nat) : List Nat := ((List.range' b n).map (fun i => 2 * i)).reverse

/-! ### The table of supported configurations of the specification -/

/-- The column "# sub-integrations" of the table of supported configurations in
the specification (`0` for a pair that is not in the table). -/
def spec_sub_integrations (order cores : Nat) : Nat :=
  match order, cores with
  | 8, 3 => 4
  | 8, 6 => 11
  | 8, 8 => 15
  | 12, 4 => 6
  | 12, 8 => 15
  | 16, 5 => 8
  | _, _ => 0

/-- The column "ISBn" of the table of supported configurations in the
specification, as decimal fractions (`0` for a pair that is not in the table). -/
def spec_isbn (order cores : Nat) : ℚ :=
  match order, cores with
  | 8, 3 => 5799 / 10000
  | 8, 6 => 7675 / 10000
  | 8, 8 => 8176 / 10000
  | 12, 4 => 4515 / 10000
  | 12, 8 => 7116 / 10000
  | 16, 5 => 4162 / 10000
  | _, _ => 0

/-! ### A concrete stepper, and the times of the sub-steps -/

/-- A serial stepper with the two sub-integrations of step counts 2 and 4 and
the weights `-1/3` and `4/3`, for the system `y' = y` over the rationals; the
concrete stepper of the examples below. -/
def example_stepper : extrapolation_stepper ℚ ℚ :=
  { m_order := 4
    m_isbn := 0
    m_systems := [fun _ y => y]
    m_scratch := [⟨0, 0, 0⟩]
    m_weights := [-1 / 3, 4 / 3]
    m_step_counts := [2, 4]
    m_outputs := [0, 0]
    m_partitions := []
    m_partition_indices := []
    m_pool := none }

/-- The times `t + k*h`, `k = 1..n`, with `h = dt/n`. -/
def substep_times (t dt : K) (n : Nat) : List K :=
  (List.range n).map (fun (k : Nat) => t + ((k : K) + 1) * (dt / (n : K)))

/-! ### The states that the threads of the worker test and of the pool pass through -/

open threading

/-- The states of `test_worker_notify` with `r` rounds, in the order in which
they are passed: position `j = 0..6` of round `k < r`, and position `j = 0..5`
of the join (`k = r`). -/
def worker_test_shape (r k j : Nat) : worker_test :=
  if k < r then
    if j = 0 then
      ⟨⟨false, ⟨false⟩, worker_pc.at_wait⟩, k, false, r, k, test_pc.loop_notify, k⟩
    else if j = 1 then
      ⟨⟨false, ⟨true⟩, worker_pc.at_wait⟩, k, false, r, k, test_pc.loop_poll, k⟩
    else if j = 2 then
      ⟨⟨false, ⟨false⟩, worker_pc.at_check⟩, k, false, r, k, test_pc.loop_poll, k + 1⟩
    else if j = 3 then
      ⟨⟨false, ⟨false⟩, worker_pc.at_call⟩, k, false, r, k, test_pc.loop_poll, k + 1⟩
    else if j = 4 then
      ⟨⟨false, ⟨false⟩, worker_pc.in_target⟩, k + 1, false, r, k, test_pc.loop_poll, k + 1⟩
    else if j = 5 then
      ⟨⟨false, ⟨false⟩, worker_pc.at_wait⟩, k + 1, true, r, k, test_pc.loop_poll, k + 1⟩
    else
      ⟨⟨false, ⟨false⟩, worker_pc.at_wait⟩, k + 1, true, r, k, test_pc.loop_clear, k + 1⟩
  else
    if j = 0 then
      ⟨⟨false, ⟨false⟩, worker_pc.at_wait⟩, r, false, r, r, test_pc.join_flag, r⟩
    else if j = 1 then
      ⟨⟨true, ⟨false⟩, worker_pc.at_wait⟩, r, false, r, r, test_pc.join_notify, r⟩
    else if j = 2 then
      ⟨⟨true, ⟨true⟩, worker_pc.at_wait⟩, r, false, r, r, test_pc.join_thread, r⟩
    else if j = 3 then
      ⟨⟨true, ⟨false⟩, worker_pc.at_check⟩, r, false, r, r, test_pc.join_thread, r⟩
    else if j = 4 then
      ⟨⟨true, ⟨false⟩, worker_pc.exited⟩, r, false, r, r, test_pc.join_thread, r⟩
    else
      ⟨⟨true, ⟨false⟩, worker_pc.exited⟩, r, false, r, r, test_pc.finished, r⟩

/-- The positions that occur: `j < 7` in a round `k < r`, `j < 6` in the join. -/
def worker_test_valid (r k j : Nat) : Prop := (k < r ∧ j < 7) ∨ (k = r ∧ j < 6)

/-- The slot of a worker in phase `p` of the call number `c + 1` of `process()`:
not notified (0), notified (1), past `wait()` (2), at the call (3), past
`function(args...)` (4), counted and back in `wait()` (5). -/
def pool_slot (c p : Nat) : pool_worker :=
  if p = 0 then ⟨⟨false, ⟨false⟩, worker_pc.at_wait⟩, c⟩
  else if p = 1 then ⟨⟨false, ⟨true⟩, worker_pc.at_wait⟩, c⟩
  else if p = 2 then ⟨⟨false, ⟨false⟩, worker_pc.at_check⟩, c⟩
  else if p = 3 then ⟨⟨false, ⟨false⟩, worker_pc.at_call⟩, c⟩
  else if p = 4 then ⟨⟨false, ⟨false⟩, worker_pc.in_target⟩, c + 1⟩
  else ⟨⟨false, ⟨false⟩, worker_pc.at_wait⟩, c + 1⟩

/-- The state of the pool in which `c` calls have returned, the workers below
`ii` have been notified and worker `i` is in phase `phases[i]`. -/
def pool_abs (r c ii : Nat) (phases : List Nat) : pool :=
  ⟨phases.map (pool_slot c), phases.count 5, ii, c, r⟩

/-- The phases that occur with `N` workers and `r` calls: the notified workers
are in the phases 1 to 5, the others in phase 0. -/
def pool_valid (N r c ii : Nat) (phases : List Nat) : Prop :=
  phases.length = N ∧ ii ≤ N ∧ c ≤ r ∧ (c = r → ii = 0)
    ∧ ∀ i, i < N → (i < ii → 1 ≤ phases.getD i 0 ∧ phases.getD i 0 ≤ 5)
        ∧ (ii ≤ i → phases.getD i 0 = 0)

/-- The number of steps taken to reach `pool_abs r c ii phases`. -/
def pool_rank (N c ii : Nat) (phases : List Nat) : Nat :=
  c * (5 * N + 1) + ii + (phases.map Nat.pred).sum

/-! ### The moments of a configuration -/

/-- The moment `w[0] / s[0]^(2k) + w[1] / s[1]^(2k) + ...` of step counts `S`
and weights `W`. -/
def moment (S : List Nat) (W : List ℚ) (k : Nat) : ℚ :=
  (List.zipWith (fun (s : Nat) (w : ℚ) => w / (s : ℚ) ^ (2 * k)) S W).sum

/-- The moment of the configuration of a pair `(order, cores)` (`1` when the
pair has no configuration). -/
def config_moment (order cores k : Nat) : ℚ :=
  match detail.extrap_table order cores with
  | some (_, S, W) => moment S W k
  | none => 1

/-! ### Classical first-fit, element by element -/

/-- Put `x` into the lowest-numbered bin where it still fits (the sum of the
bin plus `x` is at most `H`); `none` when it fits in no bin. -/
def ffd_insert (H x : Nat) : List (List Nat) → Option (List (List Nat))
  | [] => none
  | b :: bins =>
    if b.sum + x ≤ H then some ((b ++ [x]) :: bins)
    else (ffd_insert H x bins).map (fun r => b :: r)

/-- Take the elements in order and put each into the lowest-numbered bin where
it still fits; returns the bins and the elements that fit in no bin. -/
def ffd_run (H : Nat) : List Nat → List (List Nat) → List (List Nat) × List Nat
  | [], bins => (bins, [])
  | x :: a, bins =>
    match ffd_insert H x bins with
    | some bins2 => ffd_run H a bins2
    | none => ((ffd_run H a bins).1, x :: (ffd_run H a bins).2)

/-- Classical first-fit of the list `a` into `k` empty bins of height `H`. -/
def ffd (H k : Nat) (a : List Nat) : List (List Nat) × List Nat :=
  ffd_run H a (List.replicate k [])

end Invariants

/-! # Theorems -/

/-! ## Theorems about `gbs::step` -/

section GbsTheorems

open steppers

variable {K Y : Type} [Field K] [AddCommGroup Y] [Module K Y]

theorem ring_inv_body (f : K → Y → Y) (y0 : Y) (t h : K) (j : Nat)
    (st : Nat × K × scratch_type Y) (hinv : ring_inv f y0 t h j st) :
    ring_inv f y0 t h (j + 1) (gbs.leapfrog_body f h st) := by
  obtain ⟨cur, tn, s⟩ := st
  obtain ⟨hcur, htn, h1, h2, -⟩ := hinv
  simp only at hcur htn h1 h2
  have htn' : tn + h = t + ((j + 1 + 1 : Nat) : K) * h := by
    rw [htn]; push_cast; ring
  have hz : midpoint_z f y0 t h (j + 1 + 2)
      = midpoint_z f y0 t h (j + 1)
        + (2 * h) • f (t + ((j + 1 + 1 : Nat) : K) * h) (midpoint_z f y0 t h (j + 2)) := by
    show midpoint_z f y0 t h (j + 1 + 2) = _
    rw [midpoint_z]
  interval_cases cur
  · simp only [Nat.reduceAdd, Nat.reduceMod] at h1 h2
    refine ⟨by simp [gbs.leapfrog_body], by simp [gbs.leapfrog_body, htn'], ?_, ?_, ?_⟩
    · simpa [gbs.leapfrog_body, gbs.inds, scratch_type.get, scratch_type.set] using h2
    · simp only [gbs.leapfrog_body, gbs.inds, scratch_type.get, scratch_type.set,
        Nat.reduceAdd, Nat.reduceMod, Nat.reduceLT, Nat.lt_irrefl, reduceIte]
      simp only [scratch_type.get] at h1 h2
      rw [h1, h2, htn', hz]
    · intro _
      simpa [gbs.leapfrog_body, gbs.inds, scratch_type.get, scratch_type.set] using h1
  · simp only [Nat.reduceAdd, Nat.reduceMod] at h1 h2
    refine ⟨by simp [gbs.leapfrog_body], by simp [gbs.leapfrog_body, htn'], ?_, ?_, ?_⟩
    · simpa [gbs.leapfrog_body, gbs.inds, scratch_type.get, scratch_type.set] using h2
    · simp only [gbs.leapfrog_body, gbs.inds, scratch_type.get, scratch_type.set,
        Nat.reduceAdd, Nat.reduceMod, Nat.reduceLT, Nat.lt_irrefl, reduceIte]
      simp only [scratch_type.get] at h1 h2
      rw [h1, h2, htn', hz]
    · intro _
      simpa [gbs.leapfrog_body, gbs.inds, scratch_type.get, scratch_type.set] using h1
  · simp only [Nat.reduceAdd, Nat.reduceMod] at h1 h2
    refine ⟨by simp [gbs.leapfrog_body], by simp [gbs.leapfrog_body, htn'], ?_, ?_, ?_⟩
    · simpa [gbs.leapfrog_body, gbs.inds, scratch_type.get, scratch_type.set] using h2
    · simp only [gbs.leapfrog_body, gbs.inds, scratch_type.get, scratch_type.set,
        Nat.reduceAdd, Nat.reduceMod, Nat.reduceLT, Nat.lt_irrefl, reduceIte]
      simp only [scratch_type.get] at h1 h2
      rw [h1, h2, htn', hz]
    · intro _
      simpa [gbs.leapfrog_body, gbs.inds, scratch_type.get, scratch_type.set] using h1

theorem ring_inv_leapfrog (f : K → Y → Y) (y0 : Y) (t h : K) (iters : Nat) :
    ∀ (j : Nat) (st : Nat × K × scratch_type Y), ring_inv f y0 t h j st →
      ring_inv f y0 t h (j + iters) (gbs.leapfrog f h iters st) := by
  induction iters with
  | zero => intro j st hinv; simpa [gbs.leapfrog] using hinv
  | succ k ih =>
    intro j st hinv
    have := ih (j + 1) _ (ring_inv_body f y0 t h j st hinv)
    rw [gbs.leapfrog]
    rwa [show j + (k + 1) = j + 1 + k by omega]

/-- For `cur < 3` row `cur` of `inds` is `cur`, `cur + 1`, `cur + 2` modulo 3. -/
theorem inds_eq (cur : Nat) (hcur : cur < 3) :
    gbs.inds cur = (cur, (cur + 1) % 3, (cur + 2) % 3) := by
  interval_cases cur <;> rfl

/-- The state of `gbs::step` on entry to the leap frog loop satisfies the ring
invariant for `j = 0`, whatever the scratch slots held before. -/
theorem ring_inv_init (f : K → Y → Y) (y0 : Y) (t h : K) (scratch : scratch_type Y) :
    ring_inv f y0 t h 0
      (2, t + h, (scratch.set 0 (y0 + h • f t y0)).set 1
        (y0 + (2 * h) • f (t + h) ((scratch.set 0 (y0 + h • f t y0)).get 0))) := by
  refine ⟨by norm_num, by simp, ?_, ?_, ?_⟩
  · simp [scratch_type.get, scratch_type.set, midpoint_z]
  · simp [scratch_type.get, scratch_type.set, midpoint_z]
  · intro h0; omega

/-- For `n ≥ 2` the output of `gbs::step` is the smoothed modified midpoint
value, whatever the scratch ring held on entry. -/
theorem gbs_step_fst (f : K → Y → Y) (y0 : Y) (t dt : K) (n : Nat)
    (scratch : scratch_type Y) (hn : 2 ≤ n) :
    (gbs.step f y0 t dt n (f t y0) scratch).1 = midpoint_smoothed f y0 t dt n := by
  have hinv := ring_inv_leapfrog f y0 t (dt / (n : K)) (n - 1) 0 _
    (ring_inv_init f y0 t (dt / (n : K)) scratch)
  obtain ⟨hcur, -, h1, h2, h0⟩ := hinv
  have h0' := h0 (by omega)
  rw [show 0 + (n - 1) + 1 = n by omega] at h1
  rw [show 0 + (n - 1) + 2 = n + 1 by omega] at h2
  rw [show 0 + (n - 1) = n - 1 by omega] at h0'
  simp only [gbs.step, midpoint_smoothed]
  rw [inds_eq _ hcur]
  simp only
  rw [h0', h1, h2]

/-- **C2.** For every system `f`, start state `y0`, time `t`, step `dt`,
subinterval count `n ≥ 2` and whatever the scratch ring held on entry,
`gbs::step` called with `f0 = f(t, y0)` returns
`(z (n-1) + 2 z n + z (n+1)) / 4` for the modified midpoint sequence `z` with
`z 0 = y0`, `z 1 = y0 + h f0`, `z (k+1) = z (k-1) + 2 h f(t + k h, z k)` and
`h = dt / n`: the three-slot ring buffer computes the modified midpoint
recurrence with final smoothing. -/
theorem gbs_step_eq_midpoint (f : K → Y → Y) (y0 : Y) (t dt : K) (n : Nat)
    (scratch : scratch_type Y) (hn : 2 ≤ n) :
    (gbs.step f y0 t dt n (f t y0) scratch).1
      = (1 / 4 : K) • (midpoint_z f y0 t (dt / (n : K)) (n - 1)
          + (2 : K) • midpoint_z f y0 t (dt / (n : K)) n
          + midpoint_z f y0 t (dt / (n : K)) (n + 1)) := by
  obtain ⟨hcur, -, h1, h2, h0⟩ := ring_inv_leapfrog f y0 t (dt / (n : K)) (n - 1) 0 _
    (ring_inv_init f y0 t (dt / (n : K)) scratch)
  have h0' := h0 (by omega)
  rw [show 0 + (n - 1) + 1 = n by omega] at h1
  rw [show 0 + (n - 1) + 2 = n + 1 by omega] at h2
  rw [show 0 + (n - 1) = n - 1 by omega] at h0'
  simp only [gbs.step]
  rw [inds_eq _ hcur]
  simp only
  rw [h0', h1, h2]

end GbsTheorems

/-! ## Theorems about `_try_partition` and `partition` -/

section PartitionTheorems

open detail

theorem unused_replicate_false (a : List Nat) :
    unused a (List.replicate a.length false) = a := by
  induction a with
  | nil => rfl
  | cons x a ih => simp [List.replicate_succ, unused, ih]

theorem all_used_iff : ∀ (a : List Nat) (used : List Bool), a.length = used.length →
    (used.all id = true ↔ unused a used = [])
  | [], [], _ => by simp [unused]
  | [], _ :: _, h => by simp at h
  | _ :: _, [], h => by simp at h
  | x :: a, u :: used, h => by
    have ih := all_used_iff a used (by simpa using h)
    cases u
    · simp [unused]
    · simpa [unused] using ih

/-- The inner loop of `_try_partition` is one bin of the first-fit pass on the
unused elements, as long as the sums stay below `2 ^ 64`. -/
theorem scan_eq_spec (H : Nat) : ∀ (a : List Nat) (used : List Bool) (sum : Nat) (bin : List Nat),
    a.length = used.length → sum ≤ H → (∀ x ∈ a, H + x < SIZE_MOD) →
    (_try_partition.scan H a used sum bin).2.1 = bin ++ (spec_fill_bin H (unused a used) sum).1
    ∧ unused a (_try_partition.scan H a used sum bin).2.2
        = (spec_fill_bin H (unused a used) sum).2
    ∧ (_try_partition.scan H a used sum bin).2.2.length = used.length
  | [], [], sum, bin, _, _, _ => by simp [_try_partition.scan, unused, spec_fill_bin]
  | [], _ :: _, _, _, h, _, _ => by simp at h
  | _ :: _, [], _, _, h, _, _ => by simp at h
  | x :: a, u :: used, sum, bin, h, hsum, hx => by
    have hlen : a.length = used.length := by simpa using h
    have hx' : ∀ y ∈ a, H + y < SIZE_MOD := fun y hy => hx y (List.mem_cons_of_mem _ hy)
    cases u
    · have hmod : (sum + x) % SIZE_MOD = sum + x :=
        Nat.mod_eq_of_lt (lt_of_le_of_lt (Nat.add_le_add_right hsum x)
          (hx x (List.mem_cons_self _ _)))
      by_cases hfit : sum + x ≤ H
      · obtain ⟨h1, h2, h3⟩ := scan_eq_spec H a used (sum + x) (bin ++ [x]) hlen hfit hx'
        simp [_try_partition.scan, unused, spec_fill_bin, hmod, hfit, h1, h2, h3]
      · obtain ⟨h1, h2, h3⟩ := scan_eq_spec H a used sum bin hlen hsum hx'
        simp [_try_partition.scan, unused, spec_fill_bin, hmod, hfit, h1, h2, h3]
    · obtain ⟨h1, h2, h3⟩ := scan_eq_spec H a used sum bin hlen hsum hx'
      simp [_try_partition.scan, unused, h1, h2, h3]

/-- The outer loop of `_try_partition` is the first-fit pass on the unused
elements. -/
theorem fill_eq_spec (H : Nat) (a : List Nat) (hx : ∀ x ∈ a, H + x < SIZE_MOD) :
    ∀ (k : Nat) (used : List Bool), a.length = used.length →
      (_try_partition.fill a H k used).1 = (spec_first_fit H k (unused a used)).1
      ∧ unused a (_try_partition.fill a H k used).2 = (spec_first_fit H k (unused a used)).2
      ∧ (_try_partition.fill a H k used).2.length = used.length := by
  intro k
  induction k with
  | zero => intro used _; simp [_try_partition.fill, spec_first_fit]
  | succ k ih =>
    intro used hlen
    obtain ⟨h1, h2, h3⟩ := scan_eq_spec H a used 0 [] hlen (Nat.zero_le _) hx
    obtain ⟨g1, g2, g3⟩ := ih (_try_partition.scan H a used 0 []).2.2 (by rw [h3]; exact hlen)
    simp only [_try_partition.fill, spec_first_fit]
    rw [g1, g2, g3, h2, h3, h1]
    simp

/-- The function `_try_partition` returns the bins of the first-fit pass when
the pass places every element, and the empty vector otherwise. -/
theorem try_partition_eq_spec (H k : Nat) (a : List Nat) (hx : ∀ x ∈ a, H + x < SIZE_MOD) :
    _try_partition a a.length k H
      = if spec_places_all H k a then (spec_first_fit H k a).1 else [] := by
  obtain ⟨h1, h2, h3⟩ := fill_eq_spec H a hx k (List.replicate a.length false) (by simp)
  rw [unused_replicate_false] at h1 h2
  have hiff := all_used_iff a (_try_partition.fill a H k (List.replicate a.length false)).2
    (by rw [h3]; simp)
  rw [h2] at hiff
  unfold _try_partition spec_places_all
  simp only [h1]
  by_cases hp : (spec_first_fit H k a).2 = []
  · rw [if_pos (hiff.mpr hp), if_pos hp]
  · rw [if_neg (fun h => hp (hiff.mp h)), if_neg hp]

/-! ### Properties of the first-fit pass -/

theorem spec_fill_bin_perm (H : Nat) : ∀ (remaining : List Nat) (sum : Nat),
    ((spec_fill_bin H remaining sum).1 ++ (spec_fill_bin H remaining sum).2).Perm remaining
  | [], _ => by simp [spec_fill_bin]
  | x :: rest, sum => by
    by_cases hfit : sum + x ≤ H
    · simpa [spec_fill_bin, hfit] using spec_fill_bin_perm H rest (sum + x)
    · simp only [spec_fill_bin, hfit, if_false]
      exact List.perm_middle.trans ((spec_fill_bin_perm H rest sum).cons x)

theorem spec_fill_bin_sum (H : Nat) : ∀ (remaining : List Nat) (sum : Nat), sum ≤ H →
    sum + (spec_fill_bin H remaining sum).1.sum ≤ H
  | [], _, h => by simpa [spec_fill_bin] using h
  | x :: rest, sum, h => by
    by_cases hfit : sum + x ≤ H
    · have := spec_fill_bin_sum H rest (sum + x) hfit
      simp only [spec_fill_bin, hfit, if_true, List.sum_cons]
      omega
    · simpa [spec_fill_bin, hfit] using spec_fill_bin_sum H rest sum h

theorem spec_fill_bin_left_length (H : Nat) : ∀ (remaining : List Nat) (sum : Nat),
    (spec_fill_bin H remaining sum).2.length ≤ remaining.length
  | [], _ => by simp [spec_fill_bin]
  | x :: rest, sum => by
    have h1 := spec_fill_bin_left_length H rest (sum + x)
    have h2 := spec_fill_bin_left_length H rest sum
    by_cases hfit : sum + x ≤ H
    · simp only [spec_fill_bin, hfit, if_true, List.length_cons]; omega
    · simp only [spec_fill_bin, hfit, if_false, List.length_cons]; omega

theorem spec_fill_bin_left_mem (H : Nat) (remaining : List Nat) (sum x : Nat)
    (hx : x ∈ (spec_fill_bin H remaining sum).2) : x ∈ remaining :=
  (spec_fill_bin_perm H remaining sum).subset (List.mem_append_right _ hx)

/-- A bin that starts empty takes at least the first remaining element when
that element is at most `H`. -/
theorem spec_fill_bin_progress (H : Nat) (remaining : List Nat) (hne : remaining ≠ [])
    (hle : ∀ x ∈ remaining, x ≤ H) :
    (spec_fill_bin H remaining 0).2.length < remaining.length := by
  cases remaining with
  | nil => exact absurd rfl hne
  | cons x rest =>
    have hfit : 0 + x ≤ H := by simpa using hle x (List.mem_cons_self _ _)
    have := spec_fill_bin_left_length H rest (0 + x)
    simp only [spec_fill_bin, hfit, if_true, List.length_cons]
    omega

theorem spec_first_fit_length (H : Nat) : ∀ (k : Nat) (remaining : List Nat),
    (spec_first_fit H k remaining).1.length = k
  | 0, _ => rfl
  | k + 1, remaining => by
    simp [spec_first_fit, spec_first_fit_length H k]

theorem spec_first_fit_perm (H : Nat) : ∀ (k : Nat) (remaining : List Nat),
    ((spec_first_fit H k remaining).1.flatten ++ (spec_first_fit H k remaining).2).Perm remaining
  | 0, _ => by simp [spec_first_fit]
  | k + 1, remaining => by
    simp only [spec_first_fit, List.flatten_cons, List.append_assoc]
    exact ((spec_first_fit_perm H k _).append_left _).trans (spec_fill_bin_perm H remaining 0)

theorem spec_first_fit_sum (H : Nat) : ∀ (k : Nat) (remaining : List Nat),
    ∀ b ∈ (spec_first_fit H k remaining).1, b.sum ≤ H
  | 0, _ => by simp [spec_first_fit]
  | k + 1, remaining => by
    intro b hb
    simp only [spec_first_fit, List.mem_cons] at hb
    rcases hb with rfl | hb
    · simpa using spec_fill_bin_sum H remaining 0 (Nat.zero_le _)
    · exact spec_first_fit_sum H k _ b hb

/-- Every bin takes at least one element while elements remain: `k` bins leave
at most `|remaining| - k` elements. -/
theorem spec_first_fit_left_length (H : Nat) : ∀ (k : Nat) (remaining : List Nat),
    (∀ x ∈ remaining, x ≤ H) → (spec_first_fit H k remaining).2.length ≤ remaining.length - k
  | 0, _, _ => by simp [spec_first_fit]
  | k + 1, remaining, hle => by
    have hle' : ∀ x ∈ (spec_fill_bin H remaining 0).2, x ≤ H :=
      fun x hx => hle x (spec_fill_bin_left_mem H remaining 0 x hx)
    have ih := spec_first_fit_left_length H k _ hle'
    simp only [spec_first_fit]
    by_cases hne : remaining = []
    · subst hne
      simpa [spec_fill_bin] using ih
    · have := spec_fill_bin_progress H remaining hne hle
      omega

/-- With as many bins as elements the first-fit pass places every element. -/
theorem spec_places_all_length (H : Nat) (remaining : List Nat) (hle : ∀ x ∈ remaining, x ≤ H) :
    spec_places_all H remaining.length remaining := by
  have := spec_first_fit_left_length H remaining.length remaining hle
  unfold spec_places_all
  exact List.length_eq_zero.mp (by omega)

/-- A pass that places every element shows `sum ≤ k * H`. -/
theorem spec_places_all_sum_le (H k : Nat) (remaining : List Nat)
    (hall : spec_places_all H k remaining) : remaining.sum ≤ k * H := by
  have hperm := spec_first_fit_perm H k remaining
  unfold spec_places_all at hall
  rw [hall, List.append_nil] at hperm
  rw [← hperm.sum_eq, List.sum_flatten]
  have := List.sum_le_card_nsmul ((spec_first_fit H k remaining).1.map List.sum) H
    (by
      intro x hx
      obtain ⟨b, hb, rfl⟩ := List.mem_map.mp hx
      exact spec_first_fit_sum H k remaining b hb)
  simpa [spec_first_fit_length] using this

/-! ### Sorting, maximum, sum and `ceildiv` -/

theorem sort_desc_perm (A : List Nat) : (sort_desc A).Perm A :=
  List.perm_insertionSort _ A

theorem le_list_max : ∀ (A : List Nat) (x : Nat), x ∈ A → x ≤ list_max A
  | [], _, h => by simp at h
  | y :: A, x, h => by
    rcases List.mem_cons.mp h with rfl | h
    · exact le_max_left _ _
    · exact le_trans (le_list_max A x h) (le_max_right _ _)

theorem list_max_le : ∀ (A : List Nat) (b : Nat), (∀ x ∈ A, x ≤ b) → list_max A ≤ b
  | [], _, _ => Nat.zero_le _
  | y :: A, b, h => by
    have h1 : y ≤ b := h y (List.mem_cons_self _ _)
    have h2 := list_max_le A b (fun x hx => h x (List.mem_cons_of_mem _ hx))
    exact max_le h1 h2

theorem list_max_mem : ∀ (A : List Nat), A ≠ [] → list_max A ∈ A
  | [], h => absurd rfl h
  | [x], _ => by simp [list_max]
  | x :: y :: A, _ => by
    have ih := list_max_mem (y :: A) (by simp)
    show max x (list_max (y :: A)) ∈ x :: y :: A
    rcases max_choice x (list_max (y :: A)) with h | h
    · rw [h]; exact List.mem_cons_self _ _
    · rw [h]; exact List.mem_cons_of_mem _ ih

theorem list_max_perm (A B : List Nat) (h : A.Perm B) : list_max A = list_max B :=
  le_antisymm
    (list_max_le A _ (fun x hx => le_list_max B x (h.subset hx)))
    (list_max_le B _ (fun x hx => le_list_max A x (h.symm.subset hx)))

/-- The first element of the descending sort is the maximum. -/
theorem head_sort_desc (A : List Nat) (hne : A ≠ []) :
    (sort_desc A).head? = some (list_max A) := by
  have hperm := sort_desc_perm A
  have hsorted : (sort_desc A).Sorted (fun x y => y ≤ x) :=
    List.sorted_insertionSort (fun x y => y ≤ x) A
  rw [← list_max_perm _ _ hperm]
  cases hS : sort_desc A with
  | nil =>
    rw [hS] at hperm
    exact absurd hperm.symm.eq_nil hne
  | cons x l =>
    rw [hS] at hsorted
    have hall : ∀ y ∈ l, y ≤ x := List.rel_of_sorted_cons hsorted
    have : list_max (x :: l) = x := by
      show max x (list_max l) = x
      exact max_eq_left (list_max_le l x hall)
    simp [this]

theorem foldl_add_mod (M : Nat) : ∀ (l : List Nat) (c : Nat), c < M →
    l.foldl (fun acc x => (acc + x) % M) c = (c + l.sum) % M
  | [], c, hc => by simp [Nat.mod_eq_of_lt hc]
  | x :: l, c, hc => by
    have hM : 0 < M := by omega
    rw [List.foldl_cons, foldl_add_mod M l _ (Nat.mod_lt _ hM), List.sum_cons,
      Nat.mod_add_mod, Nat.add_assoc]

theorem to_int_of_lt (x : Nat) (hx : x < 2 ^ 31) : to_int x = (x : Int) := by
  have h32 : x % 2 ^ 32 = x := Nat.mod_eq_of_lt (by omega)
  unfold to_int
  rw [h32, if_pos hx]

/-- Within the range of `int` the lambda `ceildiv` computes the quotient rounded
down: `-(-num / den)` with truncating division is `num / den`. -/
theorem ceildiv_of_lt (num den : Nat) (hnum : num < 2 ^ 31) (hden : den < 2 ^ 31)
    (hpos : 0 < den) : ceildiv num den = some (num / den) := by
  unfold ceildiv
  rw [to_int_of_lt num hnum, to_int_of_lt den hden]
  have h1 : ¬ ((den : Int) = 0 ∨ (num : Int) = -(2 ^ 31)) := by
    intro h
    rcases h with h | h
    · have : den = 0 := by exact_mod_cast h
      omega
    · have : (0 : Int) ≤ (num : Int) := Int.ofNat_nonneg _
      omega
  rw [if_neg h1, Int.neg_tdiv, neg_neg, ← Int.ofNat_tdiv]
  have hq : num / den < 2 ^ 64 := lt_of_le_of_lt (Nat.div_le_self _ _) (by omega)
  unfold to_size_t
  congr 1
  have : ((num / den : Nat) : Int) % (2 ^ 64 : Int) = ((num / den : Nat) : Int) :=
    Int.emod_eq_of_lt (Int.ofNat_nonneg _) (by exact_mod_cast hq)
  rw [this, Int.toNat_ofNat]

/-! ### The search loop of `partition` -/

/-- The loop of `partition` stops at the first bin count from `ii` on at which
the first-fit pass places every element, and returns the bins of that pass. -/
theorem search_eq_spec (H : Nat) (sorted : List Nat) (hx : ∀ x ∈ sorted, H + x < SIZE_MOD) :
    ∀ (fuel ii : Nat), 1 ≤ ii →
      (∃ k, ii ≤ k ∧ k < ii + fuel ∧ spec_places_all H k sorted) →
      ∃ k, ii ≤ k ∧ k < ii + fuel ∧ spec_places_all H k sorted
        ∧ (∀ k', ii ≤ k' → k' < k → ¬ spec_places_all H k' sorted)
        ∧ partition.search sorted sorted.length H fuel ii = (spec_first_fit H k sorted).1 := by
  intro fuel
  induction fuel with
  | zero =>
    rintro ii _ ⟨k, h1, h2, _⟩
    omega
  | succ fuel ih =>
    rintro ii hii ⟨k, h1, h2, h3⟩
    by_cases hp : spec_places_all H ii sorted
    · refine ⟨ii, le_refl _, by omega, hp, fun k' h h' => by omega, ?_⟩
      have hne : (spec_first_fit H ii sorted).1 ≠ [] := by
        intro h
        have := spec_first_fit_length H ii sorted
        rw [h] at this
        simp at this
        omega
      simp only [partition.search, try_partition_eq_spec H ii sorted hx, if_pos hp]
      cases hb : (spec_first_fit H ii sorted).1 with
      | nil => exact absurd hb hne
      | cons b bs => simp
    · have hk : ii + 1 ≤ k := by
        rcases Nat.eq_or_lt_of_le h1 with h | h
        · subst h; exact absurd h3 hp
        · exact h
      obtain ⟨k0, g1, g2, g3, g4, g5⟩ := ih (ii + 1) (by omega) ⟨k, hk, by omega, h3⟩
      refine ⟨k0, by omega, by omega, g3, ?_, ?_⟩
      · intro k' hk1 hk2
        rcases Nat.eq_or_lt_of_le hk1 with h | h
        · subst h; exact hp
        · exact g4 k' h hk2
      · simp only [partition.search, try_partition_eq_spec H ii sorted hx, if_neg hp]
        simpa using g5

/-! ### `partition` on lists within the range of `int` -/

/-- On a non-empty list of positive integers whose sum is below `2 ^ 31`,
`partition` returns the bins of the first-fit pass over the descending sort with
`k` bins of height `max(A)`, for the least `k` at which the pass places every
element; that `k` lies between 1 and `|A|`. -/
theorem partition_core (A : List Nat) (hne : A ≠ []) (hpos : ∀ x ∈ A, 0 < x)
    (hsum : A.sum < 2 ^ 31) :
    ∃ k, 1 ≤ k ∧ k ≤ A.length ∧ spec_places_all (list_max A) k (sort_desc A)
      ∧ (∀ k', k' < k → ¬ spec_places_all (list_max A) k' (sort_desc A))
      ∧ partition A A.length = some (spec_first_fit (list_max A) k (sort_desc A)).1 := by
  have hperm := sort_desc_perm A
  have hlen : (sort_desc A).length = A.length := hperm.length_eq
  have hHmem : list_max A ∈ A := list_max_mem A hne
  have hHpos : 0 < list_max A := hpos _ hHmem
  have hHle : list_max A ≤ A.sum := List.single_le_sum (fun x _ => Nat.zero_le x) _ hHmem
  have hle : ∀ x ∈ sort_desc A, x ≤ list_max A :=
    fun x hx => le_list_max A x (hperm.subset hx)
  have hx : ∀ x ∈ sort_desc A, list_max A + x < SIZE_MOD := by
    intro x hx
    have := hle x hx
    have h64 : (2 : Nat) ^ 31 + 2 ^ 31 < SIZE_MOD := by unfold SIZE_MOD; norm_num
    omega
  have hSn : A.sum ≤ A.length * list_max A := by
    have := List.sum_le_card_nsmul A (list_max A) (fun x hx => le_list_max A x hx)
    simpa using this
  have hfirst1 : 1 ≤ A.sum / list_max A := (Nat.one_le_div_iff hHpos).mpr hHle
  have hfirstn : A.sum / list_max A ≤ A.length := Nat.div_le_of_le_mul (by
    rw [Nat.mul_comm]; exact hSn)
  have hall : spec_places_all (list_max A) A.length (sort_desc A) := by
    have := spec_places_all_length (list_max A) (sort_desc A) hle
    rwa [hlen] at this
  obtain ⟨k, g1, g2, g3, g4, g5⟩ := search_eq_spec (list_max A) (sort_desc A) hx
    (A.length + 1 - A.sum / list_max A) (A.sum / list_max A) hfirst1
    ⟨A.length, hfirstn, by omega, hall⟩
  refine ⟨k, by omega, by omega, g3, ?_, ?_⟩
  · intro k' hk' hp
    by_cases hlow : A.sum / list_max A ≤ k'
    · exact g4 k' hlow hk' hp
    · have hS := spec_places_all_sum_le (list_max A) k' (sort_desc A) hp
      rw [hperm.sum_eq] at hS
      have : A.sum / list_max A ≤ k' := Nat.div_le_of_le_mul (by rw [Nat.mul_comm]; exact hS)
      exact hlow this
  · have hsumfold : (sort_desc A).foldl (fun acc x => (acc + x) % SIZE_MOD) 0 = A.sum := by
      rw [foldl_add_mod SIZE_MOD _ 0 (by unfold SIZE_MOD; norm_num), Nat.zero_add,
        hperm.sum_eq]
      exact Nat.mod_eq_of_lt (lt_trans hsum (by unfold SIZE_MOD; norm_num))
    have hcd : ceildiv A.sum (list_max A) = some (A.sum / list_max A) :=
      ceildiv_of_lt _ _ hsum (lt_of_le_of_lt hHle hsum) hHpos
    have htake : A.take A.length = A := List.take_length A
    have hhead := head_sort_desc A hne
    rw [hlen] at g5
    unfold partition
    simp only [htake]
    show (match (sort_desc A).head? with
      | none => none
      | some maxheight =>
        match ceildiv ((sort_desc A).foldl (fun acc x => (acc + x) % SIZE_MOD) 0) maxheight with
        | none => none
        | some first =>
          some (partition.search (sort_desc A) A.length maxheight (A.length + 1 - first) first))
      = _
    rw [hhead]
    simp only [hsumfold, hcd, g5]

/-! ### The claims about `partition` -/

/-- As long as no bin sum wraps around, every bin that the search loop of
`partition` returns sums to at most the height. -/
theorem search_bin_sum (H : Nat) (sorted : List Nat) (hx : ∀ x ∈ sorted, H + x < SIZE_MOD) :
    ∀ (fuel ii : Nat), ∀ b ∈ partition.search sorted sorted.length H fuel ii, b.sum ≤ H
  | 0, _ => by simp [partition.search]
  | fuel + 1, ii => by
    intro b hb
    simp only [partition.search] at hb
    split_ifs at hb
    · rw [try_partition_eq_spec H ii sorted hx] at hb
      split_ifs at hb
      · exact spec_first_fit_sum H ii sorted b hb
      · simp at hb
    · exact search_bin_sum H sorted hx fuel (ii + 1) b hb

/-- As long as no bin sum wraps around, every bin that `partition` returns sums
to at most the maximum of the input. -/
theorem partition_bin_sum_aux (A : List Nat) (hx : ∀ x ∈ A, list_max A + x < SIZE_MOD)
    (bins : List (List Nat)) (h : partition A A.length = some bins) :
    ∀ b ∈ bins, b.sum ≤ list_max A := by
  have hne : A ≠ [] := by
    rintro rfl
    simp [partition] at h
  have hlen : (sort_desc A).length = A.length := (sort_desc_perm A).length_eq
  have hxs : ∀ x ∈ sort_desc A, list_max A + x < SIZE_MOD :=
    fun x hx2 => hx x ((sort_desc_perm A).subset hx2)
  unfold partition at h
  rw [List.take_length] at h
  change (match (sort_desc A).head? with
    | none => none
    | some maxheight =>
      match ceildiv ((sort_desc A).foldl (fun acc x => (acc + x) % SIZE_MOD) 0) maxheight with
      | none => none
      | some first =>
        some (partition.search (sort_desc A) A.length maxheight (A.length + 1 - first) first))
    = some bins at h
  rw [head_sort_desc A hne] at h
  simp only at h
  cases hc : ceildiv ((sort_desc A).foldl (fun acc x => (acc + x) % SIZE_MOD) 0) (list_max A) with
  | none => rw [hc] at h; simp at h
  | some first =>
    rw [hc] at h
    simp only [Option.some.injEq] at h
    subst h
    rw [← hlen]
    exact search_bin_sum (list_max A) (sort_desc A) hxs _ _

/-- **C7, as stated, fails.** On `[2 ^ 64 - 1, 2 ^ 64 - 1]` the sum
`sums[ii] + a[jj]` wraps around in `std::size_t`, both elements land in the
first bin, and that bin sums to more than the maximum. -/
theorem partition_bin_sum_counterexample :
    partition [18446744073709551615, 18446744073709551615] 2
      = some [[18446744073709551615, 18446744073709551615], []]
    ∧ ¬ ([18446744073709551615, 18446744073709551615] : List Nat).sum
        ≤ list_max [18446744073709551615, 18446744073709551615] := by
  refine ⟨by decide, by decide⟩

/-- **C7, amended.** For every list `A` with `max(A) + x < 2 ^ 64` for every
element `x` of `A` (no bin sum wraps around in `std::size_t`), every bin that
`partition(A)` returns sums to at most `max(A)`, whatever the sum of `A`; and
for a non-empty list of positive integers with sum below `2 ^ 31` it does return
bins. -/
theorem partition_bin_sum (A : List Nat) (hx : ∀ x ∈ A, list_max A + x < SIZE_MOD) :
    (∀ bins, partition A A.length = some bins → ∀ b ∈ bins, b.sum ≤ list_max A)
      ∧ (A ≠ [] → (∀ x ∈ A, 0 < x) → A.sum < 2 ^ 31 →
          ∃ bins, partition A A.length = some bins ∧ bins ≠ []
            ∧ ∀ b ∈ bins, b.sum ≤ list_max A) := by
  refine ⟨fun bins h => partition_bin_sum_aux A hx bins h, ?_⟩
  intro hne hpos hsum
  obtain ⟨k, hk1, -, -, -, hbins⟩ := partition_core A hne hpos hsum
  refine ⟨_, hbins, ?_, partition_bin_sum_aux A hx _ hbins⟩
  intro h0
  have := spec_first_fit_length (list_max A) k (sort_desc A)
  rw [h0] at this
  simp at this
  omega

/-- Witness for `partition_bin_sum` at `[1500000000, 1000000000, 500000000]`,
whose sum `3000000000` does not fit `int`: `partition` returns the bins
`[1500000000]` and `[1000000000, 500000000]`. -/
theorem partition_bin_sum_witness :
    (∀ x ∈ ([1500000000, 1000000000, 500000000] : List Nat),
        list_max [1500000000, 1000000000, 500000000] + x < SIZE_MOD)
    ∧ partition [1500000000, 1000000000, 500000000] 3
        = some [[1500000000], [1000000000, 500000000]]
    ∧ (∀ bins, partition [1500000000, 1000000000, 500000000]
          ([1500000000, 1000000000, 500000000] : List Nat).length = some bins →
        ∀ b ∈ bins, b.sum ≤ list_max [1500000000, 1000000000, 500000000])
    ∧ (([1500000000, 1000000000, 500000000] : List Nat) ≠ [] →
        (∀ x ∈ ([1500000000, 1000000000, 500000000] : List Nat), 0 < x) →
        ([1500000000, 1000000000, 500000000] : List Nat).sum < 2 ^ 31 →
        ∃ bins, partition [1500000000, 1000000000, 500000000]
            ([1500000000, 1000000000, 500000000] : List Nat).length = some bins ∧ bins ≠ []
          ∧ ∀ b ∈ bins, b.sum ≤ list_max [1500000000, 1000000000, 500000000]) :=
  ⟨by decide, by decide,
    partition_bin_sum [1500000000, 1000000000, 500000000] (by decide)⟩

theorem ceil_div_le_of_le_mul (S H k : Nat) (hH : 0 < H) (h : S ≤ k * H) :
    ceil_div S H ≤ k := by
  unfold ceil_div
  have : (S + H - 1) / H < k + 1 := by
    rw [Nat.div_lt_iff_lt_mul hH]
    have : (k + 1) * H = k * H + H := by ring
    omega
  omega

/-- **C8, as stated, fails.** On `[1073741824, 1073741824, 536870912]` the sum
does not fit `int` and `partition` returns no bins, while the smallest bin
count in the range at which the first-fit pass places every element is 3. -/
theorem partition_bin_count_counterexample :
    partition [1073741824, 1073741824, 536870912] 3 = some []
    ∧ ¬ IsLeast {k | ceil_div ([1073741824, 1073741824, 536870912] : List Nat).sum
              (list_max [1073741824, 1073741824, 536870912]) ≤ k
            ∧ k ≤ ([1073741824, 1073741824, 536870912] : List Nat).length
            ∧ spec_places_all (list_max [1073741824, 1073741824, 536870912]) k
                (sort_desc [1073741824, 1073741824, 536870912])}
          ([] : List (List Nat)).length := by
  refine ⟨by decide, ?_⟩
  intro h
  have h1 := h.1.1
  revert h1
  decide

/-- **C8, amended.** For every non-empty list `A` of positive integers whose sum
is below `2 ^ 31`, the number of bins returned by `partition(A)` is the
smallest `k` in the range `ceil(sum(A)/max(A)) .. |A|` for which the first-fit
pass over `A` sorted in descending order with `k` bins of height `max(A)`
places every element. -/
theorem partition_bin_count (A : List Nat) (hne : A ≠ []) (hpos : ∀ x ∈ A, 0 < x)
    (hsum : A.sum < 2 ^ 31) :
    ∃ bins, partition A A.length = some bins
      ∧ IsLeast {k | ceil_div A.sum (list_max A) ≤ k ∧ k ≤ A.length
          ∧ spec_places_all (list_max A) k (sort_desc A)} bins.length := by
  obtain ⟨k, -, hkn, hall, hmin, hbins⟩ := partition_core A hne hpos hsum
  refine ⟨_, hbins, ?_⟩
  rw [spec_first_fit_length]
  have hHpos : 0 < list_max A := hpos _ (list_max_mem A hne)
  have hS := spec_places_all_sum_le (list_max A) k (sort_desc A) hall
  rw [(sort_desc_perm A).sum_eq] at hS
  refine ⟨⟨ceil_div_le_of_le_mul _ _ _ hHpos hS, hkn, hall⟩, ?_⟩
  rintro k' ⟨-, -, hk'⟩
  by_contra hlt
  exact hmin k' (Nat.lt_of_not_le hlt) hk'

/-- Witness for `partition_bin_count` at `[7, 3, 3, 2, 2, 2, 2]`. -/
theorem partition_bin_count_witness :
    ([7, 3, 3, 2, 2, 2, 2] : List Nat) ≠ []
    ∧ (∀ x ∈ ([7, 3, 3, 2, 2, 2, 2] : List Nat), 0 < x)
    ∧ ([7, 3, 3, 2, 2, 2, 2] : List Nat).sum < 2 ^ 31
    ∧ ∃ bins, partition [7, 3, 3, 2, 2, 2, 2] ([7, 3, 3, 2, 2, 2, 2] : List Nat).length
        = some bins
      ∧ IsLeast {k | ceil_div ([7, 3, 3, 2, 2, 2, 2] : List Nat).sum
              (list_max [7, 3, 3, 2, 2, 2, 2]) ≤ k
            ∧ k ≤ ([7, 3, 3, 2, 2, 2, 2] : List Nat).length
            ∧ spec_places_all (list_max [7, 3, 3, 2, 2, 2, 2]) k
                (sort_desc [7, 3, 3, 2, 2, 2, 2])} bins.length :=
  ⟨by decide, by decide, by decide,
    partition_bin_count [7, 3, 3, 2, 2, 2, 2] (by decide) (by decide) (by decide)⟩

/-- **C9, as stated, fails.** On `[7, 3, 3, 2, 2, 2, 2]` the first-fit pass needs
four bins, `[7]`, `[3, 3]`, `[2, 2, 2]`, `[2]`, and `partition` returns them,
while `[7]`, `[3, 2, 2]`, `[3, 2, 2]` splits the same list into three bins of
sum at most 7. And on `[4294967297, 1, 1, 1, 1]`, whose sum does not fit `int`,
`partition` returns five bins although the first-fit pass already places
every element with two. -/
theorem partition_minimum_counterexample :
    (partition [7, 3, 3, 2, 2, 2, 2] 7 = some [[7], [3, 3], [2, 2, 2], [2]]
      ∧ ([[7], [3, 2, 2], [3, 2, 2]] : List (List Nat)).flatten.Perm [7, 3, 3, 2, 2, 2, 2]
      ∧ (∀ b ∈ ([[7], [3, 2, 2], [3, 2, 2]] : List (List Nat)),
          b.sum ≤ list_max [7, 3, 3, 2, 2, 2, 2])
      ∧ ([[7], [3, 2, 2], [3, 2, 2]] : List (List Nat)).length
          < ([[7], [3, 3], [2, 2, 2], [2]] : List (List Nat)).length)
    ∧ (partition [4294967297, 1, 1, 1, 1] 5 = some [[4294967297], [1, 1, 1, 1], [], [], []]
      ∧ spec_places_all (list_max [4294967297, 1, 1, 1, 1]) 2
          (sort_desc [4294967297, 1, 1, 1, 1])) := by
  refine ⟨⟨by decide, by decide, by decide, by decide⟩, by decide, by decide⟩

/-- **C9, amended.** For every non-empty list `A` of positive integers whose sum
is below `2 ^ 31`, `partition(A)` uses the minimum number of bins among the
packings that the first-fit pass over the descending sort produces: the bins
returned are those of the pass with `k` bins of height `max(A)` for a `k` at
which every element is placed, and with any smaller number of bins the pass
leaves an element unplaced. (Splits found by other means may use fewer bins.) -/
theorem partition_minimum_first_fit (A : List Nat) (hne : A ≠ []) (hpos : ∀ x ∈ A, 0 < x)
    (hsum : A.sum < 2 ^ 31) :
    ∃ bins, partition A A.length = some bins
      ∧ bins = (spec_first_fit (list_max A) bins.length (sort_desc A)).1
      ∧ spec_places_all (list_max A) bins.length (sort_desc A)
      ∧ ∀ k, k < bins.length → ¬ spec_places_all (list_max A) k (sort_desc A) := by
  obtain ⟨k, -, -, hall, hmin, hbins⟩ := partition_core A hne hpos hsum
  refine ⟨_, hbins, ?_, ?_, ?_⟩
  · rw [spec_first_fit_length]
  · rw [spec_first_fit_length]; exact hall
  · rw [spec_first_fit_length]; exact hmin

/-- Witness for `partition_minimum_first_fit` at `[5, 4, 3, 2, 1]`. -/
theorem partition_minimum_first_fit_witness :
    ([5, 4, 3, 2, 1] : List Nat) ≠ [] ∧ (∀ x ∈ ([5, 4, 3, 2, 1] : List Nat), 0 < x)
    ∧ ([5, 4, 3, 2, 1] : List Nat).sum < 2 ^ 31
    ∧ ∃ bins, partition [5, 4, 3, 2, 1] ([5, 4, 3, 2, 1] : List Nat).length = some bins
      ∧ bins = (spec_first_fit (list_max [5, 4, 3, 2, 1]) bins.length
          (sort_desc [5, 4, 3, 2, 1])).1
      ∧ spec_places_all (list_max [5, 4, 3, 2, 1]) bins.length (sort_desc [5, 4, 3, 2, 1])
      ∧ ∀ k, k < bins.length →
          ¬ spec_places_all (list_max [5, 4, 3, 2, 1]) k (sort_desc [5, 4, 3, 2, 1]) :=
  ⟨by decide, by decide, by decide,
    partition_minimum_first_fit [5, 4, 3, 2, 1] (by decide) (by decide) (by decide)⟩

/-- **C10, as stated, fails.** On `[1073741824, 1073741824, 1073741824]` the sum
`3221225472` converts to the `int` `-1073741824`, `ceildiv` yields
`std::size_t(-1)`, the loop over `k` never runs and `partition` returns
the empty 'failed' result. -/
theorem partition_never_fails_counterexample :
    partition [1073741824, 1073741824, 1073741824] 3 = some []
    ∧ ceildiv 3221225472 1073741824 = some 18446744073709551615 := by
  refine ⟨by decide, by decide⟩

/-- **C10, amended.** For every non-empty list `A` of positive integers whose
sum is below `2 ^ 31`, `partition(A)` does not return the empty 'failed'
result: with `|A|` bins the pass places every element, the search over `k`
stops at a successful packing with `k ≤ |A|`, and the result has between 1
and `|A|` bins. -/
theorem partition_never_fails (A : List Nat) (hne : A ≠ []) (hpos : ∀ x ∈ A, 0 < x)
    (hsum : A.sum < 2 ^ 31) :
    ∃ bins, partition A A.length = some bins ∧ bins ≠ []
      ∧ 1 ≤ bins.length ∧ bins.length ≤ A.length
      ∧ spec_places_all (list_max A) bins.length (sort_desc A)
      ∧ spec_places_all (list_max A) A.length (sort_desc A) := by
  obtain ⟨k, hk1, hkn, hall, -, hbins⟩ := partition_core A hne hpos hsum
  have hlen := spec_first_fit_length (list_max A) k (sort_desc A)
  refine ⟨_, hbins, ?_, by omega, by omega, by rw [hlen]; exact hall, ?_⟩
  · intro h
    rw [h] at hlen
    simp at hlen
    omega
  · have := spec_places_all_length (list_max A) (sort_desc A)
      (fun x hx => le_list_max A x ((sort_desc_perm A).subset hx))
    rwa [(sort_desc_perm A).length_eq] at this

/-- Witness for `partition_never_fails` at `[3, 3, 3]`, where every element needs
a bin of its own. -/
theorem partition_never_fails_witness :
    ([3, 3, 3] : List Nat) ≠ [] ∧ (∀ x ∈ ([3, 3, 3] : List Nat), 0 < x)
    ∧ ([3, 3, 3] : List Nat).sum < 2 ^ 31
    ∧ ∃ bins, partition [3, 3, 3] ([3, 3, 3] : List Nat).length = some bins ∧ bins ≠ []
      ∧ 1 ≤ bins.length ∧ bins.length ≤ ([3, 3, 3] : List Nat).length
      ∧ spec_places_all (list_max [3, 3, 3]) bins.length (sort_desc [3, 3, 3])
      ∧ spec_places_all (list_max [3, 3, 3]) ([3, 3, 3] : List Nat).length
          (sort_desc [3, 3, 3]) :=
  ⟨by decide, by decide, by decide,
    partition_never_fails [3, 3, 3] (by decide) (by decide) (by decide)⟩

end PartitionTheorems

/-! ## Theorems about `extrapolation_stepper` -/

section StepperTheorems

open steppers extrapolation_stepper

variable {K Y : Type} [Field K] [AddCommGroup Y] [Module K Y]

/-- Writing `g ind` into slot `ind` for every `ind` of a list: slot `j` ends
with `g j` when `j` is in the list (and in range) and keeps its value otherwise. -/
theorem getD_foldl_set {Y : Type} (g : Nat → Y) (d : Y) (L : List Nat) :
    ∀ (outs : List Y) (j : Nat),
      (L.foldl (fun o ind => o.set ind (g ind)) outs).getD j d
        = if j ∈ L ∧ j < outs.length then g j else outs.getD j d := by
  induction L with
  | nil => intro outs j; simp
  | cons i L ih =>
    intro outs j
    rw [List.foldl_cons, ih]
    simp only [List.length_set, List.mem_cons, List.getD_eq_getElem?_getD, List.getElem?_set]
    by_cases hlt : j < outs.length
    · by_cases hji : i = j
      · subst hji
        by_cases hjL : i ∈ L <;> simp [hjL, hlt]
      · have hji' : ¬ j = i := fun h => hji h.symm
        by_cases hjL : j ∈ L <;> simp [hjL, hlt, hji, hji']
    · have hnone : outs[j]? = none := List.getElem?_eq_none (Nat.le_of_not_lt hlt)
      by_cases hji : i = j
      · subst hji
        simp [hlt, hnone]
      · simp [hlt, hnone, hji]

theorem length_foldl_set {Y : Type} (g : Nat → Y) (L : List Nat) :
    ∀ (outs : List Y), (L.foldl (fun o ind => o.set ind (g ind)) outs).length = outs.length := by
  induction L with
  | nil => intro outs; rfl
  | cons i L ih => intro outs; rw [List.foldl_cons, ih, List.length_set]

/-- With every step count at least 2, the loop over sub-integrations writes the
smoothed modified midpoint value of index `ind` into slot `ind`, whatever the
scratch ring held. -/
theorem run_steppers_outputs (f : K → Y → Y) (y : Y) (t dt : K) (steps : List Nat)
    (L : List Nat) (hL : ∀ ind ∈ L, 2 ≤ steps.getD ind 0) :
    ∀ (st : List Y × scratch_type Y),
      (run_steppers f y t dt steps (f t y) L st).1
        = L.foldl (fun o ind => o.set ind (midpoint_smoothed f y t dt (steps.getD ind 0))) st.1 := by
  induction L with
  | nil => intro st; rfl
  | cons i L ih =>
    intro st
    rw [run_steppers, ih (fun ind h => hL ind (List.mem_cons_of_mem _ h)), List.foldl_cons]
    simp only
    rw [gbs_step_fst f y t dt _ st.2 (hL i (List.mem_cons_self _ _))]

/-- The extrapolation loop only reads the slots below `nsteppers`. -/
theorem combine_congr (weights : List K) (outs outs' : List Y) (m : Nat)
    (h : ∀ j, j < m → outs.getD j 0 = outs'.getD j 0) (hm : 1 ≤ m) :
    combine weights outs m = combine weights outs' m := by
  unfold combine
  rw [h 0 (by omega)]
  apply List.foldl_ext
  intro acc j hj
  rw [List.mem_range'_1] at hj
  rw [h j (by omega)]

/-- The extrapolation loop, in index order, computes the weighted sum. -/
theorem combine_eq_sum (weights : List K) (outs : List Y) (m : Nat) (hm : 1 ≤ m) :
    combine weights outs m
      = ∑ j ∈ Finset.range m, weights.getD j 0 • outs.getD j 0 := by
  obtain ⟨k, rfl⟩ : ∃ k, m = k + 1 := ⟨m - 1, by omega⟩
  unfold combine
  simp only [Nat.add_sub_cancel]
  induction k with
  | zero => simp
  | succ k ih =>
    rw [show k + 1 = k + 1 by rfl, List.range'_1_concat, List.foldl_append, ih (by omega),
      Finset.sum_range_succ _ (k + 1)]
    simp [Nat.add_comm]

/-- After `_evaluate_serial` on a stepper whose step counts are all at least 2,
output slot `j` holds the smoothed modified midpoint value for `step_counts[j]`;
only `m_outputs` and `m_scratch` are written. -/
theorem evaluate_serial_outputs (s : extrapolation_stepper K Y) (f : K → Y → Y) (y : Y)
    (t dt : K) (hsys : s.m_systems.getD 0 (fun _ _ => 0) = f)
    (h2 : ∀ c ∈ s.m_step_counts, 2 ≤ c) (hlen : s.m_outputs.length = s.m_step_counts.length)
    (j : Nat) (hj : j < s.m_step_counts.length) :
    (_evaluate_serial s y t dt).m_outputs.getD j 0
      = midpoint_smoothed f y t dt (s.m_step_counts.getD j 0) := by
  have hL : ∀ ind ∈ List.range s.m_step_counts.length, 2 ≤ s.m_step_counts.getD ind 0 := by
    intro ind hind
    rw [List.mem_range] at hind
    rw [List.getD_eq_getElem _ _ hind]
    exact h2 _ (List.getElem_mem _)
  simp only [_evaluate_serial, hsys]
  rw [run_steppers_outputs f y t dt _ _ hL, getD_foldl_set]
  simp [hj, hlen]

/-- **C1.** For every system `f`, state `y`, time `t`, step `dt` and step and
weight lists of equal length `m ≥ 1` with every step count at least 2, one macro-step
(`n = 1`) of a serial stepper, whatever its output slots and
scratch ring held before, replaces `y` by
`weights[0]*Y 0 + weights[1]*Y 1 + ... + weights[m-1]*Y (m-1)` accumulated in
index order, which is the weighted sum; `Y j` is the output of
`gbs::step(f, y, t, dt, steps[j], f0)` with `f0 = f(t, y)` at the pre-step `y`
(on any scratch ring `σ j`). -/
theorem step_serial_weighted_sum (f : K → Y → Y) (y : Y) (t dt : K) (steps : List Nat)
    (weights : List K) (order : Nat) (isbn : ℚ) (sched : Nat → List Nat)
    (outs0 : List Y) (scratch0 : scratch_type Y) (σ : Nat → scratch_type Y)
    (hlen : steps.length = weights.length) (hm : 1 ≤ steps.length)
    (h2 : ∀ c ∈ steps, 2 ≤ c) (houts : outs0.length = steps.length) :
    ∃ st : extrapolation_stepper K Y,
      make f steps.length steps weights order isbn false = some st
      ∧ (step { st with m_outputs := outs0, m_scratch := [scratch0] } y t dt 1 sched).y
          = (List.range' 1 (steps.length - 1)).foldl
              (fun acc j => acc + weights.getD j 0
                • (gbs.step f y t dt (steps.getD j 0) (f t y) (σ j)).1)
              (weights.getD 0 0 • (gbs.step f y t dt (steps.getD 0 0) (f t y) (σ 0)).1)
      ∧ (step { st with m_outputs := outs0, m_scratch := [scratch0] } y t dt 1 sched).y
          = ∑ j ∈ Finset.range steps.length,
              weights.getD j 0 • (gbs.step f y t dt (steps.getD j 0) (f t y) (σ j)).1 := by
  refine ⟨_, rfl, ?_⟩
  have hw : weights.take steps.length = weights := by
    rw [hlen]; exact List.take_length _
  have hs : steps.take steps.length = steps := List.take_length _
  set s0 : extrapolation_stepper K Y :=
    { m_order := order, m_isbn := isbn, m_systems := [f], m_scratch := [scratch0],
      m_weights := weights, m_step_counts := steps, m_outputs := outs0,
      m_partitions := [], m_partition_indices := [], m_pool := none } with hs0
  have hY : ∀ j, j < steps.length →
      (_evaluate_serial s0 y t dt).m_outputs.getD j 0
        = (gbs.step f y t dt (steps.getD j 0) (f t y) (σ j)).1 := by
    intro j hj
    rw [evaluate_serial_outputs s0 f y t dt rfl h2 houts j hj]
    have hc : 2 ≤ steps.getD j 0 := by
      rw [List.getD_eq_getElem _ _ hj]; exact h2 _ (List.getElem_mem _)
    exact (gbs_step_fst f y t dt _ (σ j) hc).symm
  have hstep : (step s0 y t dt 1 sched).y
      = combine weights (_evaluate_serial s0 y t dt).m_outputs steps.length := by
    simp [step, step_loop, _evaluate, hs0, _evaluate_serial]
  have hfold : (step s0 y t dt 1 sched).y
      = (List.range' 1 (steps.length - 1)).foldl
          (fun acc j => acc + weights.getD j 0
            • (gbs.step f y t dt (steps.getD j 0) (f t y) (σ j)).1)
          (weights.getD 0 0 • (gbs.step f y t dt (steps.getD 0 0) (f t y) (σ 0)).1) := by
    rw [hstep]
    unfold combine
    rw [hY 0 (by omega)]
    apply List.foldl_ext
    intro acc j hj
    rw [List.mem_range'_1] at hj
    rw [hY j (by omega)]
  have hsum : (step s0 y t dt 1 sched).y
      = ∑ j ∈ Finset.range steps.length,
          weights.getD j 0 • (gbs.step f y t dt (steps.getD j 0) (f t y) (σ j)).1 := by
    rw [hstep, combine_eq_sum _ _ _ hm]
    apply Finset.sum_congr rfl
    intro j hj
    rw [Finset.mem_range] at hj
    rw [hY j hj]
  simp only [make, hw, hs, Bool.false_eq_true, if_false]
  exact ⟨hfold, hsum⟩

/-- Witness for `step_serial_weighted_sum`: two sub-integrations with step
counts 2 and 4 on `y' = y` over the rationals. -/
theorem step_serial_weighted_sum_witness :
    ([2, 4] : List Nat).length = ([-1 / 3, 4 / 3] : List ℚ).length
    ∧ 1 ≤ ([2, 4] : List Nat).length
    ∧ (∀ c ∈ ([2, 4] : List Nat), 2 ≤ c)
    ∧ ([7, 7] : List ℚ).length = ([2, 4] : List Nat).length
    ∧ ∃ st : extrapolation_stepper ℚ ℚ,
      make (fun _ y => y) ([2, 4] : List Nat).length [2, 4] [-1 / 3, 4 / 3] 4 0 false = some st
      ∧ (step { st with m_outputs := [7, 7], m_scratch := [⟨5, 5, 5⟩] } 1 0 1 1
            (fun _ => [])).y
          = (List.range' 1 (([2, 4] : List Nat).length - 1)).foldl
              (fun acc j => acc + ([-1 / 3, 4 / 3] : List ℚ).getD j 0
                • (gbs.step (fun _ y => y) (1 : ℚ) (0 : ℚ) 1 (([2, 4] : List Nat).getD j 0)
                    ((fun (_ : ℚ) (y : ℚ) => y) 0 1) ⟨0, 0, 0⟩).1)
              (([-1 / 3, 4 / 3] : List ℚ).getD 0 0
                • (gbs.step (fun _ y => y) (1 : ℚ) (0 : ℚ) 1 (([2, 4] : List Nat).getD 0 0)
                    ((fun (_ : ℚ) (y : ℚ) => y) 0 1) ⟨0, 0, 0⟩).1)
      ∧ (step { st with m_outputs := [7, 7], m_scratch := [⟨5, 5, 5⟩] } 1 0 1 1
            (fun _ => [])).y
          = ∑ j ∈ Finset.range ([2, 4] : List Nat).length,
              ([-1 / 3, 4 / 3] : List ℚ).getD j 0
                • (gbs.step (fun _ y => y) (1 : ℚ) (0 : ℚ) 1 (([2, 4] : List Nat).getD j 0)
                    ((fun (_ : ℚ) (y : ℚ) => y) 0 1) ⟨0, 0, 0⟩).1 :=
  ⟨by decide, by decide, by decide, by decide,
    step_serial_weighted_sum (fun _ y => y) 1 0 1 [2, 4] [-1 / 3, 4 / 3] 4 0 (fun _ => [])
      [7, 7] ⟨5, 5, 5⟩ (fun _ => ⟨0, 0, 0⟩) (by decide) (by decide) (by decide) (by decide)⟩

/-- Witness for `gbs_step_eq_midpoint`: `y' = y` from `y0 = 1` with `n = 2`
subintervals over the rationals. -/
theorem gbs_step_eq_midpoint_witness :
    2 ≤ 2 ∧ (gbs.step (fun (_ : ℚ) (y : ℚ) => y) 1 0 1 2 ((fun (_ : ℚ) (y : ℚ) => y) 0 1)
        ⟨0, 0, 0⟩).1
      = (1 / 4 : ℚ) • (midpoint_z (fun (_ : ℚ) (y : ℚ) => y) 1 0 (1 / ((2 : Nat) : ℚ)) (2 - 1)
          + (2 : ℚ) • midpoint_z (fun (_ : ℚ) (y : ℚ) => y) 1 0 (1 / ((2 : Nat) : ℚ)) 2
          + midpoint_z (fun (_ : ℚ) (y : ℚ) => y) 1 0 (1 / ((2 : Nat) : ℚ)) (2 + 1)) :=
  ⟨by decide, gbs_step_eq_midpoint (fun _ y => y) 1 0 1 2 ⟨0, 0, 0⟩ (by decide)⟩

/-! ### Serial and parallel evaluation -/

theorem list_eq_of_getD {α : Type} (d : α) (l1 l2 : List α) (hlen : l1.length = l2.length)
    (h : ∀ j, j < l1.length → l1.getD j d = l2.getD j d) : l1 = l2 := by
  apply List.ext_getElem hlen
  intro j h1 h2
  have := h j h1
  rwa [List.getD_eq_getElem _ _ h1, List.getD_eq_getElem _ _ h2] at this

theorem mem_flatten_iff_getD (PI : List (List Nat)) (j : Nat) :
    j ∈ PI.flatten ↔ ∃ i, i < PI.length ∧ j ∈ PI.getD i [] := by
  rw [List.mem_flatten]
  constructor
  · rintro ⟨l, hl, hj⟩
    obtain ⟨i, hi, rfl⟩ := List.mem_iff_getElem.mp hl
    exact ⟨i, hi, by rwa [List.getD_eq_getElem _ _ hi]⟩
  · rintro ⟨i, hi, hj⟩
    rw [List.getD_eq_getElem _ _ hi] at hj
    exact ⟨_, List.getElem_mem _, hj⟩

/-- One `_evaluate_serial` fills every output slot with its ideal value. -/
theorem evaluate_serial_spec (s : extrapolation_stepper K Y) (f : K → Y → Y)
    (steps : List Nat) (weights : List K) (y : Y) (t dt : K)
    (hs : serial_ok s f steps weights) (h2 : ∀ c ∈ steps, 2 ≤ c) :
    serial_ok (_evaluate_serial s y t dt) f steps weights
    ∧ (_evaluate_serial s y t dt).m_outputs = ideal_outputs f steps y t dt := by
  obtain ⟨hpool, hsys, hsteps, hweights, hlen⟩ := hs
  subst hsteps
  have hL : ∀ ind ∈ List.range s.m_step_counts.length, 2 ≤ s.m_step_counts.getD ind 0 := by
    intro ind hind
    rw [List.mem_range] at hind
    rw [List.getD_eq_getElem _ _ hind]
    exact h2 _ (List.getElem_mem _)
  have hout : (_evaluate_serial s y t dt).m_outputs
      = (List.range s.m_step_counts.length).foldl
          (fun o ind => o.set ind (midpoint_smoothed f y t dt (s.m_step_counts.getD ind 0)))
          s.m_outputs := by
    simp only [_evaluate_serial, hsys]
    rw [run_steppers_outputs f y t dt _ _ hL]
  have hlen' : (_evaluate_serial s y t dt).m_outputs.length = s.m_step_counts.length := by
    rw [hout, length_foldl_set, hlen]
  refine ⟨⟨hpool, ?_, rfl, hweights, hlen'⟩, ?_⟩
  · show (_evaluate_serial s y t dt).m_systems.getD 0 (fun _ _ => 0) = f
    exact hsys
  · apply list_eq_of_getD 0 _ _ (by rw [hlen']; simp [ideal_outputs])
    intro j hj
    rw [hlen'] at hj
    rw [hout, getD_foldl_set]
    simp [hj, hlen, ideal_outputs, List.getD_eq_getElem?_getD]

/-- The target of worker `index` writes the ideal value into every slot of its
index list and leaves the other slots alone. -/
theorem target_spec (s : extrapolation_stepper K Y) (f : K → Y → Y)
    (steps : List Nat) (weights : List K) (PI : List (List Nat)) (y : Y) (t dt : K)
    (index : Nat) (hs : parallel_ok s f steps weights PI) (h2 : ∀ c ∈ steps, 2 ≤ c)
    (hcov : ∀ j ∈ PI.flatten, j < steps.length) (hindex : index < PI.length) :
    parallel_ok (target s y t dt index) f steps weights PI
    ∧ ∀ j, (target s y t dt index).m_outputs.getD j 0
        = if j ∈ PI.getD index [] ∧ j < steps.length
          then midpoint_smoothed f y t dt (steps.getD j 0) else s.m_outputs.getD j 0 := by
  obtain ⟨hpool, hsys, hPI, hsteps, hweights, hlen⟩ := hs
  subst hsteps
  have hf : s.m_systems.getD index (fun _ _ => 0) = f := by
    rw [hsys, List.getD_eq_getElem _ _ (by simpa using hindex)]
    simp
  have hL : ∀ ind ∈ s.m_partition_indices.getD index [], 2 ≤ s.m_step_counts.getD ind 0 := by
    intro ind hind
    rw [hPI] at hind
    have hlt : ind < s.m_step_counts.length :=
      hcov ind ((mem_flatten_iff_getD PI ind).mpr ⟨index, hindex, hind⟩)
    rw [List.getD_eq_getElem _ _ hlt]
    exact h2 _ (List.getElem_mem _)
  have hout : (target s y t dt index).m_outputs
      = (PI.getD index []).foldl
          (fun o ind => o.set ind (midpoint_smoothed f y t dt (s.m_step_counts.getD ind 0)))
          s.m_outputs := by
    simp only [target, hf]
    rw [run_steppers_outputs f y t dt _ _ hL, hPI]
  refine ⟨⟨hpool, hsys, hPI, rfl, hweights, ?_⟩, ?_⟩
  · rw [hout, length_foldl_set, hlen]
  · intro j
    rw [hout, getD_foldl_set, hlen]

/-- One round of the pool, the targets taken in the order `sched`, writes the
ideal value into every slot named by a scheduled worker. -/
theorem evaluate_parallel_getD (f : K → Y → Y) (steps : List Nat) (weights : List K)
    (PI : List (List Nat)) (y : Y) (t dt : K) (h2 : ∀ c ∈ steps, 2 ≤ c)
    (hcov : ∀ j ∈ PI.flatten, j < steps.length) :
    ∀ (sched : List Nat) (s : extrapolation_stepper K Y), parallel_ok s f steps weights PI →
      (∀ i ∈ sched, i < PI.length) →
      parallel_ok (_evaluate_parallel s y t dt sched) f steps weights PI
      ∧ ∀ j, (_evaluate_parallel s y t dt sched).m_outputs.getD j 0
          = if (∃ i ∈ sched, j ∈ PI.getD i []) ∧ j < steps.length
            then midpoint_smoothed f y t dt (steps.getD j 0) else s.m_outputs.getD j 0 := by
  intro sched
  induction sched with
  | nil => intro s hs _; exact ⟨hs, by simp [_evaluate_parallel]⟩
  | cons i rest ih =>
    intro s hs hsched
    obtain ⟨hs1, hget1⟩ := target_spec s f steps weights PI y t dt i hs h2 hcov
      (hsched i (List.mem_cons_self _ _))
    obtain ⟨hs2, hget2⟩ := ih (target s y t dt i) hs1
      (fun i' hi' => hsched i' (List.mem_cons_of_mem _ hi'))
    have hfold : _evaluate_parallel s y t dt (i :: rest)
        = _evaluate_parallel (target s y t dt i) y t dt rest := rfl
    rw [hfold]
    refine ⟨hs2, ?_⟩
    intro j
    rw [hget2, hget1]
    by_cases hlt : j < steps.length
    · by_cases hr : ∃ i' ∈ rest, j ∈ PI.getD i' []
      · have : ∃ i' ∈ i :: rest, j ∈ PI.getD i' [] := by
          obtain ⟨i', hi', hj⟩ := hr
          exact ⟨i', List.mem_cons_of_mem _ hi', hj⟩
        rw [if_pos ⟨hr, hlt⟩, if_pos ⟨this, hlt⟩]
      · by_cases hi : j ∈ PI.getD i []
        · have : ∃ i' ∈ i :: rest, j ∈ PI.getD i' [] := ⟨i, List.mem_cons_self _ _, hi⟩
          rw [if_neg (fun h => hr h.1), if_pos ⟨hi, hlt⟩, if_pos ⟨this, hlt⟩]
        · have : ¬ ∃ i' ∈ i :: rest, j ∈ PI.getD i' [] := by
            rintro ⟨i', hi', hj⟩
            rcases List.mem_cons.mp hi' with rfl | hi'
            · exact hi hj
            · exact hr ⟨i', hi', hj⟩
          rw [if_neg (fun h => hr h.1), if_neg (fun h => hi h.1), if_neg (fun h => this h.1)]
    · rw [if_neg (fun h => hlt h.2), if_neg (fun h => hlt h.2), if_neg (fun h => hlt h.2)]

/-- One round of the pool in which every worker runs once, in any order, fills
every output slot with its ideal value. -/
theorem evaluate_parallel_spec (s : extrapolation_stepper K Y) (f : K → Y → Y)
    (steps : List Nat) (weights : List K) (PI : List (List Nat)) (y : Y) (t dt : K)
    (sched : List Nat) (hs : parallel_ok s f steps weights PI) (h2 : ∀ c ∈ steps, 2 ≤ c)
    (hcov : covers PI steps.length) (hsched : sched.Perm (List.range PI.length)) :
    parallel_ok (_evaluate_parallel s y t dt sched) f steps weights PI
    ∧ (_evaluate_parallel s y t dt sched).m_outputs = ideal_outputs f steps y t dt := by
  have hmem : ∀ i, i ∈ sched ↔ i < PI.length := by
    intro i
    rw [hsched.mem_iff, List.mem_range]
  obtain ⟨hs', hget⟩ := evaluate_parallel_getD f steps weights PI y t dt h2 hcov.2 sched s hs
    (fun i hi => (hmem i).mp hi)
  refine ⟨hs', ?_⟩
  have hlen' := hs'.2.2.2.2.2
  apply list_eq_of_getD 0 _ _ (by rw [hlen']; simp [ideal_outputs])
  intro j hj
  rw [hlen'] at hj
  rw [hget]
  have hex : ∃ i ∈ sched, j ∈ PI.getD i [] := by
    obtain ⟨i, hi, hji⟩ := (mem_flatten_iff_getD PI j).mp (hcov.1 j hj)
    exact ⟨i, (hmem i).mpr hi, hji⟩
  rw [if_pos ⟨hex, hj⟩]
  simp [hj, ideal_outputs, List.getD_eq_getElem?_getD]

/-- Macro-step by macro-step a parallel stepper and a serial stepper with the
same system, step counts and weights produce the same state, the same
observer calls and the same output array. -/
theorem step_loop_parallel_eq_serial (f : K → Y → Y) (steps : List Nat) (weights : List K)
    (PI : List (List Nat)) (dt : K) (sched sched' : Nat → List Nat)
    (h2 : ∀ c ∈ steps, 2 ≤ c) (hcov : covers PI steps.length)
    (hsched : ∀ ii, (sched ii).Perm (List.range PI.length)) :
    ∀ (left ii : Nat) (sp ss : extrapolation_stepper K Y) (y : Y) (t : K)
      (observed : List (K × Y)),
      parallel_ok sp f steps weights PI → serial_ok ss f steps weights →
      sp.m_outputs = ss.m_outputs →
      (step_loop dt sched left ii sp y t observed).y
          = (step_loop dt sched' left ii ss y t observed).y
      ∧ (step_loop dt sched left ii sp y t observed).observed
          = (step_loop dt sched' left ii ss y t observed).observed
      ∧ (step_loop dt sched left ii sp y t observed).stepper.m_outputs
          = (step_loop dt sched' left ii ss y t observed).stepper.m_outputs := by
  intro left
  induction left with
  | zero => intro ii sp ss y t observed _ _ hout; exact ⟨rfl, rfl, hout⟩
  | succ left ih =>
    intro ii sp ss y t observed hp hs _
    have hpe : _evaluate sp y t dt (sched ii) = _evaluate_parallel sp y t dt (sched ii) := by
      simp [_evaluate, hp.1]
    have hse : _evaluate ss y t dt (sched' ii) = _evaluate_serial ss y t dt := by
      simp [_evaluate, hs.1]
    obtain ⟨hp', hpo⟩ := evaluate_parallel_spec sp f steps weights PI y t dt (sched ii) hp h2
      hcov (hsched ii)
    obtain ⟨hs', hso⟩ := evaluate_serial_spec ss f steps weights y t dt hs h2
    have hout : (_evaluate_parallel sp y t dt (sched ii)).m_outputs
        = (_evaluate_serial ss y t dt).m_outputs := by rw [hpo, hso]
    have hy : combine (_evaluate_parallel sp y t dt (sched ii)).m_weights
          (_evaluate_parallel sp y t dt (sched ii)).m_outputs
          (_evaluate_parallel sp y t dt (sched ii)).m_step_counts.length
        = combine (_evaluate_serial ss y t dt).m_weights (_evaluate_serial ss y t dt).m_outputs
          (_evaluate_serial ss y t dt).m_step_counts.length := by
      rw [hout, hp'.2.2.2.1, hp'.2.2.2.2.1, hs'.2.2.1, hs'.2.2.2.1]
    simp only [step_loop, hpe, hse]
    rw [hy]
    exact ih (ii + 1) _ _ _ _ _ hp' hs' hout

/-! ### The supported configurations -/

/-- Every supported pair has a table entry with as many weights as step
counts, every step count at least 2, and a partition of the step counts whose
index lists name every sub-integration. -/
theorem config_facts (order cores : Nat) (h : (order, cores) ∈ supported_configs) :
    ∃ (isbn : ℚ) (S : List Nat) (Wq : List ℚ) (bins : List (List Nat)),
      detail.extrap_table order cores = some (isbn, S, Wq)
      ∧ S.length = Wq.length ∧ (∀ c ∈ S, 2 ≤ c)
      ∧ detail.partition S S.length = some bins
      ∧ covers (bins.map (fun bin => bin.map (fun v => S.indexOf v))) S.length := by
  simp only [supported_configs, List.mem_cons, Prod.mk.injEq, List.mem_nil_iff, or_false] at h
  rcases h with ⟨rfl, rfl⟩ | ⟨rfl, rfl⟩ | ⟨rfl, rfl⟩ | ⟨rfl, rfl⟩ | ⟨rfl, rfl⟩ | ⟨rfl, rfl⟩
  · exact ⟨_, _, _, [[20], [18, 2], [16]], rfl, by decide, by decide, by decide,
      by decide, by decide⟩
  · exact ⟨_, _, _, [[22], [20, 2], [18, 4], [16, 6], [14, 8], [12, 10]], rfl, by decide,
      by decide, by decide, by decide, by decide⟩
  · exact ⟨_, _, _, [[30], [28, 2], [26, 4], [24, 6], [22, 8], [20, 10], [18, 12], [16, 14]],
      rfl, by decide, by decide, by decide, by decide, by decide⟩
  · exact ⟨_, _, _, [[20], [16, 2], [14], [12, 8]], rfl, by decide, by decide, by decide,
      by decide, by decide⟩
  · exact ⟨_, _, _, [[30], [28, 2], [26, 4], [24, 6], [22, 8], [20, 10], [18, 12], [16, 14]],
      rfl, by decide, by decide, by decide, by decide, by decide⟩
  · exact ⟨_, _, _, [[22], [18, 2], [16], [14, 8], [12, 10]], rfl, by decide, by decide,
      by decide, by decide, by decide⟩

end StepperTheorems

section Construction

open steppers extrapolation_stepper

variable {K Y : Type} [Field K] [AddCommGroup Y]

/-- The stepper that `make_extrapolation_stepper` builds with `parallel = false`. -/
theorem make_serial_ok (f : K → Y → Y) (y0 : Y) (order cores : Nat) (isbn : ℚ)
    (S : List Nat) (Wq : List ℚ) (htab : detail.extrap_table order cores = some (isbn, S, Wq))
    (hlen : S.length = Wq.length) :
    ∃ ss : extrapolation_stepper K Y,
      make_extrapolation_stepper f y0 order cores false = some ss
      ∧ serial_ok ss f S (Wq.map (fun (d : ℚ) => (d : K)))
      ∧ ss.m_outputs = List.replicate S.length 0 := by
  have hW : (Wq.map (fun (d : ℚ) => (d : K))).take S.length
      = Wq.map (fun (d : ℚ) => (d : K)) := by
    rw [hlen, ← List.length_map Wq (fun (d : ℚ) => (d : K)), List.take_length]
  refine ⟨
    { m_order := order, m_isbn := isbn, m_systems := [f], m_scratch := [⟨0, 0, 0⟩],
      m_weights := Wq.map (fun (d : ℚ) => (d : K)), m_step_counts := S,
      m_outputs := List.replicate S.length 0, m_partitions := [],
      m_partition_indices := [], m_pool := none }, ?_, ?_, rfl⟩
  · simp [make_extrapolation_stepper, detail.make_extrap_config, htab, make, hW]
  · exact ⟨rfl, rfl, rfl, rfl, by simp⟩

/-- The stepper that `make_extrapolation_stepper` builds with `parallel = true`. -/
theorem make_parallel_ok (f : K → Y → Y) (y0 : Y) (order cores : Nat) (isbn : ℚ)
    (S : List Nat) (Wq : List ℚ) (bins : List (List Nat))
    (htab : detail.extrap_table order cores = some (isbn, S, Wq))
    (hlen : S.length = Wq.length) (hbins : detail.partition S S.length = some bins) :
    ∃ sp : extrapolation_stepper K Y,
      make_extrapolation_stepper f y0 order cores true = some sp
      ∧ parallel_ok sp f S (Wq.map (fun (d : ℚ) => (d : K)))
          (bins.map (fun bin => bin.map (fun v => S.indexOf v)))
      ∧ sp.m_outputs = List.replicate S.length 0
      ∧ sp.m_partitions = bins := by
  have hS : S.take S.length = S := List.take_length _
  have hW : (Wq.map (fun (d : ℚ) => (d : K))).take S.length = Wq.map (fun (d : ℚ) => (d : K)) := by
    rw [hlen, ← List.length_map Wq (fun (d : ℚ) => (d : K)), List.take_length]
  refine ⟨
    { m_order := order, m_isbn := isbn, m_systems := List.replicate bins.length f,
      m_scratch := List.replicate bins.length ⟨0, 0, 0⟩,
      m_weights := Wq.map (fun (d : ℚ) => (d : K)), m_step_counts := S,
      m_outputs := List.replicate S.length 0, m_partitions := bins,
      m_partition_indices := bins.map (fun bin => bin.map (fun v => S.indexOf v)),
      m_pool := some bins.length }, ?_, ?_, rfl, rfl⟩
  · simp [make_extrapolation_stepper, detail.make_extrap_config, htab, make,
      _initialize_pool, hS, hW, hbins]
  · exact ⟨by simp, by simp, rfl, rfl, rfl, by simp⟩

end Construction

section Equivalence

open steppers extrapolation_stepper

variable {K Y : Type} [Field K] [AddCommGroup Y] [Module K Y]

/-- Serial and parallel steppers of a supported pair agree; shared form of the
equivalence. -/
theorem parallel_eq_serial_aux (f : K → Y → Y) (y0 : Y) (t dt : K) (n : Nat) (order cores : Nat)
    (h : (order, cores) ∈ supported_configs) :
    ∃ sp ss : extrapolation_stepper K Y,
      make_extrapolation_stepper f y0 order cores true = some sp
      ∧ make_extrapolation_stepper f y0 order cores false = some ss
      ∧ ∀ sched sched' : Nat → List Nat,
        (∀ ii, (sched ii).Perm (List.range sp.m_partitions.length)) →
          (step sp y0 t dt n sched).stepper.m_outputs
              = (step ss y0 t dt n sched').stepper.m_outputs
          ∧ (step sp y0 t dt n sched).y = (step ss y0 t dt n sched').y
          ∧ (step sp y0 t dt n sched).observed = (step ss y0 t dt n sched').observed
          ∧ integrate f y0 t dt n order cores true sched
              = integrate f y0 t dt n order cores false sched' := by
  obtain ⟨isbn, S, Wq, bins, htab, hlen, h2, hbins, hcov⟩ := config_facts order cores h
  obtain ⟨sp, hsp, hpok, hpout, hpart⟩ :=
    make_parallel_ok (K := K) f y0 order cores isbn S Wq bins htab hlen hbins
  obtain ⟨ss, hss, hsok, hsout⟩ := make_serial_ok (K := K) f y0 order cores isbn S Wq htab hlen
  refine ⟨sp, ss, hsp, hss, ?_⟩
  intro sched sched' hsched
  have hsched' : ∀ ii, (sched ii).Perm
      (List.range (bins.map (fun bin => bin.map (fun v => S.indexOf v))).length) := by
    intro ii
    rw [List.length_map, ← hpart]
    exact hsched ii
  obtain ⟨e1, e2, e3⟩ := step_loop_parallel_eq_serial f S (Wq.map (fun (d : ℚ) => (d : K))) _ dt
    sched sched' h2 hcov hsched' n 0 sp ss y0 t [] hpok hsok (by rw [hpout, hsout])
  refine ⟨e3, e1, e2, ?_⟩
  simp only [integrate, hsp, hss]
  show some ((step sp y0 t dt n sched).y, (step sp y0 t dt n sched).observed)
    = some ((step ss y0 t dt n sched').y, (step ss y0 t dt n sched').observed)
  rw [show (step sp y0 t dt n sched).y = (step ss y0 t dt n sched').y from e1,
    show (step sp y0 t dt n sched).observed = (step ss y0 t dt n sched').observed from e2]

/-- **C5.** For every supported `(order, cores)` pair, every system `f` (a
function of `(t, y)`), and the same `y0`, `t`, `dt` and `n`, the stepper built
with `parallel = true`, each bin evaluated by its own worker and the workers
taken in any order in every macro-step, leaves the outputs array with the
same values as the stepper built with `parallel = false`; both reach the same
final state and make the same observer calls, and `integrate` returns the
same result. -/
theorem parallel_eq_serial (f : K → Y → Y) (y0 : Y) (t dt : K) (n : Nat) (order cores : Nat)
    (h : (order, cores) ∈ supported_configs) :
    ∃ sp ss : extrapolation_stepper K Y,
      make_extrapolation_stepper f y0 order cores true = some sp
      ∧ make_extrapolation_stepper f y0 order cores false = some ss
      ∧ ∀ sched sched' : Nat → List Nat,
        (∀ ii, (sched ii).Perm (List.range sp.m_partitions.length)) →
          (step sp y0 t dt n sched).stepper.m_outputs
              = (step ss y0 t dt n sched').stepper.m_outputs
          ∧ (step sp y0 t dt n sched).y = (step ss y0 t dt n sched').y
          ∧ (step sp y0 t dt n sched).observed = (step ss y0 t dt n sched').observed
          ∧ integrate f y0 t dt n order cores true sched
              = integrate f y0 t dt n order cores false sched' := by
  obtain ⟨isbn, S, Wq, bins, htab, hlen, h2, hbins, hcov⟩ := config_facts order cores h
  obtain ⟨sp, hsp, hpok, hpout, hpart⟩ :=
    make_parallel_ok (K := K) f y0 order cores isbn S Wq bins htab hlen hbins
  obtain ⟨ss, hss, hsok, hsout⟩ := make_serial_ok (K := K) f y0 order cores isbn S Wq htab hlen
  refine ⟨sp, ss, hsp, hss, ?_⟩
  intro sched sched' hsched
  have hsched' : ∀ ii, (sched ii).Perm
      (List.range (bins.map (fun bin => bin.map (fun v => S.indexOf v))).length) := by
    intro ii
    rw [List.length_map, ← hpart]
    exact hsched ii
  obtain ⟨e1, e2, e3⟩ := step_loop_parallel_eq_serial f S (Wq.map (fun (d : ℚ) => (d : K))) _ dt
    sched sched' h2 hcov hsched' n 0 sp ss y0 t [] hpok hsok (by rw [hpout, hsout])
  refine ⟨e3, e1, e2, ?_⟩
  simp only [integrate, hsp, hss]
  show some ((step sp y0 t dt n sched).y, (step sp y0 t dt n sched).observed)
    = some ((step ss y0 t dt n sched').y, (step ss y0 t dt n sched').observed)
  rw [show (step sp y0 t dt n sched).y = (step ss y0 t dt n sched').y from e1,
    show (step sp y0 t dt n sched).observed = (step ss y0 t dt n sched').observed from e2]

/-- Witness for `parallel_eq_serial`: the pair `(8, 3)` on `y' = y` over the
rationals, two macro-steps of size `1 / 16`. -/
theorem parallel_eq_serial_witness :
    ((8, 3) : Nat × Nat) ∈ supported_configs
    ∧ ∃ sp ss : extrapolation_stepper ℚ ℚ,
      make_extrapolation_stepper (fun (_ : ℚ) (y : ℚ) => y) (1 : ℚ) 8 3 true = some sp
      ∧ make_extrapolation_stepper (fun (_ : ℚ) (y : ℚ) => y) (1 : ℚ) 8 3 false = some ss
      ∧ ∀ sched sched' : Nat → List Nat,
        (∀ ii, (sched ii).Perm (List.range sp.m_partitions.length)) →
          (step sp 1 0 (1 / 16) 2 sched).stepper.m_outputs
              = (step ss 1 0 (1 / 16) 2 sched').stepper.m_outputs
          ∧ (step sp 1 0 (1 / 16) 2 sched).y = (step ss 1 0 (1 / 16) 2 sched').y
          ∧ (step sp 1 0 (1 / 16) 2 sched).observed = (step ss 1 0 (1 / 16) 2 sched').observed
          ∧ integrate (fun (_ : ℚ) (y : ℚ) => y) (1 : ℚ) 0 (1 / 16) 2 8 3 true sched
              = integrate (fun (_ : ℚ) (y : ℚ) => y) (1 : ℚ) 0 (1 / 16) 2 8 3 false sched' :=
  ⟨by decide, parallel_eq_serial (fun (_ : ℚ) (y : ℚ) => y) (1 : ℚ) 0 (1 / 16) 2 8 3 (by decide)⟩

end Equivalence

/-! ## The linear test equation `y' = y` -/

section LinearTest

open steppers extrapolation_stepper

variable {K : Type} [Field K]

theorem peval_nil (x : K) : peval [] x = 0 := rfl

theorem peval_cons (a : ℚ) (p : List ℚ) (x : K) :
    peval (a :: p) x = (a : K) + x * peval p x := rfl

theorem peval_padd [CharZero K] : ∀ (p q : List ℚ) (x : K), peval (padd p q) x = peval p x + peval q x
  | [], q, x => by simp [padd, peval_nil]
  | a :: p, [], x => by simp [padd, peval_nil]
  | a :: p, b :: q, x => by
    simp only [padd, peval_cons, peval_padd p q x, Rat.cast_add]
    ring

theorem peval_pscale [CharZero K] (c : ℚ) : ∀ (p : List ℚ) (x : K), peval (pscale c p) x = (c : K) * peval p x
  | [], x => by simp [pscale, peval_nil]
  | a :: p, x => by
    have ih := peval_pscale c p x
    simp only [pscale] at ih
    simp only [pscale, List.map_cons, peval_cons, ih, Rat.cast_mul]
    ring

theorem peval_pmulX (p : List ℚ) (x : K) : peval (pmulX p) x = x * peval p x := by
  simp [pmulX, peval_cons]

theorem peval_pdiv [CharZero K] (n : ℚ) (hn : (n : K) ≠ 0) :
    ∀ (p : List ℚ) (x : K), peval (pdiv p n) x = peval p (x / (n : K))
  | [], x => by simp [pdiv, peval_nil]
  | a :: p, x => by
    simp only [pdiv, peval_cons, peval_pscale, peval_pdiv n hn p x, Rat.cast_div, Rat.cast_one]
    field_simp

/-- For `y' = y` the modified midpoint values are `y0` times the polynomials of
`zpair`. -/
theorem midpoint_z_linear [CharZero K] (y0 t h : K) (k : Nat) :
    midpoint_z (fun (_ : K) (y : K) => y) y0 t h k = y0 * peval (zpair k).1 h
    ∧ midpoint_z (fun (_ : K) (y : K) => y) y0 t h (k + 1) = y0 * peval (zpair k).2 h := by
  induction k with
  | zero =>
    constructor
    · simp [midpoint_z, zpair, peval_cons, peval_nil]
    · simp [midpoint_z, zpair, peval_cons, peval_nil]
      ring
  | succ k ih =>
    obtain ⟨h1, h2⟩ := ih
    rcases hz : zpair k with ⟨a, b⟩
    rw [hz] at h1 h2
    simp only at h1 h2
    constructor
    · simp only [zpair, hz]
      exact h2
    · rw [midpoint_z, h1, h2]
      simp only [zpair, hz, peval_padd, peval_pscale, peval_pmulX, smul_eq_mul]
      push_cast
      ring

/-- For `y' = y` the smoothed modified midpoint value is `y0` times the
polynomial `gbs_poly n` at `h = dt / n`. -/
theorem midpoint_smoothed_linear [CharZero K] (y0 t dt : K) (n : Nat) (hn : 1 ≤ n) :
    midpoint_smoothed (fun (_ : K) (y : K) => y) y0 t dt n
      = y0 * peval (pdiv (gbs_poly n) (n : ℚ)) dt := by
  have hnK : ((n : ℚ) : K) ≠ 0 := by
    have : (n : K) ≠ 0 := Nat.cast_ne_zero.mpr (by omega)
    simpa using this
  rw [peval_pdiv (n : ℚ) hnK]
  obtain ⟨h1, h2⟩ := midpoint_z_linear y0 t (dt / (n : K)) (n - 1)
  rw [show n - 1 + 1 = n by omega] at h2
  have h3 : midpoint_z (fun (_ : K) (y : K) => y) y0 t (dt / (n : K)) (n + 1)
      = midpoint_z (fun (_ : K) (y : K) => y) y0 t (dt / (n : K)) (n - 1)
        + (2 * (dt / (n : K))) * midpoint_z (fun (_ : K) (y : K) => y) y0 t (dt / (n : K)) n := by
    obtain ⟨m, rfl⟩ : ∃ m, n = m + 1 := ⟨n - 1, by omega⟩
    rw [midpoint_z]
    simp
  unfold midpoint_smoothed
  rw [h3, h1, h2]
  rcases hz : zpair (n - 1) with ⟨a, b⟩
  simp only [gbs_poly, hz, peval_padd, peval_pscale, peval_pmulX, smul_eq_mul]
  push_cast
  ring

theorem peval_foldl_padd [CharZero K] (g : Nat → List ℚ) (x : K) (m : Nat) :
    peval ((List.range m).foldl (fun acc j => padd acc (g j)) []) x
      = ∑ j ∈ Finset.range m, peval (g j) x := by
  induction m with
  | zero => simp [peval_nil]
  | succ m ih =>
    rw [List.range_succ, List.foldl_append, Finset.sum_range_succ, ← ih]
    simp [peval_padd]

/-- For `y' = y` the extrapolation of the ideal outputs is the state times the
polynomial of the macro-step. -/
theorem combine_linear [CharZero K] (S : List Nat) (Wq : List ℚ) (y t dt : K)
    (hlen : S.length = Wq.length) (hm : 1 ≤ S.length) (h2 : ∀ c ∈ S, 2 ≤ c) :
    combine (Wq.map (fun (d : ℚ) => (d : K)))
        (ideal_outputs (fun (_ : K) (y : K) => y) S y t dt) S.length
      = y * peval (step_poly S Wq) dt := by
  rw [combine_eq_sum _ _ _ hm]
  unfold step_poly
  rw [peval_foldl_padd (fun j => pscale (Wq.getD j 0) (pdiv (gbs_poly (S.getD j 0)) (S.getD j 0))),
    Finset.mul_sum]
  apply Finset.sum_congr rfl
  intro j hj
  rw [Finset.mem_range] at hj
  have hjW : j < Wq.length := by omega
  have hc : 2 ≤ S.getD j 0 := by
    rw [List.getD_eq_getElem _ _ hj]; exact h2 _ (List.getElem_mem _)
  have hw : (Wq.map (fun (d : ℚ) => (d : K))).getD j 0 = ((Wq.getD j 0 : ℚ) : K) := by
    rw [List.getD_eq_getElem _ _ (by simpa using hjW), List.getD_eq_getElem _ _ hjW]
    simp
  have ho : (ideal_outputs (fun (_ : K) (y : K) => y) S y t dt).getD j 0
      = y * peval (pdiv (gbs_poly (S.getD j 0)) ((S.getD j 0 : Nat) : ℚ)) dt := by
    rw [← midpoint_smoothed_linear y t dt (S.getD j 0) (by omega)]
    simp [ideal_outputs, List.getD_eq_getElem?_getD, hj]
  rw [hw, ho, peval_pscale, smul_eq_mul]
  ring

/-- For `y' = y` a serial stepper multiplies the state by the polynomial of the macro-step
in every macro-step. -/
theorem step_loop_linear [CharZero K] (S : List Nat) (Wq : List ℚ) (dt : K)
    (sched : Nat → List Nat) (hlen : S.length = Wq.length) (hm : 1 ≤ S.length)
    (h2 : ∀ c ∈ S, 2 ≤ c) :
    ∀ (left ii : Nat) (ss : extrapolation_stepper K K) (y t : K) (observed : List (K × K)),
      serial_ok ss (fun (_ : K) (y : K) => y) S (Wq.map (fun (d : ℚ) => (d : K))) →
      (step_loop dt sched left ii ss y t observed).y = y * peval (step_poly S Wq) dt ^ left := by
  intro left
  induction left with
  | zero => intro ii ss y t observed _; simp [step_loop]
  | succ left ih =>
    intro ii ss y t observed hs
    have hse : _evaluate ss y t dt (sched ii) = _evaluate_serial ss y t dt := by
      simp [_evaluate, hs.1]
    obtain ⟨hs', hso⟩ := evaluate_serial_spec ss _ S _ y t dt hs h2
    simp only [step_loop, hse]
    rw [ih _ _ _ _ _ hs', hso, hs'.2.2.1, hs'.2.2.2.1, combine_linear S Wq y t dt hlen hm h2]
    ring

/-- For `y' = y`, `integrate` with a supported pair returns the start state
times the `n`-th power of the polynomial of the macro-step, serial or parallel
(with every worker run once per macro-step, in any order). -/
theorem integrate_linear [CharZero K] (y0 t dt : K) (n order cores : Nat) (parallel : Bool)
    (sched : Nat → List Nat) (h : (order, cores) ∈ supported_configs)
    (hsched : parallel = true → ∀ ii, (sched ii).Perm (List.range (pool_size order cores))) :
    (integrate (fun (_ : K) (y : K) => y) y0 t dt n order cores parallel sched).map Prod.fst
      = some (y0 * peval (config_poly order cores) dt ^ n) := by
  obtain ⟨isbn, S, Wq, bins, htab, hlen, h2, hbins, hcov⟩ := config_facts order cores h
  have hm : 1 ≤ S.length := by
    rcases Nat.eq_zero_or_pos S.length with h0 | h0
    · exfalso
      have hS : S = [] := List.length_eq_zero.mp h0
      subst hS
      simp [detail.partition] at hbins
    · exact h0
  have hpoly : config_poly order cores = step_poly S Wq := by simp [config_poly, htab]
  have hpool : pool_size order cores = bins.length := by simp [pool_size, htab, hbins]
  obtain ⟨ss, hss, hsok, -⟩ := make_serial_ok (K := K) (fun (_ : K) (y : K) => y) y0 order cores
    isbn S Wq htab hlen
  have hserial : ∀ sched' : Nat → List Nat,
      (integrate (fun (_ : K) (y : K) => y) y0 t dt n order cores false sched').map Prod.fst
        = some (y0 * peval (config_poly order cores) dt ^ n) := by
    intro sched'
    simp only [integrate, hss, Option.map_some', step]
    rw [step_loop_linear S Wq dt sched' hlen hm h2 n 0 ss y0 t [] hsok, hpoly]
  cases parallel with
  | false => exact hserial sched
  | true =>
    obtain ⟨sp, ss', hsp, -, hall⟩ :=
      parallel_eq_serial_aux (fun (_ : K) (y : K) => y) y0 t dt n order cores h
    have hpart : sp.m_partitions.length = bins.length := by
      obtain ⟨sp', hsp', -, -, hp⟩ := make_parallel_ok (K := K) (fun (_ : K) (y : K) => y) y0
        order cores isbn S Wq bins htab hlen hbins
      rw [hsp] at hsp'
      cases hsp'
      rw [hp]
    have := (hall sched sched (fun ii => by rw [hpart, ← hpool]; exact hsched rfl ii)).2.2.2
    rw [this]
    exact hserial sched

/-! ### Coefficients, Taylor remainder and error accumulation -/

theorem peval_eq_sum : ∀ (c : List ℚ) (x : K),
    peval c x = ∑ k ∈ Finset.range c.length, (c.getD k 0 : K) * x ^ k
  | [], x => by simp [peval_nil]
  | a :: c, x => by
    rw [peval_cons, peval_eq_sum c x, List.length_cons, Finset.sum_range_succ', Finset.mul_sum]
    simp only [List.getD_cons_succ, List.getD_cons_zero, pow_zero, mul_one]
    rw [add_comm]
    congr 1
    apply Finset.sum_congr rfl
    intro k _
    ring

theorem peval_cast [CharZero K] : ∀ (c : List ℚ) (q : ℚ),
    peval c ((q : ℚ) : K) = ((peval c q : ℚ) : K)
  | [], q => by simp [peval_nil]
  | a :: c, q => by
    rw [peval_cons, peval_cons, peval_cast c q]
    push_cast
    rfl

/-- The polynomial with a given coefficient list has those coefficients. -/
theorem coeff_foldr : ∀ (c : List ℚ) (k : Nat),
    (c.foldr (fun a acc => Polynomial.C a + Polynomial.X * acc) (0 : Polynomial ℚ)).coeff k
      = c.getD k 0
  | [], k => by simp
  | a :: c, 0 => by simp
  | a :: c, k + 1 => by
    have ih := coeff_foldr c k
    simp only [List.foldr_cons, Polynomial.coeff_add, Polynomial.coeff_C_succ,
      Polynomial.coeff_X_mul, zero_add, List.getD_cons_succ]
    exact ih

/-- The polynomial with a given coefficient list takes the values of `peval`. -/
theorem aeval_foldr : ∀ (c : List ℚ) (x : ℝ),
    Polynomial.aeval x
        (c.foldr (fun a acc => Polynomial.C a + Polynomial.X * acc) (0 : Polynomial ℚ))
      = peval c x
  | [], x => by simp [peval_nil]
  | a :: c, x => by
    have ih := aeval_foldr c x
    simp only [List.foldr_cons, map_add, map_mul, Polynomial.aeval_C, Polynomial.aeval_X, ih,
      peval_cons]
    simp

/-- A polynomial whose coefficients up to degree `p` are `1 / k!` differs from
the exponential by `O(|x| ^ (p + 1))` on `|x| ≤ 1`. -/
theorem peval_sub_exp_le (c : List ℚ) (p : Nat)
    (hc : ∀ k, k ≤ p → c.getD k 0 = 1 / (k.factorial : ℚ)) :
    ∃ C : ℝ, 0 ≤ C ∧ ∀ x : ℝ, |x| ≤ 1 → |peval c x - Real.exp x| ≤ C * |x| ^ (p + 1) := by
  have hlen : p + 1 ≤ c.length := by
    by_contra hlt
    have h0 : c.getD p 0 = 0 := List.getD_eq_default _ _ (by omega)
    have h1 := hc p (le_refl p)
    rw [h0] at h1
    have : (1 : ℚ) / (p.factorial : ℚ) ≠ 0 := by positivity
    exact this h1.symm
  refine ⟨((p + 1).succ : ℝ) / (((p + 1).factorial : ℝ) * ((p + 1 : ℕ) : ℝ))
      + ∑ k ∈ Finset.Ico (p + 1) c.length, |((c.getD k 0 : ℚ) : ℝ)|, by positivity, ?_⟩
  intro x hx
  have hsplit : peval c x
      = ∑ k ∈ Finset.range (p + 1), x ^ k / (k.factorial : ℝ)
        + ∑ k ∈ Finset.Ico (p + 1) c.length, ((c.getD k 0 : ℚ) : ℝ) * x ^ k := by
    rw [peval_eq_sum, ← Finset.sum_range_add_sum_Ico _ hlen]
    congr 1
    apply Finset.sum_congr rfl
    intro k hk
    rw [Finset.mem_range] at hk
    rw [hc k (by omega)]
    push_cast
    ring
  have hexp := Real.exp_bound hx (Nat.succ_pos p)
  have htail : |∑ k ∈ Finset.Ico (p + 1) c.length, ((c.getD k 0 : ℚ) : ℝ) * x ^ k|
      ≤ (∑ k ∈ Finset.Ico (p + 1) c.length, |((c.getD k 0 : ℚ) : ℝ)|) * |x| ^ (p + 1) := by
    rw [Finset.sum_mul]
    refine le_trans (Finset.abs_sum_le_sum_abs _ _) (Finset.sum_le_sum ?_)
    intro k hk
    rw [Finset.mem_Ico] at hk
    rw [abs_mul, abs_pow]
    exact mul_le_mul_of_nonneg_left (pow_le_pow_of_le_one (abs_nonneg x) hx hk.1)
      (abs_nonneg _)
  have habs : |Real.exp x - ∑ k ∈ Finset.range (p + 1), x ^ k / (k.factorial : ℝ)|
      = |∑ k ∈ Finset.range (p + 1), x ^ k / (k.factorial : ℝ) - Real.exp x| := abs_sub_comm _ _
  rw [hsplit]
  calc |∑ k ∈ Finset.range (p + 1), x ^ k / (k.factorial : ℝ)
          + ∑ k ∈ Finset.Ico (p + 1) c.length, ((c.getD k 0 : ℚ) : ℝ) * x ^ k - Real.exp x|
      = |(∑ k ∈ Finset.range (p + 1), x ^ k / (k.factorial : ℝ) - Real.exp x)
          + ∑ k ∈ Finset.Ico (p + 1) c.length, ((c.getD k 0 : ℚ) : ℝ) * x ^ k| := by
        congr 1; ring
    _ ≤ |∑ k ∈ Finset.range (p + 1), x ^ k / (k.factorial : ℝ) - Real.exp x|
          + |∑ k ∈ Finset.Ico (p + 1) c.length, ((c.getD k 0 : ℚ) : ℝ) * x ^ k| :=
        abs_add _ _
    _ ≤ |x| ^ (p + 1) * (((p + 1).succ : ℝ) / (((p + 1).factorial : ℝ) * ((p + 1 : ℕ) : ℝ)))
          + (∑ k ∈ Finset.Ico (p + 1) c.length, |((c.getD k 0 : ℚ) : ℝ)|) * |x| ^ (p + 1) := by
        rw [← habs]
        exact add_le_add hexp htail
    _ = _ := by ring

/-- Powers of two numbers that are `δ` apart and bounded by `M`. -/
theorem abs_pow_sub_pow_le (a b M δ : ℝ) (hM : 0 ≤ M) (ha : |a| ≤ M) (hb : |b| ≤ M)
    (hδ : |a - b| ≤ δ) : ∀ N : ℕ, |a ^ N - b ^ N| ≤ N * δ * M ^ (N - 1)
  | 0 => by simp
  | 1 => by simpa using hδ
  | N + 2 => by
    have ih := abs_pow_sub_pow_le a b M δ hM ha hb hδ (N + 1)
    have hδ0 : 0 ≤ δ := le_trans (abs_nonneg _) hδ
    have hbN : |b ^ (N + 1)| ≤ M ^ (N + 1) := by
      rw [abs_pow]; exact pow_le_pow_left₀ (abs_nonneg b) hb _
    have h1 : |a * (a ^ (N + 1) - b ^ (N + 1))| ≤ M * (((N + 1 : ℕ) : ℝ) * δ * M ^ N) := by
      rw [abs_mul]
      exact mul_le_mul ha (by simpa using ih) (abs_nonneg _) hM
    have h2 : |(a - b) * b ^ (N + 1)| ≤ δ * M ^ (N + 1) := by
      rw [abs_mul]
      exact mul_le_mul hδ hbN (abs_nonneg _) hδ0
    calc |a ^ (N + 2) - b ^ (N + 2)|
        = |a * (a ^ (N + 1) - b ^ (N + 1)) + (a - b) * b ^ (N + 1)| := by
          congr 1; ring
      _ ≤ |a * (a ^ (N + 1) - b ^ (N + 1))| + |(a - b) * b ^ (N + 1)| := abs_add _ _
      _ ≤ M * (((N + 1 : ℕ) : ℝ) * δ * M ^ N) + δ * M ^ (N + 1) := add_le_add h1 h2
      _ = ((N + 2 : ℕ) : ℝ) * δ * M ^ (N + 2 - 1) := by
          rw [show N + 2 - 1 = N + 1 by omega]
          push_cast
          ring

/-- A one-step error `C |x| ^ (p + 1)` against the exponential accumulates over
`N` steps of size `T / N` to at most a constant times `(T / N) ^ p`. -/
theorem global_error_le (R : ℝ → ℝ) (p : ℕ) (C : ℝ) (hC : 0 ≤ C)
    (hloc : ∀ x : ℝ, |x| ≤ 1 → |R x - Real.exp x| ≤ C * |x| ^ (p + 1))
    (T : ℝ) (hT : 0 < T) (N : ℕ) (hN : 1 ≤ N) (hx1 : T / N ≤ 1) :
    |R (T / N) ^ N - Real.exp T| ≤ C * T * Real.exp (T * (1 + C)) * (T / N) ^ p := by
  have hNpos : (0 : ℝ) < N := by exact_mod_cast hN
  have hx0 : 0 < T / N := div_pos hT hNpos
  have habsx : |T / (N : ℝ)| = T / N := abs_of_pos hx0
  have hNx : (N : ℝ) * (T / N) = T := by field_simp
  have hδ := hloc (T / N) (by rw [habsx]; exact hx1)
  rw [habsx] at hδ
  have hδ0 : 0 ≤ C * (T / N) ^ (p + 1) := by positivity
  have hb : |Real.exp (T / N)| ≤ Real.exp (T / N + C * (T / N) ^ (p + 1)) := by
    rw [abs_of_pos (Real.exp_pos _)]
    exact Real.exp_le_exp.mpr (by linarith)
  have ha : |R (T / N)| ≤ Real.exp (T / N + C * (T / N) ^ (p + 1)) := by
    have h1 : |R (T / N)| ≤ |Real.exp (T / N)| + |R (T / N) - Real.exp (T / N)| := by
      have := abs_add (Real.exp (T / N)) (R (T / N) - Real.exp (T / N))
      simpa using this
    have h2 : Real.exp (T / N) + C * (T / N) ^ (p + 1)
        ≤ Real.exp (T / N) * (1 + C * (T / N) ^ (p + 1)) := by
      have : 1 ≤ Real.exp (T / N) := Real.one_le_exp (le_of_lt hx0)
      nlinarith
    have h3 : 1 + C * (T / N) ^ (p + 1) ≤ Real.exp (C * (T / N) ^ (p + 1)) := by
      have := Real.add_one_le_exp (C * (T / N) ^ (p + 1))
      linarith
    rw [abs_of_pos (Real.exp_pos _)] at h1
    rw [Real.exp_add]
    calc |R (T / N)| ≤ Real.exp (T / N) + C * (T / N) ^ (p + 1) := by linarith
      _ ≤ Real.exp (T / N) * (1 + C * (T / N) ^ (p + 1)) := h2
      _ ≤ Real.exp (T / N) * Real.exp (C * (T / N) ^ (p + 1)) :=
          mul_le_mul_of_nonneg_left h3 (le_of_lt (Real.exp_pos _))
  have hpow := abs_pow_sub_pow_le (R (T / N)) (Real.exp (T / N))
    (Real.exp (T / N + C * (T / N) ^ (p + 1))) (C * (T / N) ^ (p + 1))
    (le_of_lt (Real.exp_pos _)) ha hb hδ N
  have hexpN : Real.exp (T / N) ^ N = Real.exp T := by
    rw [← Real.exp_nat_mul, hNx]
  rw [hexpN] at hpow
  have hNδ : (N : ℝ) * (C * (T / N) ^ (p + 1)) = C * T * (T / N) ^ p := by
    rw [pow_succ]
    calc (N : ℝ) * (C * ((T / N) ^ p * (T / N)))
        = C * ((N : ℝ) * (T / N)) * (T / N) ^ p := by ring
      _ = C * T * (T / N) ^ p := by rw [hNx]
  have hxp1 : (T / (N : ℝ)) ^ p ≤ 1 := pow_le_one₀ (le_of_lt hx0) hx1
  have hM1 : 1 ≤ Real.exp (T / N + C * (T / N) ^ (p + 1)) :=
    Real.one_le_exp (by linarith)
  have hMN : Real.exp (T / N + C * (T / N) ^ (p + 1)) ^ (N - 1)
      ≤ Real.exp (T * (1 + C)) := by
    calc Real.exp (T / N + C * (T / N) ^ (p + 1)) ^ (N - 1)
        ≤ Real.exp (T / N + C * (T / N) ^ (p + 1)) ^ N :=
          pow_le_pow_right₀ hM1 (Nat.sub_le _ _)
      _ = Real.exp ((N : ℝ) * (T / N + C * (T / N) ^ (p + 1))) := by
          rw [Real.exp_nat_mul]
      _ ≤ Real.exp (T * (1 + C)) := by
          apply Real.exp_le_exp.mpr
          have : (N : ℝ) * (T / N + C * (T / N) ^ (p + 1)) = T + C * T * (T / N) ^ p := by
            rw [mul_add, hNx, hNδ]
          rw [this]
          have : C * T * (T / N) ^ p ≤ C * T * 1 :=
            mul_le_mul_of_nonneg_left hxp1 (by positivity)
          linarith
  calc |R (T / N) ^ N - Real.exp T|
      ≤ (N : ℝ) * (C * (T / N) ^ (p + 1))
          * Real.exp (T / N + C * (T / N) ^ (p + 1)) ^ (N - 1) := hpow
    _ ≤ (N : ℝ) * (C * (T / N) ^ (p + 1)) * Real.exp (T * (1 + C)) :=
        mul_le_mul_of_nonneg_left hMN (by positivity)
    _ = C * T * Real.exp (T * (1 + C)) * (T / N) ^ p := by
        rw [hNδ]; ring

/-! ### The claims about `y' = y` -/

/-- For every supported pair the polynomial of the macro-step starts with the
Taylor coefficients `1 / k!`, `k = 0 .. order` (by evaluation). -/
theorem config_poly_coeff : ∀ oc ∈ supported_configs, ∀ k ∈ List.range (oc.1 + 1),
    (config_poly oc.1 oc.2).getD k 0 = 1 / (k.factorial : ℚ) := by
  decide!

/-- For every supported pair the 32nd power of the macro-step polynomial at
`dt = 1 / 16` is within `2 · 10⁻¹²` of the square of a 20 digit approximation
of `e` (by evaluation). -/
theorem config_poly_pow_near : ∀ oc ∈ supported_configs,
    |peval (config_poly oc.1 oc.2) (1 / 16 : ℚ) ^ 32 - (363916618873 / 133877442384) ^ 2|
      ≤ 2 / 10 ^ 12 := by
  decide!

theorem exp_two_near :
    |Real.exp 2 - ((363916618873 / 133877442384 : ℚ) : ℝ) ^ 2| ≤ 6 / 10 ^ 20 := by
  have h := Real.exp_one_near_20
  have he2 : Real.exp 2 = Real.exp 1 ^ 2 := by
    rw [← Real.exp_nat_mul]; norm_num
  have hlt := Real.exp_one_lt_d9
  have hgt := Real.exp_one_gt_d9
  have hfac : Real.exp 1 ^ 2 - ((363916618873 / 133877442384 : ℚ) : ℝ) ^ 2
      = (Real.exp 1 - 363916618873 / 133877442384)
        * (Real.exp 1 + 363916618873 / 133877442384) := by
    push_cast; ring
  rw [he2, hfac, abs_mul]
  have h2 : |Real.exp 1 + 363916618873 / 133877442384| ≤ 6 := by
    rw [abs_of_pos (by positivity)]
    have : (363916618873 : ℝ) / 133877442384 ≤ 3 := by norm_num
    linarith
  calc |Real.exp 1 - 363916618873 / 133877442384| * |Real.exp 1 + 363916618873 / 133877442384|
      ≤ 1 / 10 ^ 20 * 6 := mul_le_mul h h2 (abs_nonneg _) (by positivity)
    _ = 6 / 10 ^ 20 := by ring

/-- **C3.** For the linear scalar system `f(t, y) = y` with `y0 = 1` and every
supported `(order, cores)` pair there is a polynomial `P` with rational
coefficients whose coefficient of `dt ^ k` is `1 / k!` for every
`k = 0 .. order` and whose value at `dt` is the result of one macro-step of
size `dt` in exact (real) arithmetic, serial or parallel; so the one-step error
against `e ^ dt` is at most `C |dt| ^ (order + 1)` on `|dt| ≤ 1`, and the error
at a fixed end time `T` after `N` steps of size `dt = T / N ≤ 1` is at most
`C' dt ^ order`. -/
theorem linear_ode_order (order cores : Nat) (h : (order, cores) ∈ supported_configs) :
    ∃ P : Polynomial ℚ,
      (∀ k, k ≤ order → P.coeff k = 1 / (k.factorial : ℚ))
      ∧ (∀ (t dt : ℝ) (parallel : Bool) (sched : Nat → List Nat),
          (parallel = true → ∀ ii, (sched ii).Perm (List.range (pool_size order cores))) →
          (integrate (fun (_ : ℝ) (y : ℝ) => y) 1 t dt 1 order cores parallel sched).map
              Prod.fst = some (Polynomial.aeval dt P))
      ∧ (∃ C : ℝ, ∀ dt : ℝ, |dt| ≤ 1 →
          |Polynomial.aeval dt P - Real.exp dt| ≤ C * |dt| ^ (order + 1))
      ∧ (∀ T : ℝ, 0 < T → ∃ C : ℝ, ∀ (N : ℕ) (parallel : Bool) (sched : Nat → List Nat),
          1 ≤ N → T / N ≤ 1 →
          (parallel = true → ∀ ii, (sched ii).Perm (List.range (pool_size order cores))) →
          ∃ y : ℝ,
            (integrate (fun (_ : ℝ) (y : ℝ) => y) 1 0 (T / N) N order cores parallel sched).map
                Prod.fst = some y
            ∧ |y - Real.exp T| ≤ C * (T / N) ^ order) := by
  have hcoef : ∀ k, k ≤ order → (config_poly order cores).getD k 0 = 1 / (k.factorial : ℚ) :=
    fun k hk => config_poly_coeff (order, cores) h k (List.mem_range.mpr (Nat.lt_succ_of_le hk))
  obtain ⟨C, hC0, hC⟩ := peval_sub_exp_le (config_poly order cores) order hcoef
  refine ⟨(config_poly order cores).foldr
    (fun a acc => Polynomial.C a + Polynomial.X * acc) 0, ?_, ?_, ?_, ?_⟩
  · intro k hk
    rw [coeff_foldr]
    exact hcoef k hk
  · intro t dt parallel sched hsched
    rw [integrate_linear 1 t dt 1 order cores parallel sched h hsched, aeval_foldr]
    simp
  · refine ⟨C, fun dt hdt => ?_⟩
    rw [aeval_foldr]
    exact hC dt hdt
  · intro T hT
    refine ⟨C * T * Real.exp (T * (1 + C)), ?_⟩
    intro N parallel sched hN hx1 hsched
    refine ⟨_, integrate_linear 1 0 (T / N) N order cores parallel sched h hsched, ?_⟩
    rw [one_mul]
    exact global_error_le (fun x => peval (config_poly order cores) x) order C hC0 hC T hT N
      hN hx1

/-- Witness for `linear_ode_order`: the pair `(8, 3)`. -/
theorem linear_ode_order_witness :
    ((8, 3) : Nat × Nat) ∈ supported_configs
    ∧ ∃ P : Polynomial ℚ,
      (∀ k, k ≤ 8 → P.coeff k = 1 / (k.factorial : ℚ))
      ∧ (∀ (t dt : ℝ) (parallel : Bool) (sched : Nat → List Nat),
          (parallel = true → ∀ ii, (sched ii).Perm (List.range (pool_size 8 3))) →
          (integrate (fun (_ : ℝ) (y : ℝ) => y) 1 t dt 1 8 3 parallel sched).map
              Prod.fst = some (Polynomial.aeval dt P))
      ∧ (∃ C : ℝ, ∀ dt : ℝ, |dt| ≤ 1 →
          |Polynomial.aeval dt P - Real.exp dt| ≤ C * |dt| ^ (8 + 1))
      ∧ (∀ T : ℝ, 0 < T → ∃ C : ℝ, ∀ (N : ℕ) (parallel : Bool) (sched : Nat → List Nat),
          1 ≤ N → T / N ≤ 1 →
          (parallel = true → ∀ ii, (sched ii).Perm (List.range (pool_size 8 3))) →
          ∃ y : ℝ,
            (integrate (fun (_ : ℝ) (y : ℝ) => y) 1 0 (T / N) N 8 3 parallel sched).map
                Prod.fst = some y
            ∧ |y - Real.exp T| ≤ C * (T / N) ^ 8) :=
  ⟨by decide, linear_ode_order 8 3 (by decide)⟩

/-- **C4.** For `f(t, y) = y`, `y0 = 1`, `t = 0`, `dt = 2 / 32` and `n = 32` macro-steps,
for every supported `(order, cores)` pair and both settings of the
parallel flag (the workers of a round taken in any order), the state `y`
returned by `integrate` in exact arithmetic over the rational weights
satisfies `|y - e²| < 3 · 10⁻¹²`. -/
theorem simple_ode_error (order cores : Nat) (parallel : Bool) (sched : Nat → List Nat)
    (h : (order, cores) ∈ supported_configs)
    (hsched : parallel = true → ∀ ii, (sched ii).Perm (List.range (pool_size order cores))) :
    ∃ y : ℝ,
      (integrate (fun (_ : ℝ) (y : ℝ) => y) 1 0 (2 / 32) 32 order cores parallel sched).map
          Prod.fst = some y
      ∧ |y - Real.exp 2| < 3 / 10 ^ 12 := by
  refine ⟨_, integrate_linear 1 0 (2 / 32) 32 order cores parallel sched h hsched, ?_⟩
  have hdt : (2 / 32 : ℝ) = ((1 / 16 : ℚ) : ℝ) := by norm_num
  rw [one_mul, hdt, peval_cast]
  have hq := config_poly_pow_near (order, cores) h
  have hr : |((peval (config_poly order cores) (1 / 16 : ℚ) : ℚ) : ℝ) ^ 32
      - ((363916618873 / 133877442384 : ℚ) : ℝ) ^ 2| ≤ 2 / 10 ^ 12 := by
    have : ((|peval (config_poly order cores) (1 / 16 : ℚ) ^ 32
        - (363916618873 / 133877442384) ^ 2| : ℚ) : ℝ) ≤ ((2 / 10 ^ 12 : ℚ) : ℝ) :=
      Rat.cast_le.mpr hq
    push_cast at this
    push_cast
    exact this
  have he := exp_two_near
  rw [abs_sub_comm] at he
  calc |((peval (config_poly order cores) (1 / 16 : ℚ) : ℚ) : ℝ) ^ 32 - Real.exp 2|
      = |(((peval (config_poly order cores) (1 / 16 : ℚ) : ℚ) : ℝ) ^ 32
            - ((363916618873 / 133877442384 : ℚ) : ℝ) ^ 2)
          + (((363916618873 / 133877442384 : ℚ) : ℝ) ^ 2 - Real.exp 2)| := by
        congr 1; ring
    _ ≤ |((peval (config_poly order cores) (1 / 16 : ℚ) : ℚ) : ℝ) ^ 32
            - ((363916618873 / 133877442384 : ℚ) : ℝ) ^ 2|
          + |((363916618873 / 133877442384 : ℚ) : ℝ) ^ 2 - Real.exp 2| := abs_add _ _
    _ ≤ 2 / 10 ^ 12 + 6 / 10 ^ 20 := add_le_add hr he
    _ < 3 / 10 ^ 12 := by norm_num

/-- Witness for `simple_ode_error`: the pair `(8, 3)` with `parallel = true` and
the workers finishing in the order 2, 0, 1 in every macro-step. -/
theorem simple_ode_error_witness :
    ((8, 3) : Nat × Nat) ∈ supported_configs
    ∧ (true = true → ∀ ii : Nat,
        ((fun (_ : Nat) => [2, 0, 1]) ii).Perm (List.range (pool_size 8 3)))
    ∧ ∃ y : ℝ,
      (integrate (fun (_ : ℝ) (y : ℝ) => y) 1 0 (2 / 32) 32 8 3 true
          (fun _ => [2, 0, 1])).map Prod.fst = some y
      ∧ |y - Real.exp 2| < 3 / 10 ^ 12 :=
  ⟨by decide,
    fun _ _ => by
      show ([2, 0, 1] : List Nat).Perm (List.range (pool_size 8 3))
      decide,
    simple_ode_error 8 3 true (fun _ => [2, 0, 1]) (by decide)
      (fun _ _ => by
        show ([2, 0, 1] : List Nat).Perm (List.range (pool_size 8 3))
        decide)⟩

end LinearTest

/-! ## The order inside the bins of `partition` -/

section PartitionOrder
open detail

/-- The inner loop of `_try_partition` appends to the bin a sublist of the
elements it walks, whatever the flags and the sums are. -/
theorem scan_sublist (H : Nat) : ∀ (a : List Nat) (used : List Bool) (sum : Nat) (bin : List Nat),
    ∃ taken, (_try_partition.scan H a used sum bin).2.1 = bin ++ taken ∧ taken.Sublist a
  | [], used, sum, bin => ⟨[], by simp [_try_partition.scan], List.Sublist.refl _⟩
  | x :: a, [], sum, bin => ⟨[], by simp [_try_partition.scan], List.nil_sublist _⟩
  | x :: a, u :: used, sum, bin => by
    cases u
    · by_cases hfit : (sum + x) % SIZE_MOD ≤ H
      · obtain ⟨taken, h1, h2⟩ := scan_sublist H a used ((sum + x) % SIZE_MOD) (bin ++ [x])
        refine ⟨x :: taken, ?_, h2.cons₂ x⟩
        simp [_try_partition.scan, hfit, h1]
      · obtain ⟨taken, h1, h2⟩ := scan_sublist H a used sum bin
        refine ⟨taken, ?_, h2.cons x⟩
        simp [_try_partition.scan, hfit, h1]
    · obtain ⟨taken, h1, h2⟩ := scan_sublist H a used sum bin
      refine ⟨taken, ?_, h2.cons x⟩
      simp [_try_partition.scan, h1]

theorem fill_sublist (H : Nat) (a : List Nat) : ∀ (k : Nat) (used : List Bool),
    ∀ b ∈ (_try_partition.fill a H k used).1, b.Sublist a
  | 0, used => by simp [_try_partition.fill]
  | k + 1, used => by
    intro b hb
    simp only [_try_partition.fill, List.mem_cons] at hb
    rcases hb with rfl | hb
    · obtain ⟨taken, h1, h2⟩ := scan_sublist H a used 0 []
      rw [h1]
      simpa using h2
    · exact fill_sublist H a k _ b hb

theorem try_partition_sublist (a : List Nat) (n k H : Nat) :
    ∀ b ∈ _try_partition a n k H, b.Sublist a := by
  intro b hb
  unfold _try_partition at hb
  simp only at hb
  split_ifs at hb
  · exact fill_sublist H a k _ b hb
  · simp at hb

theorem search_sublist (sorted : List Nat) (n H : Nat) : ∀ (fuel ii : Nat),
    ∀ b ∈ partition.search sorted n H fuel ii, b.Sublist sorted
  | 0, _ => by simp [partition.search]
  | fuel + 1, ii => by
    intro b hb
    simp only [partition.search] at hb
    split_ifs at hb
    · exact try_partition_sublist sorted n ii H b hb
    · exact search_sublist sorted n H fuel (ii + 1) b hb

/-- Every bin that `partition` returns is a sublist of the descending sort of
the input. -/
theorem partition_sublist (A : List Nat) (bins : List (List Nat))
    (h : partition A A.length = some bins) : ∀ b ∈ bins, b.Sublist (sort_desc A) := by
  unfold partition at h
  rw [List.take_length] at h
  change (match (sort_desc A).head? with
    | none => none
    | some maxheight =>
      match ceildiv ((sort_desc A).foldl (fun acc x => (acc + x) % SIZE_MOD) 0) maxheight with
      | none => none
      | some first =>
        some (partition.search (sort_desc A) A.length maxheight (A.length + 1 - first) first))
    = some bins at h
  cases hh : (sort_desc A).head? with
  | none => rw [hh] at h; simp at h
  | some maxheight =>
    rw [hh] at h
    simp only at h
    cases hc : ceildiv ((sort_desc A).foldl (fun acc x => (acc + x) % SIZE_MOD) 0) maxheight with
    | none => rw [hc] at h; simp at h
    | some first =>
      rw [hc] at h
      simp only [Option.some.injEq] at h
      subst h
      exact search_sublist _ _ _ _ _

/-- **C11.** For every non-empty list `A` of positive integers, the elements
inside each bin returned by `partition(A)` are listed in non-increasing order,
the order of the descending-sorted input: every bin is a sublist of the sorted
input. This holds for whatever `partition` returns; and it does return bins
whenever the sum of `A` is below `2 ^ 31`. -/
theorem partition_bins_descending (A : List Nat) (hne : A ≠ []) (hpos : ∀ x ∈ A, 0 < x) :
    (∀ bins, partition A A.length = some bins →
      ∀ b ∈ bins, b.Sorted (fun x y => y ≤ x) ∧ b.Sublist (sort_desc A))
    ∧ (A.sum < 2 ^ 31 → ∃ bins, partition A A.length = some bins ∧ bins ≠ []) := by
  constructor
  · intro bins h b hb
    have hsub := partition_sublist A bins h b hb
    have hsorted : (sort_desc A).Sorted (fun x y => y ≤ x) :=
      List.sorted_insertionSort (fun x y => y ≤ x) A
    exact ⟨hsorted.sublist hsub, hsub⟩
  · intro hsum
    obtain ⟨k, hk1, -, -, -, hbins⟩ := partition_core A hne hpos hsum
    refine ⟨_, hbins, ?_⟩
    intro h0
    have := spec_first_fit_length (list_max A) k (sort_desc A)
    rw [h0] at this
    simp at this
    omega

/-- Witness for `partition_bins_descending` at `[4, 9, 2, 7, 5]`. -/
theorem partition_bins_descending_witness :
    ([4, 9, 2, 7, 5] : List Nat) ≠ [] ∧ (∀ x ∈ ([4, 9, 2, 7, 5] : List Nat), 0 < x)
    ∧ (∀ bins, partition [4, 9, 2, 7, 5] ([4, 9, 2, 7, 5] : List Nat).length = some bins →
        ∀ b ∈ bins, b.Sorted (fun x y => y ≤ x) ∧ b.Sublist (sort_desc [4, 9, 2, 7, 5]))
    ∧ (([4, 9, 2, 7, 5] : List Nat).sum < 2 ^ 31 →
        ∃ bins, partition [4, 9, 2, 7, 5] ([4, 9, 2, 7, 5] : List Nat).length = some bins
          ∧ bins ≠ []) :=
  ⟨by decide, by decide, partition_bins_descending [4, 9, 2, 7, 5] (by decide) (by decide)⟩

/-- **C12.** `partition` applied to `[2, 16, 18, 20]` returns exactly three bins,
`[20]`, `[18, 2]` and `[16]`, in that order. -/
theorem partition_step_counts_8_3 :
    partition [2, 16, 18, 20] 4 = some [[20], [18, 2], [16]] := by
  decide

end PartitionOrder

/-! ## `partition` on the even numbers of `test_partition_sized` -/

section EvenNumbers
open detail

theorem desc_evens_succ_top (b n : Nat) :
    desc_evens b (n + 1) = 2 * (b + n) :: desc_evens b n := by
  simp [desc_evens, List.range'_concat]

theorem desc_evens_succ_bot (b n : Nat) :
    desc_evens b (n + 1) = desc_evens (b + 1) n ++ [2 * b] := by
  simp [desc_evens, List.range'_succ]

theorem desc_evens_two (b n : Nat) :
    desc_evens b (n + 2) = 2 * (b + n + 1) :: (desc_evens (b + 1) n ++ [2 * b]) := by
  rw [desc_evens_succ_bot, desc_evens_succ_top]
  simp [Nat.add_assoc, Nat.add_comm 1 n]

theorem mem_desc_evens (b n z : Nat) :
    z ∈ desc_evens b n ↔ ∃ i, b ≤ i ∧ i < b + n ∧ z = 2 * i := by
  simp only [desc_evens, List.mem_reverse, List.mem_map, List.mem_range'_1]
  constructor
  · rintro ⟨i, ⟨h1, h2⟩, rfl⟩; exact ⟨i, h1, h2, rfl⟩
  · rintro ⟨i, h1, h2, rfl⟩; exact ⟨i, ⟨h1, h2⟩, rfl⟩

theorem desc_evens_sorted (b : Nat) : ∀ n, (desc_evens b n).Sorted (fun x y => y ≤ x)
  | 0 => by simp [desc_evens]
  | n + 1 => by
    rw [desc_evens_succ_top]
    refine List.sorted_cons.mpr ⟨?_, desc_evens_sorted b n⟩
    intro z hz
    obtain ⟨i, -, h2, rfl⟩ := (mem_desc_evens b n z).mp hz
    omega

theorem sort_desc_even_numbers (k : Nat) : sort_desc (even_numbers k) = desc_evens 1 k := by
  haveI : IsAntisymm Nat (fun x y => y ≤ x) := ⟨fun a b h1 h2 => le_antisymm h2 h1⟩
  apply List.eq_of_perm_of_sorted (r := fun x y => y ≤ x)
  · refine (sort_desc_perm _).trans ?_
    unfold even_numbers desc_evens
    exact (List.reverse_perm _).symm
  · exact List.sorted_insertionSort (fun x y => y ≤ x) _
  · exact desc_evens_sorted 1 k

theorem length_even_numbers (k : Nat) : (even_numbers k).length = k := by
  simp [even_numbers]

theorem sum_even_numbers : ∀ k, (even_numbers k).sum = k * (k + 1)
  | 0 => by simp [even_numbers]
  | k + 1 => by
    have ih := sum_even_numbers k
    unfold even_numbers at ih ⊢
    rw [List.range'_concat, List.map_append, List.sum_append, ih]
    simp
    ring

theorem even_numbers_pos (k : Nat) : ∀ x ∈ even_numbers k, 0 < x := by
  intro x hx
  simp only [even_numbers, List.mem_map, List.mem_range'_1] at hx
  obtain ⟨i, ⟨h1, -⟩, rfl⟩ := hx
  omega

theorem list_max_even_numbers (k : Nat) (hk : 1 ≤ k) : list_max (even_numbers k) = 2 * k := by
  have hne : even_numbers k ≠ [] := by
    intro h
    have := length_even_numbers k
    rw [h] at this
    simp at this
    omega
  have h := head_sort_desc (even_numbers k) hne
  obtain ⟨n, rfl⟩ : ∃ n, k = n + 1 := ⟨k - 1, by omega⟩
  rw [sort_desc_even_numbers, desc_evens_succ_top] at h
  simp only [List.head?_cons, Option.some.injEq] at h
  rw [← h]
  ring

/-- A bin that no element of the list fits takes nothing. -/
theorem spec_fill_bin_none (H : Nat) : ∀ (l : List Nat) (s : Nat), (∀ z ∈ l, H < s + z) →
    spec_fill_bin H l s = ([], l)
  | [], _, _ => rfl
  | x :: l, s, h => by
    have hx : ¬ s + x ≤ H := Nat.not_le.mpr (h x (List.mem_cons_self _ _))
    have ih := spec_fill_bin_none H l s (fun z hz => h z (List.mem_cons_of_mem _ hz))
    simp [spec_fill_bin, hx, ih]

theorem spec_fill_bin_singleton (H x s : Nat) (h : s + x ≤ H) :
    spec_fill_bin H [x] s = ([x], []) := by
  simp only [spec_fill_bin, h, if_true]

/-- A bin skips a run of elements that do not fit. -/
theorem spec_fill_bin_skip (H : Nat) (rest : List Nat) : ∀ (mid : List Nat) (s : Nat),
    (∀ z ∈ mid, H < s + z) →
    spec_fill_bin H (mid ++ rest) s
      = ((spec_fill_bin H rest s).1, mid ++ (spec_fill_bin H rest s).2)
  | [], _, _ => rfl
  | x :: mid, s, h => by
    have hx : ¬ s + x ≤ H := Nat.not_le.mpr (h x (List.mem_cons_self _ _))
    have ih := spec_fill_bin_skip H rest mid s (fun z hz => h z (List.mem_cons_of_mem _ hz))
    simp [spec_fill_bin, hx, ih]

/-- The first-fit pass on the even numbers `2b, ..., 2(b+n-1)` with `2b + n = k + 1`
and bins of height `2k` pairs the largest with the smallest element, bin after
bin, and ends with the single `k` when `n` is odd. -/
theorem spec_first_fit_desc_evens (k : Nat) : ∀ (n b : Nat), 1 ≤ b → 2 * b + n = k + 1 →
    spec_first_fit (2 * k) ((n + 1) / 2) (desc_evens b n)
      = ((List.range' b (n / 2)).map (fun i => [2 * k - 2 * i, 2 * i])
          ++ (if n % 2 = 1 then [[k]] else []), [])
  | 0, b, _, _ => by simp [desc_evens, spec_first_fit]
  | 1, b, _, hk => by
    have : k = 2 * b := by omega
    subst this
    have hfit : 0 + 2 * b ≤ 2 * (2 * b) := by omega
    have hE : desc_evens b 1 = [2 * b] := by simp [desc_evens]
    simp only [hE, Nat.reduceAdd, Nat.reduceDiv, spec_first_fit,
      spec_fill_bin_singleton _ _ _ hfit]
    simp
  | n + 2, b, hb, hk => by
    have ih := spec_first_fit_desc_evens k n (b + 1) (by omega) (by omega)
    have htop : 2 * (b + n + 1) = 2 * k - 2 * b := by omega
    have hfit1 : 0 + (2 * k - 2 * b) ≤ 2 * k := by omega
    have hmid : ∀ z ∈ desc_evens (b + 1) n, 2 * k < 0 + (2 * k - 2 * b) + z := by
      intro z hz
      obtain ⟨i, h1, -, rfl⟩ := (mem_desc_evens (b + 1) n z).mp hz
      omega
    have hfit2 : 0 + (2 * k - 2 * b) + 2 * b ≤ 2 * k := by omega
    have hfill : spec_fill_bin (2 * k) (desc_evens b (n + 2)) 0
        = ([2 * k - 2 * b, 2 * b], desc_evens (b + 1) n) := by
      rw [desc_evens_two, htop]
      simp only [spec_fill_bin, hfit1, if_true]
      rw [spec_fill_bin_skip (2 * k) [2 * b] (desc_evens (b + 1) n) _ hmid,
        spec_fill_bin_singleton _ _ _ hfit2]
      simp
    have hcount : (n + 2 + 1) / 2 = (n + 1) / 2 + 1 := by omega
    have hhalf : (n + 2) / 2 = n / 2 + 1 := by omega
    have hpar : (n + 2) % 2 = n % 2 := by omega
    rw [hcount, hhalf, hpar]
    simp only [spec_first_fit, hfill, ih, List.range'_succ, List.map_cons, List.cons_append]

/-- The first-fit pass on the even numbers up to `2k` with `k / 2 + 1` bins of
height `2k` places every element, in the bins that the claim names. -/
theorem spec_first_fit_even_numbers (k : Nat) (hk : 1 ≤ k) :
    spec_first_fit (2 * k) (k / 2 + 1) (desc_evens 1 k) = (even_bins k, []) := by
  obtain ⟨n, rfl⟩ : ∃ n, k = n + 1 := ⟨k - 1, by omega⟩
  have htop : 2 * (1 + n) = 2 * (n + 1) := by ring
  have hrest : ∀ z ∈ desc_evens 1 n, 2 * (n + 1) < 0 + 2 * (n + 1) + z := by
    intro z hz
    obtain ⟨i, h1, -, rfl⟩ := (mem_desc_evens 1 n z).mp hz
    omega
  have hfit : 0 + 2 * (n + 1) ≤ 2 * (n + 1) := by omega
  have hfill : spec_fill_bin (2 * (n + 1)) (desc_evens 1 (n + 1)) 0
      = ([2 * (n + 1)], desc_evens 1 n) := by
    rw [desc_evens_succ_top, htop]
    simp only [spec_fill_bin, hfit, if_true]
    rw [spec_fill_bin_none _ _ _ hrest]
  have ih := spec_first_fit_desc_evens (n + 1) n 1 (le_refl 1) (by omega)
  have hcount : (n + 1) / 2 = (n + 1 + 1 - 1) / 2 := by omega
  have hpar : (n % 2 = 1) ↔ ((n + 1) % 2 = 0) := by omega
  simp only [spec_first_fit, hfill, ih, even_bins, Nat.add_sub_cancel]
  by_cases hp : n % 2 = 1
  · simp [hp, hpar.mp hp]
  · have : ¬ (n + 1) % 2 = 0 := fun h => hp (hpar.mpr h)
    simp [hp, this]

theorem length_even_bins (k : Nat) (hk : 1 ≤ k) : (even_bins k).length = k / 2 + 1 := by
  unfold even_bins
  by_cases hp : k % 2 = 0
  · simp [hp]; omega
  · simp [hp]; omega

/-- On the even numbers up to `2k`, `partition` sorts to the decreasing list, takes
`2k` as height and `k (k + 1)` as sum, and searches from what `ceildiv` yields. -/
theorem partition_even_numbers_unfold (k : Nat) (hk : 1 ≤ k) (h64 : k * (k + 1) < SIZE_MOD) :
    partition (even_numbers k) k
      = match ceildiv (k * (k + 1)) (2 * k) with
        | none => none
        | some first =>
          some (partition.search (desc_evens 1 k) k (2 * k) (k + 1 - first) first) := by
  have htake : (even_numbers k).take k = even_numbers k := by
    rw [List.take_of_length_le (by rw [length_even_numbers])]
  have hhead : (desc_evens 1 k).head? = some (2 * k) := by
    obtain ⟨n, rfl⟩ : ∃ n, k = n + 1 := ⟨k - 1, by omega⟩
    rw [desc_evens_succ_top]
    simp [Nat.add_comm]
  have hsum : (desc_evens 1 k).foldl (fun acc x => (acc + x) % SIZE_MOD) 0 = k * (k + 1) := by
    rw [foldl_add_mod SIZE_MOD _ 0 (by unfold SIZE_MOD; norm_num), Nat.zero_add,
      ← sort_desc_even_numbers, (sort_desc_perm _).sum_eq, sum_even_numbers]
    exact Nat.mod_eq_of_lt h64
  unfold partition
  simp only [htake]
  show (match (sort_desc (even_numbers k)).head? with
    | none => none
    | some maxheight =>
      match ceildiv ((sort_desc (even_numbers k)).foldl (fun acc x => (acc + x) % SIZE_MOD) 0)
          maxheight with
      | none => none
      | some first =>
        some (partition.search (sort_desc (even_numbers k)) k maxheight (k + 1 - first) first))
    = _
  rw [sort_desc_even_numbers, hhead]
  simp only [hsum]

/-- **C13, as stated, fails.** For `k = 46341` the sum `46341 · 46342 = 2147534622`
of the even numbers up to `2k` does not fit `int`: `ceildiv` yields
`2 ^ 64 - 23169`, the loop over the bin counts never runs, and `partition`
returns no bins instead of `floor(k/2) + 1 = 23171`. -/
theorem partition_even_numbers_counterexample :
    partition (even_numbers 46341) 46341 = some []
    ∧ ceildiv (46341 * (46341 + 1)) (2 * 46341) = some (2 ^ 64 - 23169)
    ∧ ([] : List (List Nat)).length ≠ 46341 / 2 + 1 := by
  have hc : ceildiv (46341 * (46341 + 1)) (2 * 46341) = some (2 ^ 64 - 23169) := by decide
  refine ⟨?_, hc, by decide⟩
  rw [partition_even_numbers_unfold 46341 (by decide) (by decide), hc]
  have hfuel : 46341 + 1 - (2 ^ 64 - 23169) = 0 := by decide
  simp only [hfuel, partition.search]

/-- **C13, amended.** For every `k ≥ 1` with `k (k + 1) < 2 ^ 31` (the sum of the
input fits `int`), `partition` applied to the even numbers `[2, 4, ..., 2k]`
returns exactly `floor(k/2) + 1` bins: `[2k]` first, then `[2k - 2i, 2i]` for
`i = 1, 2, ...` while `2i < k`, and last the single bin `[k]` when `k` is even;
each bin sums to at most `2k`. -/
theorem partition_even_numbers (k : Nat) (hk : 1 ≤ k) (hsum : k * (k + 1) < 2 ^ 31) :
    partition (even_numbers k) k = some (even_bins k)
    ∧ (even_bins k).length = k / 2 + 1
    ∧ ∀ b ∈ even_bins k, b.sum ≤ 2 * k := by
  have hne : even_numbers k ≠ [] := by
    intro h
    have := length_even_numbers k
    rw [h] at this
    simp at this
    omega
  have hS : (even_numbers k).sum < 2 ^ 31 := by rw [sum_even_numbers]; exact hsum
  obtain ⟨k', -, -, hall, hmin, hbins⟩ :=
    partition_core (even_numbers k) hne (even_numbers_pos k) hS
  rw [length_even_numbers, list_max_even_numbers k hk, sort_desc_even_numbers] at hbins
  rw [list_max_even_numbers k hk, sort_desc_even_numbers] at hall hmin
  have hpass := spec_first_fit_even_numbers k hk
  have hplaces : spec_places_all (2 * k) (k / 2 + 1) (desc_evens 1 k) := by
    unfold spec_places_all; rw [hpass]
  have hle : k' ≤ k / 2 + 1 := by
    by_contra hlt
    exact hmin (k / 2 + 1) (Nat.lt_of_not_le hlt) hplaces
  have hge : k / 2 + 1 ≤ k' := by
    have h1 := spec_places_all_sum_le (2 * k) k' (desc_evens 1 k) hall
    rw [← sort_desc_even_numbers, (sort_desc_perm _).sum_eq, sum_even_numbers] at h1
    have h2 : k * (k + 1) ≤ k * (2 * k') := by
      calc k * (k + 1) ≤ k' * (2 * k) := h1
        _ = k * (2 * k') := by ring
    have h3 : k + 1 ≤ 2 * k' := Nat.le_of_mul_le_mul_left h2 (by omega)
    omega
  have hk' : k' = k / 2 + 1 := le_antisymm hle hge
  subst hk'
  rw [hpass] at hbins
  refine ⟨hbins, length_even_bins k hk, ?_⟩
  intro b hb
  have hsums := spec_first_fit_sum (2 * k) (k / 2 + 1) (desc_evens 1 k) b
  rw [hpass] at hsums
  exact hsums hb

/-- Witness for `partition_even_numbers`: `k = 7`, the input of
`test_partition_sized(14)`; four bins, each summing to at most 14. -/
theorem partition_even_numbers_witness :
    1 ≤ 7 ∧ 7 * (7 + 1) < 2 ^ 31
    ∧ partition (even_numbers 7) 7 = some (even_bins 7)
    ∧ (even_bins 7).length = 7 / 2 + 1
    ∧ (∀ b ∈ even_bins 7, b.sum ≤ 2 * 7)
    ∧ even_numbers 7 = [2, 4, 6, 8, 10, 12, 14]
    ∧ even_bins 7 = [[14], [12, 2], [10, 4], [8, 6]] :=
  ⟨by decide, by decide, (partition_even_numbers 7 (by decide) (by decide)).1,
    (partition_even_numbers 7 (by decide) (by decide)).2.1,
    (partition_even_numbers 7 (by decide) (by decide)).2.2, by decide, by decide⟩

end EvenNumbers

/-! ## The configuration table -/

section ConfigTable
open detail extrapolation_stepper

theorem extrap_table_isSome_iff (order cores : Nat) :
    (extrap_table order cores).isSome = true ↔ (order, cores) ∈ supported_configs := by
  constructor
  · intro h
    unfold extrap_table at h
    simp only [supported_configs, List.mem_cons, Prod.mk.injEq, List.mem_nil_iff, or_false]
    split_ifs at h with h1 h2 h3 h4 h5 h6 h7 h8 h9 <;> first | omega | simp at h
  · intro h
    simp only [supported_configs, List.mem_cons, Prod.mk.injEq, List.mem_nil_iff, or_false] at h
    rcases h with ⟨rfl, rfl⟩ | ⟨rfl, rfl⟩ | ⟨rfl, rfl⟩ | ⟨rfl, rfl⟩ | ⟨rfl, rfl⟩ | ⟨rfl, rfl⟩ <;> rfl

/-- The entries of the table, pair by pair (by evaluation): the number of step
counts and of weights, the stability boundary, parity, distinctness, the sum of
the weights, and the number of bins of the partition of the step counts. -/
theorem table_facts (order cores : Nat) (h : (order, cores) ∈ supported_configs) :
    ∃ (isbn : ℚ) (S : List Nat) (Wq : List ℚ) (bins : List (List Nat)),
      extrap_table order cores = some (isbn, S, Wq)
      ∧ S.length = spec_sub_integrations order cores ∧ Wq.length = S.length
      ∧ isbn = spec_isbn order cores
      ∧ (∀ s ∈ S, s % 2 = 0 ∧ 2 ≤ s) ∧ S.Nodup ∧ Wq.sum = 1
      ∧ partition S S.length = some bins ∧ bins.length ≤ cores ∧ bins.length ≤ S.length := by
  simp only [supported_configs, List.mem_cons, Prod.mk.injEq, List.mem_nil_iff, or_false] at h
  rcases h with ⟨rfl, rfl⟩ | ⟨rfl, rfl⟩ | ⟨rfl, rfl⟩ | ⟨rfl, rfl⟩ | ⟨rfl, rfl⟩ | ⟨rfl, rfl⟩
  · exact ⟨_, _, _, [[20], [18, 2], [16]], rfl, by decide, by decide, by decide!, by decide,
      by decide, by decide!, by decide, by decide, by decide⟩
  · exact ⟨_, _, _, [[22], [20, 2], [18, 4], [16, 6], [14, 8], [12, 10]], rfl, by decide,
      by decide, by decide!, by decide, by decide, by decide!, by decide, by decide, by decide⟩
  · exact ⟨_, _, _, [[30], [28, 2], [26, 4], [24, 6], [22, 8], [20, 10], [18, 12], [16, 14]],
      rfl, by decide, by decide, by decide!, by decide, by decide, by decide!, by decide,
      by decide, by decide⟩
  · exact ⟨_, _, _, [[20], [16, 2], [14], [12, 8]], rfl, by decide, by decide, by decide!,
      by decide, by decide, by decide!, by decide, by decide, by decide⟩
  · exact ⟨_, _, _, [[30], [28, 2], [26, 4], [24, 6], [22, 8], [20, 10], [18, 12], [16, 14]],
      rfl, by decide, by decide, by decide!, by decide, by decide, by decide!, by decide,
      by decide, by decide⟩
  · exact ⟨_, _, _, [[22], [18, 2], [16], [14, 8], [12, 10]], rfl, by decide, by decide,
      by decide!, by decide, by decide, by decide!, by decide, by decide, by decide⟩

theorem make_extrap_config_eq (K : Type) [Field K] (order cores : Nat) (isbn : ℚ)
    (S : List Nat) (Wq : List ℚ) (htab : extrap_table order cores = some (isbn, S, Wq)) :
    make_extrap_config K order cores = some (isbn, S, Wq.map (fun (d : ℚ) => (d : K))) := by
  simp [make_extrap_config, htab]

theorem make_extrap_config_none (K : Type) [Field K] (order cores : Nat)
    (htab : extrap_table order cores = none) : make_extrap_config K order cores = none := by
  simp [make_extrap_config, htab]

/-- The stepper that `make_extrapolation_stepper` builds from a table entry. -/
theorem make_stepper_fields {K Y : Type} [Field K] [AddCommGroup Y] (f : K → Y → Y) (y0 : Y)
    (order cores : Nat) (isbn : ℚ) (S : List Nat) (Wq : List ℚ) (bins : List (List Nat))
    (htab : extrap_table order cores = some (isbn, S, Wq))
    (hbins : partition S S.length = some bins) (parallel : Bool) :
    ∃ s : extrapolation_stepper K Y,
      make_extrapolation_stepper f y0 order cores parallel = some s
      ∧ s.m_order = order ∧ s.m_isbn = isbn ∧ s.m_step_counts = S
      ∧ s.m_pool = (if parallel then some bins.length else none) := by
  have hS : S.take S.length = S := List.take_length _
  cases parallel with
  | false =>
    refine ⟨
      { m_order := order, m_isbn := isbn, m_systems := [f], m_scratch := [⟨0, 0, 0⟩],
        m_weights := (Wq.map (fun (d : ℚ) => (d : K))).take S.length, m_step_counts := S,
        m_outputs := List.replicate S.length 0, m_partitions := [],
        m_partition_indices := [], m_pool := none }, ?_, rfl, rfl, rfl, rfl⟩
    simp [make_extrapolation_stepper, make_extrap_config, htab, make, hS]
  | true =>
    refine ⟨
      { m_order := order, m_isbn := isbn, m_systems := List.replicate bins.length f,
        m_scratch := List.replicate bins.length ⟨0, 0, 0⟩,
        m_weights := (Wq.map (fun (d : ℚ) => (d : K))).take S.length, m_step_counts := S,
        m_outputs := List.replicate S.length 0, m_partitions := bins,
        m_partition_indices := bins.map (fun bin => bin.map (fun v => S.indexOf v)),
        m_pool := some bins.length }, ?_, rfl, rfl, rfl, rfl⟩
    simp [make_extrapolation_stepper, make_extrap_config, htab, make, _initialize_pool, hS,
      hbins]

/-! ### The claims about the configuration table -/

/-- **C14.** `make_extrap_config(order, cores)` yields a configuration if and only
if `(order, cores)` is one of `(8,3)`, `(8,6)`, `(8,8)`, `(12,4)`, `(12,8)`,
`(16,5)`; for every other pair the assertion on a non-empty step sequence fails
and `make_extrapolation_stepper` produces no stepper, serial or parallel. -/
theorem make_extrap_config_iff {K Y : Type} [Field K] [AddCommGroup Y] (f : K → Y → Y)
    (y0 : Y) (parallel : Bool) (order cores : Nat) :
    ((make_extrap_config K order cores).isSome = true
        ↔ (order, cores) ∈ [(8, 3), (8, 6), (8, 8), (12, 4), (12, 8), (16, 5)])
    ∧ ((make_extrapolation_stepper f y0 order cores parallel).isSome = true
        ↔ (order, cores) ∈ [(8, 3), (8, 6), (8, 8), (12, 4), (12, 8), (16, 5)]) := by
  have hiff := extrap_table_isSome_iff order cores
  change _ ↔ (order, cores) ∈ [(8, 3), (8, 6), (8, 8), (12, 4), (12, 8), (16, 5)] at hiff
  constructor
  · rw [← hiff]
    cases htab : extrap_table order cores with
    | none => simp [make_extrap_config_none K order cores htab]
    | some c =>
      obtain ⟨isbn, S, Wq⟩ := c
      simp [make_extrap_config_eq K order cores isbn S Wq htab]
  · constructor
    · intro hs
      rw [← hiff]
      cases htab : extrap_table order cores with
      | none =>
        rw [make_extrapolation_stepper, make_extrap_config_none K order cores htab] at hs
        simp at hs
      | some c => rfl
    · intro hmem
      obtain ⟨isbn, S, Wq, bins, htab, -, -, -, -, -, -, hbins, -, -⟩ :=
        table_facts order cores hmem
      obtain ⟨s, hs, -⟩ := make_stepper_fields (K := K) f y0 order cores isbn S Wq bins htab
        hbins parallel
      rw [hs]
      rfl

/-- **C15.** For every supported `(order, cores)` pair the configuration has as
many weights as step counts, and the number of sub-integrations is 4 for
`(8,3)`, 11 for `(8,6)`, 15 for `(8,8)`, 6 for `(12,4)`, 15 for `(12,8)` and 8 for
`(16,5)`. -/
theorem config_sizes (K : Type) [Field K] (order cores : Nat)
    (h : (order, cores) ∈ supported_configs) :
    ∃ (isbn : ℚ) (step_counts : List Nat) (weights : List K),
      make_extrap_config K order cores = some (isbn, step_counts, weights)
      ∧ weights.length = step_counts.length
      ∧ step_counts.length = spec_sub_integrations order cores := by
  obtain ⟨isbn, S, Wq, -, htab, hS, hW, -⟩ := table_facts order cores h
  exact ⟨isbn, S, _, make_extrap_config_eq K order cores isbn S Wq htab,
    by rw [List.length_map, hW], hS⟩

/-- Witness for `config_sizes`: the pair `(8, 6)` has 11 sub-integrations. -/
theorem config_sizes_witness :
    ((8, 6) : Nat × Nat) ∈ supported_configs
    ∧ ∃ (isbn : ℚ) (step_counts : List Nat) (weights : List ℚ),
      make_extrap_config ℚ 8 6 = some (isbn, step_counts, weights)
      ∧ weights.length = step_counts.length
      ∧ step_counts.length = spec_sub_integrations 8 6 :=
  ⟨by decide, config_sizes ℚ 8 6 (by decide)⟩

/-- **C16.** For every supported `(order, cores)` pair, the stepper built by
`make_extrapolation_stepper`, serial or parallel, reports through `isbn()` the
table value for that pair (0.5799 for `(8,3)`, 0.7675 for `(8,6)`, 0.8176 for
`(8,8)`, 0.4515 for `(12,4)`, 0.7116 for `(12,8)`, 0.4162 for `(16,5)`), and
`order()` returns the requested order. -/
theorem stepper_reports_isbn_order {K Y : Type} [Field K] [AddCommGroup Y] (f : K → Y → Y)
    (y0 : Y) (parallel : Bool) (order cores : Nat) (h : (order, cores) ∈ supported_configs) :
    ∃ s : extrapolation_stepper K Y,
      make_extrapolation_stepper f y0 order cores parallel = some s
      ∧ s.isbn = spec_isbn order cores ∧ s.order = order := by
  obtain ⟨isbn, S, Wq, bins, htab, -, -, hisbn, -, -, -, hbins, -, -⟩ :=
    table_facts order cores h
  obtain ⟨s, hs, horder, hi, -⟩ := make_stepper_fields (K := K) f y0 order cores isbn S Wq
    bins htab hbins parallel
  exact ⟨s, hs, by rw [extrapolation_stepper.isbn, hi, hisbn], horder⟩

/-- Witness for `stepper_reports_isbn_order`: the parallel stepper for `(12, 8)`
on `y' = y` reports 0.7116 and order 12. -/
theorem stepper_reports_isbn_order_witness :
    ((12, 8) : Nat × Nat) ∈ supported_configs
    ∧ ∃ s : extrapolation_stepper ℚ ℚ,
      make_extrapolation_stepper (fun (_ : ℚ) (y : ℚ) => y) (1 : ℚ) 12 8 true = some s
      ∧ s.isbn = spec_isbn 12 8 ∧ s.order = 12 :=
  ⟨by decide,
    stepper_reports_isbn_order (fun (_ : ℚ) (y : ℚ) => y) (1 : ℚ) true 12 8 (by decide)⟩

/-- **C17.** For every supported `(order, cores)` pair, every step count in the
configuration is even and at least 2. -/
theorem step_counts_even (K : Type) [Field K] (order cores : Nat)
    (h : (order, cores) ∈ supported_configs) :
    ∃ (isbn : ℚ) (step_counts : List Nat) (weights : List K),
      make_extrap_config K order cores = some (isbn, step_counts, weights)
      ∧ ∀ s ∈ step_counts, s % 2 = 0 ∧ 2 ≤ s := by
  obtain ⟨isbn, S, Wq, -, htab, -, -, -, heven, -⟩ := table_facts order cores h
  exact ⟨isbn, S, _, make_extrap_config_eq K order cores isbn S Wq htab, heven⟩

/-- Witness for `step_counts_even`: the pair `(16, 5)`. -/
theorem step_counts_even_witness :
    ((16, 5) : Nat × Nat) ∈ supported_configs
    ∧ ∃ (isbn : ℚ) (step_counts : List Nat) (weights : List ℚ),
      make_extrap_config ℚ 16 5 = some (isbn, step_counts, weights)
      ∧ ∀ s ∈ step_counts, s % 2 = 0 ∧ 2 ≤ s :=
  ⟨by decide, step_counts_even ℚ 16 5 (by decide)⟩

/-- In a list without duplicates `std::find` locates every member at its only
position. -/
theorem indexOf_unique (S : List Nat) (hnd : S.Nodup) (v : Nat) (hv : v ∈ S) :
    S.indexOf v < S.length ∧ S.getD (S.indexOf v) 0 = v
    ∧ ∀ j, j < S.length → S.getD j 0 = v → j = S.indexOf v := by
  have hlt : S.indexOf v < S.length := List.indexOf_lt_length.mpr hv
  have hget : S[S.indexOf v] = v := List.getElem_indexOf hlt
  refine ⟨hlt, by rw [List.getD_eq_getElem _ _ hlt, hget], ?_⟩
  intro j hj hjv
  rw [List.getD_eq_getElem _ _ hj] at hjv
  have : S[j] = S[S.indexOf v] := by rw [hjv, hget]
  exact (List.Nodup.getElem_inj_iff hnd).mp this

/-- **C18.** For every supported `(order, cores)` pair, the step counts of the
configuration are pairwise distinct, so looking a bin value up in the step
sequence (`std::find`) finds its unique index: for every value `v` of every
bin of `partition(step_counts)`, the index found holds `v` and no other index
does. -/
theorem step_counts_distinct (K : Type) [Field K] (order cores : Nat)
    (h : (order, cores) ∈ supported_configs) :
    ∃ (isbn : ℚ) (step_counts : List Nat) (weights : List K) (bins : List (List Nat)),
      make_extrap_config K order cores = some (isbn, step_counts, weights)
      ∧ step_counts.Nodup
      ∧ partition step_counts step_counts.length = some bins
      ∧ ∀ b ∈ bins, ∀ v ∈ b,
          step_counts.indexOf v < step_counts.length
          ∧ step_counts.getD (step_counts.indexOf v) 0 = v
          ∧ ∀ j, j < step_counts.length → step_counts.getD j 0 = v →
              j = step_counts.indexOf v := by
  obtain ⟨isbn, S, Wq, bins, htab, -, -, -, -, hnd, -, hbins, -, -⟩ := table_facts order cores h
  refine ⟨isbn, S, _, bins, make_extrap_config_eq K order cores isbn S Wq htab, hnd, hbins, ?_⟩
  intro b hb v hv
  have hsub := partition_sublist S bins hbins b hb
  have hmem : v ∈ S := (sort_desc_perm S).subset (hsub.subset hv)
  exact indexOf_unique S hnd v hmem

/-- Witness for `step_counts_distinct`: the pair `(8, 8)`. -/
theorem step_counts_distinct_witness :
    ((8, 8) : Nat × Nat) ∈ supported_configs
    ∧ ∃ (isbn : ℚ) (step_counts : List Nat) (weights : List ℚ) (bins : List (List Nat)),
      make_extrap_config ℚ 8 8 = some (isbn, step_counts, weights)
      ∧ step_counts.Nodup
      ∧ partition step_counts step_counts.length = some bins
      ∧ ∀ b ∈ bins, ∀ v ∈ b,
          step_counts.indexOf v < step_counts.length
          ∧ step_counts.getD (step_counts.indexOf v) 0 = v
          ∧ ∀ j, j < step_counts.length → step_counts.getD j 0 = v →
              j = step_counts.indexOf v :=
  ⟨by decide, step_counts_distinct ℚ 8 8 (by decide)⟩

/-- **C19.** For every supported `(order, cores)` pair, the sum of the weights of
the configuration, the rational numbers written in the source, differs from 1
by at most `10⁻¹²`; the sum is exactly 1. -/
theorem weights_sum_one (order cores : Nat) (h : (order, cores) ∈ supported_configs) :
    ∃ (isbn : ℚ) (step_counts : List Nat) (weights : List ℚ),
      make_extrap_config ℚ order cores = some (isbn, step_counts, weights)
      ∧ |weights.sum - 1| ≤ 1 / 10 ^ 12 ∧ weights.sum = 1 := by
  obtain ⟨isbn, S, Wq, -, htab, -, -, -, -, -, hsum, -⟩ := table_facts order cores h
  refine ⟨isbn, S, Wq, ?_, ?_, hsum⟩
  · rw [make_extrap_config_eq ℚ order cores isbn S Wq htab]
    simp
  · rw [hsum]; norm_num

/-- Witness for `weights_sum_one`: the pair `(12, 4)`. -/
theorem weights_sum_one_witness :
    ((12, 4) : Nat × Nat) ∈ supported_configs
    ∧ ∃ (isbn : ℚ) (step_counts : List Nat) (weights : List ℚ),
      make_extrap_config ℚ 12 4 = some (isbn, step_counts, weights)
      ∧ |weights.sum - 1| ≤ 1 / 10 ^ 12 ∧ weights.sum = 1 :=
  ⟨by decide, weights_sum_one 12 4 (by decide)⟩

/-- **C20.** For every supported `(order, cores)` pair, the number of bins that
`partition` returns for the configuration's step counts, which is the number
of workers of the pool of the parallel stepper, is at most `cores` and at most
the number `m` of step counts. -/
theorem pool_size_le {K Y : Type} [Field K] [AddCommGroup Y] (f : K → Y → Y) (y0 : Y)
    (order cores : Nat) (h : (order, cores) ∈ supported_configs) :
    ∃ (s : extrapolation_stepper K Y) (bins : List (List Nat)),
      make_extrapolation_stepper f y0 order cores true = some s
      ∧ partition s.m_step_counts s.m_step_counts.length = some bins
      ∧ s.m_pool = some bins.length
      ∧ bins.length = pool_size order cores
      ∧ bins.length ≤ cores ∧ bins.length ≤ s.m_step_counts.length := by
  obtain ⟨isbn, S, Wq, bins, htab, -, -, -, -, -, -, hbins, hc, hm⟩ := table_facts order cores h
  obtain ⟨s, hs, -, -, hsteps, hpool⟩ := make_stepper_fields (K := K) f y0 order cores isbn S
    Wq bins htab hbins true
  refine ⟨s, bins, hs, by rw [hsteps]; exact hbins, by simpa using hpool, ?_, hc,
    by rw [hsteps]; exact hm⟩
  simp [pool_size, htab, hbins]

/-- Witness for `pool_size_le`: the pair `(8, 3)` on `y' = y`. -/
theorem pool_size_le_witness :
    ((8, 3) : Nat × Nat) ∈ supported_configs
    ∧ ∃ (s : extrapolation_stepper ℚ ℚ) (bins : List (List Nat)),
      make_extrapolation_stepper (fun (_ : ℚ) (y : ℚ) => y) (1 : ℚ) 8 3 true = some s
      ∧ partition s.m_step_counts s.m_step_counts.length = some bins
      ∧ s.m_pool = some bins.length
      ∧ bins.length = pool_size 8 3
      ∧ bins.length ≤ 3 ∧ bins.length ≤ s.m_step_counts.length :=
  ⟨by decide, pool_size_le (fun (_ : ℚ) (y : ℚ) => y) (1 : ℚ) 8 3 (by decide)⟩

end ConfigTable

/-! ## The observer calls of `step` and the result of `integrate` -/

section ObserverTheorems

open steppers extrapolation_stepper

variable {K Y : Type} [Field K] [AddCommGroup Y] [Module K Y]

/-- One more pass of the loop of `step`: running `a + 1` passes is running `a`
passes and then the loop body once, at the time `t + a*dt` and with the order
`sched (ii + a)`. -/
theorem step_loop_succ (dt : K) (sched : Nat → List Nat) :
    ∀ (a ii : Nat) (s : extrapolation_stepper K Y) (y : Y) (t : K) (observed : List (K × Y)),
      step_loop dt sched (a + 1) ii s y t observed
        = ⟨combine
              (_evaluate (step_loop dt sched a ii s y t observed).stepper
                (step_loop dt sched a ii s y t observed).y (t + (a : K) * dt) dt
                (sched (ii + a))).m_weights
              (_evaluate (step_loop dt sched a ii s y t observed).stepper
                (step_loop dt sched a ii s y t observed).y (t + (a : K) * dt) dt
                (sched (ii + a))).m_outputs
              (_evaluate (step_loop dt sched a ii s y t observed).stepper
                (step_loop dt sched a ii s y t observed).y (t + (a : K) * dt) dt
                (sched (ii + a))).m_step_counts.length,
            _evaluate (step_loop dt sched a ii s y t observed).stepper
              (step_loop dt sched a ii s y t observed).y (t + (a : K) * dt) dt (sched (ii + a)),
            (step_loop dt sched a ii s y t observed).observed
              ++ [(t + (a : K) * dt,
                  combine
                    (_evaluate (step_loop dt sched a ii s y t observed).stepper
                      (step_loop dt sched a ii s y t observed).y (t + (a : K) * dt) dt
                      (sched (ii + a))).m_weights
                    (_evaluate (step_loop dt sched a ii s y t observed).stepper
                      (step_loop dt sched a ii s y t observed).y (t + (a : K) * dt) dt
                      (sched (ii + a))).m_outputs
                    (_evaluate (step_loop dt sched a ii s y t observed).stepper
                      (step_loop dt sched a ii s y t observed).y (t + (a : K) * dt) dt
                      (sched (ii + a))).m_step_counts.length)]⟩ := by
  intro a
  induction a with
  | zero =>
    intro ii s y t observed
    simp [step_loop]
  | succ a ih =>
    intro ii s y t observed
    rw [step_loop, ih]
    have ht : ∀ τ : K, τ + dt + (a : K) * dt = τ + ((a + 1 : Nat) : K) * dt := by
      intro τ; push_cast; ring
    have hi : ii + 1 + a = ii + (a + 1) := by omega
    rw [ht, hi]
    rfl

/-- The stepper, state and observer log after `k + 1` macro-steps, from those
after `k` macro-steps. -/
theorem step_succ (s : extrapolation_stepper K Y) (y : Y) (t dt : K) (k : Nat)
    (sched : Nat → List Nat) :
    (step s y t dt (k + 1) sched).stepper
        = _evaluate (step s y t dt k sched).stepper (step s y t dt k sched).y
            (t + (k : K) * dt) dt (sched k)
      ∧ (step s y t dt (k + 1) sched).y
        = combine (step s y t dt (k + 1) sched).stepper.m_weights
            (step s y t dt (k + 1) sched).stepper.m_outputs
            (step s y t dt (k + 1) sched).stepper.m_step_counts.length
      ∧ (step s y t dt (k + 1) sched).observed
        = (step s y t dt k sched).observed
            ++ [(t + (k : K) * dt, (step s y t dt (k + 1) sched).y)] := by
  unfold step
  rw [step_loop_succ]
  simp

/-- The observer log of a run of `n` macro-steps. -/
theorem step_observed (s : extrapolation_stepper K Y) (y : Y) (t dt : K)
    (sched : Nat → List Nat) : ∀ n : Nat,
    (step s y t dt n sched).observed
      = (List.range n).map (fun (k : Nat) => (t + (k : K) * dt, (step s y t dt (k + 1) sched).y))
  | 0 => by simp [step, step_loop]
  | n + 1 => by
    rw [(step_succ s y t dt n sched).2.2, step_observed s y t dt sched n, List.range_succ,
      List.map_append]
    rfl

/-- **C22 (counterexample).** One macro-step of `integrate` on `y' = y` from
`y = 1`, `t = 0` with `dt = 1` (order 8, three cores, serial): the only observer
call receives the time `0`, not the post-step time `0 + 1*1 = 1`. -/
theorem observer_post_step_time_counterexample :
    (∃ y1 : ℚ, integrate (fun _ y => y) (1 : ℚ) (0 : ℚ) (1 : ℚ) 1 8 3 false (fun _ => [])
        = some (y1, [((0 : ℚ), y1)]))
      ∧ (0 : ℚ) ≠ 0 + ((1 : Nat) : ℚ) * 1 := by
  refine ⟨?_, by norm_num⟩
  obtain ⟨isbn, S, Wq, bins, htab, -, -, -, -, -, -, hbins, -, -⟩ :=
    table_facts 8 3 (by decide)
  obtain ⟨st, hst, -⟩ :=
    make_stepper_fields (fun (_ : ℚ) (y : ℚ) => y) (1 : ℚ) 8 3 isbn S Wq bins htab hbins
      false
  refine ⟨(step st 1 0 1 1 (fun _ => [])).y, ?_⟩
  simp only [integrate, hst]
  rw [step_observed]
  simp [List.range_succ]

/-- **C22 (amended).** In a run of `n` macro-steps from the time `t` with the
step `dt`, for every `k = 1..n` the `k`-th observer call receives the time
`t + (k-1)*dt`, the time at which macro-step `k` started, together with the
state after `k` macro-steps. -/
theorem observer_start_time (s : extrapolation_stepper K Y) (y : Y) (t dt : K) (n : Nat)
    (sched : Nat → List Nat) (k : Nat) (h1 : 1 ≤ k) (hk : k ≤ n) :
    (step s y t dt n sched).observed[k - 1]?
      = some (t + ((k - 1 : Nat) : K) * dt, (step s y t dt k sched).y) := by
  rw [step_observed, List.getElem?_map, List.getElem?_range (by omega)]
  have : k - 1 + 1 = k := by omega
  simp [this]

/-- Witness for `observer_start_time`: the third call of a run of three
macro-steps of `example_stepper`. -/
theorem observer_start_time_witness :
    1 ≤ 3 ∧ 3 ≤ 3
      ∧ (step example_stepper 1 0 (1 / 2) 3 (fun _ => [])).observed[3 - 1]?
        = some ((0 : ℚ) + ((3 - 1 : Nat) : ℚ) * (1 / 2),
            (step example_stepper 1 0 (1 / 2) 3 (fun _ => [])).y) :=
  ⟨by decide, by decide,
    observer_start_time example_stepper 1 0 (1 / 2) 3 (fun _ => []) 3 (by decide) (by decide)⟩

/-- **C23.** A run of `n` macro-steps calls the observer exactly `n` times, the
states it passes are, in order, the states after `1, 2, ..., n` macro-steps, and
the state after `k + 1` macro-steps is the combined (extrapolated) value of the
outputs of macro-step `k + 1`. -/
theorem observer_called_n_times (s : extrapolation_stepper K Y) (y : Y) (t dt : K) (n : Nat)
    (sched : Nat → List Nat) :
    (step s y t dt n sched).observed.length = n
      ∧ (step s y t dt n sched).observed.map Prod.snd
          = (List.range n).map (fun k => (step s y t dt (k + 1) sched).y)
      ∧ ∀ k : Nat, (step s y t dt (k + 1) sched).y
          = combine
              (_evaluate (step s y t dt k sched).stepper (step s y t dt k sched).y
                (t + (k : K) * dt) dt (sched k)).m_weights
              (_evaluate (step s y t dt k sched).stepper (step s y t dt k sched).y
                (t + (k : K) * dt) dt (sched k)).m_outputs
              (_evaluate (step s y t dt k sched).stepper (step s y t dt k sched).y
                (t + (k : K) * dt) dt (sched k)).m_step_counts.length := by
  refine ⟨?_, ?_, ?_⟩
  · rw [step_observed]; simp
  · rw [step_observed, List.map_map]; rfl
  · intro k
    have h := step_succ s y t dt k sched
    rw [← h.1]
    exact h.2.1

/-- **C24.** For every supported pair `(order, cores)`, `integrate` returns: it
builds a stepper and returns the state after `n` macro-steps started from `y0`,
the observer having been called `n` times. For `n = 0` the returned state is
`y0` and the observer is never called; for `n ≥ 1` the returned state is the
state passed to the last observer call. -/
theorem integrate_returns_final_state (f : K → Y → Y) (y0 : Y) (t dt : K) (n : Nat)
    (order cores : Nat) (parallel : Bool) (sched : Nat → List Nat)
    (h : (order, cores) ∈ supported_configs) :
    ∃ (st : extrapolation_stepper K Y) (obs : List (K × Y)),
      make_extrapolation_stepper f y0 order cores parallel = some st
      ∧ integrate f y0 t dt n order cores parallel sched
          = some ((step st y0 t dt n sched).y, obs)
      ∧ obs.length = n
      ∧ (n = 0 → (step st y0 t dt n sched).y = y0 ∧ obs = [])
      ∧ (1 ≤ n → (obs.map Prod.snd).getLast? = some (step st y0 t dt n sched).y) := by
  obtain ⟨isbn, S, Wq, bins, htab, -, -, -, -, -, -, hbins, -, -⟩ :=
    table_facts order cores h
  obtain ⟨st, hst, -⟩ :=
    make_stepper_fields f y0 order cores isbn S Wq bins htab hbins parallel
  refine ⟨st, (step st y0 t dt n sched).observed, hst, ?_, ?_, ?_, ?_⟩
  · simp only [integrate, hst]
  · rw [step_observed]; simp
  · rintro rfl
    exact ⟨rfl, rfl⟩
  · intro hn
    obtain ⟨m, rfl⟩ : ∃ m, n = m + 1 := ⟨n - 1, by omega⟩
    rw [(step_succ st y0 t dt m sched).2.2]
    simp

/-- Witness for `integrate_returns_final_state`: order 8 on three cores, in
parallel, two macro-steps of `y' = y`. -/
theorem integrate_returns_final_state_witness :
    ((8, 3) : Nat × Nat) ∈ supported_configs
      ∧ ∃ (st : extrapolation_stepper ℚ ℚ) (obs : List (ℚ × ℚ)),
        make_extrapolation_stepper (fun _ y => y) (1 : ℚ) 8 3 true = some st
        ∧ integrate (fun _ y => y) (1 : ℚ) (0 : ℚ) (1 / 2 : ℚ) 2 8 3 true (fun _ => [0, 1, 2])
            = some ((step st 1 0 (1 / 2) 2 (fun _ => [0, 1, 2])).y, obs)
        ∧ obs.length = 2
        ∧ (2 = 0 → (step st 1 0 (1 / 2) 2 (fun _ => [0, 1, 2])).y = 1 ∧ obs = [])
        ∧ (1 ≤ 2 → (obs.map Prod.snd).getLast?
            = some (step st 1 0 (1 / 2) 2 (fun _ => [0, 1, 2])).y) :=
  ⟨by decide,
    integrate_returns_final_state (fun _ y => y) 1 0 (1 / 2) 2 8 3 true (fun _ => [0, 1, 2])
      (by decide)⟩

/-- **C30.** In macro-step `k` (counted from 0) of a run, with `τ = t + k*dt`
the time at its start: the sub-integrations are evaluated at `τ`, the observer
call of that macro-step records the same `τ`, and the following macro-step is
evaluated at `τ + dt`. -/
theorem observer_time_latched (s : extrapolation_stepper K Y) (y : Y) (t dt : K) (k : Nat)
    (sched : Nat → List Nat) :
    ∃ τ : K, τ = t + (k : K) * dt
      ∧ (step s y t dt (k + 1) sched).stepper
          = _evaluate (step s y t dt k sched).stepper (step s y t dt k sched).y τ dt (sched k)
      ∧ (step s y t dt (k + 1) sched).observed
          = (step s y t dt k sched).observed ++ [(τ, (step s y t dt (k + 1) sched).y)]
      ∧ (step s y t dt (k + 2) sched).stepper
          = _evaluate (step s y t dt (k + 1) sched).stepper (step s y t dt (k + 1) sched).y
              (τ + dt) dt (sched (k + 1)) := by
  refine ⟨_, rfl, (step_succ s y t dt k sched).1, (step_succ s y t dt k sched).2.2, ?_⟩
  rw [(step_succ s y t dt (k + 1) sched).1]
  congr 1
  push_cast
  ring

end ObserverTheorems

/-! ## The semaphore -/

section ThreadingTheorems

open threading

/-- **C27.** On the ready flag of the semaphore, from every state: a second
`notify` leaves the state of a single `notify`; the next `wait` returns and
leaves the flag clear; and a further `wait` does not return, so the two
notifications release the waiter exactly once. -/
theorem semaphore_notify_idempotent (s : semaphore) :
    (s.notify).notify = s.notify
      ∧ ((s.notify).notify).wait = some ⟨false⟩
      ∧ (s.notify).wait = some ⟨false⟩
      ∧ (((s.notify).notify).wait).bind semaphore.wait = none := by
  cases s
  simp [semaphore.notify, semaphore.wait]

end ThreadingTheorems

/-! ## The helper `ceildiv` of `partition` -/

section CeilDiv

open detail

/-- **C29.** The list `A = [2, 1]` has the sum `3` and the maximum `2`. The
helper `ceildiv` returns `1` for `(3, 2)`, the floor of `3/2`, where the ceiling
is `2`: `partition` first tries one bin, which fails, and only then two. -/
theorem ceildiv_is_floor :
    ([2, 1] : List Nat).sum = 3 ∧ list_max [2, 1] = 2
      ∧ ceildiv 3 2 = some 1 ∧ ceil_div 3 2 = 2
      ∧ _try_partition (sort_desc [2, 1]) 2 1 2 = []
      ∧ partition [2, 1] 2 = some [[2], [1]] := by
  decide

end CeilDiv

/-! ## The index lists of `_initialize_pool` -/

section PartitionIndices

open detail steppers extrapolation_stepper

/-- On a non-empty list of positive integers with sum below `2 ^ 31`, `partition`
returns bins whose concatenation is a permutation of the list. -/
theorem partition_flatten_perm (A : List Nat) (hne : A ≠ []) (hpos : ∀ x ∈ A, 0 < x)
    (hsum : A.sum < 2 ^ 31) :
    ∃ bins, partition A A.length = some bins ∧ bins.flatten.Perm A := by
  obtain ⟨k, -, -, hall, -, hbins⟩ := partition_core A hne hpos hsum
  have hperm := spec_first_fit_perm (list_max A) k (sort_desc A)
  unfold spec_places_all at hall
  rw [hall, List.append_nil] at hperm
  exact ⟨_, hbins, hperm.trans (sort_desc_perm A)⟩

end PartitionIndices

/-! ## The evaluations of the system in one macro-step -/

section Evaluations

open steppers extrapolation_stepper

variable {K Y : Type} [Field K] [AddCommGroup Y] [Module K Y]

theorem leapfrog_traced_fst (f : K → Y → Y) (h : K) :
    ∀ (iters : Nat) (st : Nat × K × scratch_type Y),
      (gbs.leapfrog_traced f h iters st).1 = gbs.leapfrog f h iters st
  | 0, _ => rfl
  | iters + 1, st => by
    rw [gbs.leapfrog_traced, gbs.leapfrog]
    exact leapfrog_traced_fst f h iters _

theorem leapfrog_time (f : K → Y → Y) (h : K) :
    ∀ (iters : Nat) (st : Nat × K × scratch_type Y),
      (gbs.leapfrog_traced f h iters st).2.map Prod.fst
        = (List.range iters).map (fun (k : Nat) => st.2.1 + ((k : K) + 1) * h)
  | 0, _ => rfl
  | iters + 1, st => by
    rw [gbs.leapfrog_traced, List.range_succ_eq_map]
    simp only [List.map_cons, List.map_map, leapfrog_time f h iters]
    refine congrArg₂ _ ?_ ?_
    · simp [gbs.leapfrog_body_traced]
    · apply List.map_congr_left
      intro k _
      simp only [gbs.leapfrog_body_traced, Function.comp]
      push_cast
      ring

/-- The instrumented `gbs::step` computes what `gbs::step` computes. -/
theorem step_traced_fst (f : K → Y → Y) (y0 : Y) (t dt : K) (n : Nat) (fval0 : Y)
    (scratch : scratch_type Y) :
    (gbs.step_traced f y0 t dt n fval0 scratch).1 = gbs.step f y0 t dt n fval0 scratch := by
  simp only [gbs.step_traced, gbs.step, leapfrog_traced_fst]

/-- With `n ≥ 1`, `gbs::step` calls the system `n` times, at the times
`t + k*h` for `k = 1..n`. -/
theorem step_traced_times (f : K → Y → Y) (y0 : Y) (t dt : K) (n : Nat) (fval0 : Y)
    (scratch : scratch_type Y) (hn : 1 ≤ n) :
    (gbs.step_traced f y0 t dt n fval0 scratch).2.map Prod.fst = substep_times t dt n := by
  obtain ⟨m, rfl⟩ : ∃ m, n = m + 1 := ⟨n - 1, by omega⟩
  simp only [gbs.step_traced, List.map_cons, leapfrog_time, Nat.add_sub_cancel, substep_times]
  rw [List.range_succ_eq_map]
  simp only [List.map_cons, List.map_map]
  refine congrArg₂ _ ?_ ?_
  · simp
  · apply List.map_congr_left
    intro k _
    simp only [Function.comp]
    push_cast
    ring

/-- The instrumented loop over sub-integrations computes what `run_steppers`
computes. -/
theorem run_steppers_traced_fst (f : K → Y → Y) (y : Y) (t dt : K) (steps : List Nat)
    (f0 : Y) : ∀ (L : List Nat) (st : List Y × scratch_type Y),
      (run_steppers_traced f y t dt steps f0 L st).1 = run_steppers f y t dt steps f0 L st
  | [], _ => rfl
  | ind :: L, st => by
    rw [run_steppers_traced, run_steppers]
    simp only [step_traced_fst]
    exact run_steppers_traced_fst f y t dt steps f0 L _

/-- The records of the loop over sub-integrations: one per index, in order,
each with the same `fval0`, and with `steps[ind]` calls of the system at the
times `t + k*h`. -/
theorem run_steppers_traced_subs (f : K → Y → Y) (y : Y) (t dt : K) (steps : List Nat)
    (f0 : Y) : ∀ (L : List Nat) (st : List Y × scratch_type Y),
      (∀ ind ∈ L, 1 ≤ steps.getD ind 0) →
      (run_steppers_traced f y t dt steps f0 L st).2.map (fun c => (c.ind, c.fval0))
          = L.map (fun ind => (ind, f0))
        ∧ ∀ c ∈ (run_steppers_traced f y t dt steps f0 L st).2,
            c.calls.map Prod.fst = substep_times t dt (steps.getD c.ind 0)
  | [], _ => fun _ => ⟨rfl, fun c hc => by simp [run_steppers_traced] at hc⟩
  | ind :: L, st => fun hL => by
    have ih := run_steppers_traced_subs f y t dt steps f0 L
      (st.1.set ind (gbs.step_traced f y t dt (steps.getD ind 0) f0 st.2).1.1,
        (gbs.step_traced f y t dt (steps.getD ind 0) f0 st.2).1.2)
      (fun i hi => hL i (List.mem_cons_of_mem _ hi))
    rw [run_steppers_traced]
    refine ⟨?_, ?_⟩
    · simp only [List.map_cons, ih.1]
    · intro c hc
      rcases List.mem_cons.mp hc with rfl | hc
      · exact step_traced_times f y t dt _ f0 st.2 (hL ind (List.mem_cons_self _ _))
      · exact ih.2 c hc

/-- The instrumented `_evaluate_serial` computes what `_evaluate_serial` computes. -/
theorem evaluate_serial_traced_fst (s : extrapolation_stepper K Y) (y : Y) (t dt : K) :
    (_evaluate_serial_traced s y t dt).1 = _evaluate_serial s y t dt := by
  simp only [_evaluate_serial_traced, _evaluate_serial, run_steppers_traced_fst]

/-- The instrumented worker target computes what the worker target computes. -/
theorem target_traced_fst (s : extrapolation_stepper K Y) (y : Y) (t dt : K) (index : Nat) :
    (target_traced s y t dt index).1 = target s y t dt index := by
  simp only [target_traced, target, run_steppers_traced_fst]

/-- The instrumented `_evaluate_parallel` computes what `_evaluate_parallel`
computes. -/
theorem evaluate_parallel_traced_fst (y : Y) (t dt : K) :
    ∀ (sched : List Nat) (acc : extrapolation_stepper K Y × eval_trace K Y),
      (sched.foldl
        (fun acc index =>
          ((target_traced acc.1 y t dt index).1,
            (⟨acc.2.start ++ (target_traced acc.1 y t dt index).2.start,
              acc.2.subs ++ (target_traced acc.1 y t dt index).2.subs⟩ : eval_trace K Y)))
        acc).1 = sched.foldl (fun s index => target s y t dt index) acc.1
  | [], _ => rfl
  | index :: sched, acc => by
    rw [List.foldl_cons, List.foldl_cons, evaluate_parallel_traced_fst y t dt sched]
    simp only [target_traced_fst]

/-- The instrumented `_evaluate` computes what `_evaluate` computes. -/
theorem evaluate_traced_fst (s : extrapolation_stepper K Y) (y : Y) (t dt : K)
    (sched : List Nat) : (_evaluate_traced s y t dt sched).1 = _evaluate s y t dt sched := by
  unfold _evaluate_traced _evaluate
  cases s.m_pool with
  | none => exact evaluate_serial_traced_fst s y t dt
  | some p => exact evaluate_parallel_traced_fst y t dt sched (s, ⟨[], []⟩)

/-- The evaluations of one round of worker targets: every scheduled worker
calls its system once at `(t, y)`, runs the sub-integrations of its index list
with that value, and every sub-integration calls the system at the times
`t + k*h`. -/
theorem parallel_traced_aux (f : K → Y → Y) (steps : List Nat) (PI : List (List Nat)) (y : Y)
    (t dt : K) (h1 : ∀ j ∈ PI.flatten, 1 ≤ steps.getD j 0) :
    ∀ (sched : List Nat) (acc : extrapolation_stepper K Y × eval_trace K Y),
      (∀ i ∈ sched, i < PI.length) → acc.1.m_systems = List.replicate PI.length f →
      acc.1.m_partition_indices = PI → acc.1.m_step_counts = steps →
      (sched.foldl
          (fun acc index =>
            ((target_traced acc.1 y t dt index).1,
              (⟨acc.2.start ++ (target_traced acc.1 y t dt index).2.start,
                acc.2.subs ++ (target_traced acc.1 y t dt index).2.subs⟩ : eval_trace K Y)))
          acc).2.start = acc.2.start ++ sched.map (fun _ => (t, y))
        ∧ (sched.foldl
          (fun acc index =>
            ((target_traced acc.1 y t dt index).1,
              (⟨acc.2.start ++ (target_traced acc.1 y t dt index).2.start,
                acc.2.subs ++ (target_traced acc.1 y t dt index).2.subs⟩ : eval_trace K Y)))
          acc).2.subs.map (fun c => (c.ind, c.fval0))
            = acc.2.subs.map (fun c => (c.ind, c.fval0))
              ++ (sched.map (fun i => (PI.getD i []).map (fun ind => (ind, f t y)))).flatten
        ∧ ∀ c ∈ (sched.foldl
          (fun acc index =>
            ((target_traced acc.1 y t dt index).1,
              (⟨acc.2.start ++ (target_traced acc.1 y t dt index).2.start,
                acc.2.subs ++ (target_traced acc.1 y t dt index).2.subs⟩ : eval_trace K Y)))
          acc).2.subs, c ∈ acc.2.subs
            ∨ c.calls.map Prod.fst = substep_times t dt (steps.getD c.ind 0)
  | [], acc => fun _ _ _ _ => ⟨by simp, by simp, fun c hc => Or.inl hc⟩
  | index :: sched, acc => fun hs hsys hPI hsteps => by
    have hindex : index < PI.length := hs index (List.mem_cons_self _ _)
    have hf : acc.1.m_systems.getD index (fun _ _ => 0) = f := by
      rw [hsys, List.getD_eq_getElem _ _ (by simpa using hindex)]
      simp
    have hL : ∀ ind ∈ PI.getD index [], 1 ≤ steps.getD ind 0 := fun ind hind =>
      h1 ind ((mem_flatten_iff_getD PI ind).mpr ⟨index, hindex, hind⟩)
    have hrun := run_steppers_traced_subs f y t dt steps (f t y) (PI.getD index [])
      (acc.1.m_outputs, acc.1.m_scratch.getD index ⟨0, 0, 0⟩) hL
    have hstart : (target_traced acc.1 y t dt index).2.start = [(t, y)] := rfl
    have hsubs : (target_traced acc.1 y t dt index).2.subs
        = (run_steppers_traced f y t dt steps (f t y) (PI.getD index [])
            (acc.1.m_outputs, acc.1.m_scratch.getD index ⟨0, 0, 0⟩)).2 := by
      simp only [target_traced, hf, hPI, hsteps]
    have ih := parallel_traced_aux f steps PI y t dt h1 sched
      ((target_traced acc.1 y t dt index).1,
        (⟨acc.2.start ++ (target_traced acc.1 y t dt index).2.start,
          acc.2.subs ++ (target_traced acc.1 y t dt index).2.subs⟩ : eval_trace K Y))
      (fun i hi => hs i (List.mem_cons_of_mem _ hi)) hsys hPI hsteps
    rw [List.foldl_cons]
    refine ⟨?_, ?_, ?_⟩
    · rw [ih.1, hstart]; simp
    · rw [ih.2.1]
      simp only [List.map_append, hsubs, hrun.1, List.map_cons, List.flatten_cons,
        List.append_assoc]
    · intro c hc
      rcases ih.2.2 c hc with h | h
      · rcases List.mem_append.mp h with h | h
        · exact Or.inl h
        · rw [hsubs] at h
          exact Or.inr (hrun.2 c h)
      · exact Or.inr h

/-- **C25 (counterexample).** One macro-step of the parallel stepper of order 8
on three cores for `y' = y`, from `y = 1` at `t = 0` with `dt = 1`: the system
is evaluated at the starting point `(0, 1)` three times, once by each of the
three workers, not once. -/
theorem system_evaluated_once_counterexample :
    (make_extrapolation_stepper (fun (_ : ℚ) (y : ℚ) => y) 1 8 3 true).map
        (fun sp => (_evaluate_traced sp 1 0 1 [0, 1, 2]).2.start)
      = some [((0 : ℚ), (1 : ℚ)), (0, 1), (0, 1)] := by
  decide

/-- **C25 (amended).** For every supported pair, in one macro-step from `(t, y)`:
the serial stepper evaluates the system at `(t, y)` exactly once, the parallel
stepper once per worker; in both modes every one of the `m` sub-integrations
runs with `fval0 = f(t, y)`, and each `gbs::step` makes exactly `steps[j]`
further evaluations, at the times `t + k*h` for `k = 1..steps[j]`. The
instrumented functions compute what `_evaluate` computes. -/
theorem system_evaluations (f : K → Y → Y) (y0 y : Y) (t dt : K) (order cores : Nat)
    (sched : List Nat) (h : (order, cores) ∈ supported_configs)
    (hsched : sched.Perm (List.range (pool_size order cores))) :
    ∃ (ss sp : extrapolation_stepper K Y) (isbn : ℚ) (S : List Nat) (Wq : List ℚ),
      detail.extrap_table order cores = some (isbn, S, Wq)
      ∧ make_extrapolation_stepper f y0 order cores false = some ss
      ∧ make_extrapolation_stepper f y0 order cores true = some sp
      ∧ (_evaluate_traced ss y t dt sched).1 = _evaluate ss y t dt sched
      ∧ (_evaluate_traced sp y t dt sched).1 = _evaluate sp y t dt sched
      ∧ (_evaluate_traced ss y t dt sched).2.start = [(t, y)]
      ∧ (_evaluate_traced sp y t dt sched).2.start
          = List.replicate (pool_size order cores) (t, y)
      ∧ (_evaluate_traced ss y t dt sched).2.subs.map (fun c => (c.ind, c.fval0))
          = (List.range S.length).map (fun j => (j, f t y))
      ∧ (∀ c ∈ (_evaluate_traced sp y t dt sched).2.subs, c.fval0 = f t y)
      ∧ (∀ j, j < S.length → ∃ c ∈ (_evaluate_traced sp y t dt sched).2.subs, c.ind = j)
      ∧ ∀ c ∈ (_evaluate_traced ss y t dt sched).2.subs
            ++ (_evaluate_traced sp y t dt sched).2.subs,
          c.calls.map Prod.fst = substep_times t dt (S.getD c.ind 0)
          ∧ c.calls.length = S.getD c.ind 0 := by
  obtain ⟨isbn, S, Wq, bins, htab, hlen, h2, hbins, hcov⟩ := config_facts order cores h
  obtain ⟨ss, hss, ⟨hpool_s, hsys_s, hsteps_s, -, -⟩, -⟩ :=
    make_serial_ok (K := K) f y0 order cores isbn S Wq htab hlen
  obtain ⟨sp, hsp, ⟨hpool_p, hsys_p, hPI_p, hsteps_p, -, -⟩, -, -⟩ :=
    make_parallel_ok (K := K) f y0 order cores isbn S Wq bins htab hlen hbins
  have hpool : pool_size order cores = bins.length := by simp [pool_size, htab, hbins]
  set PI := bins.map (fun bin => bin.map (fun v => S.indexOf v)) with hPIdef
  have hPIlen : PI.length = bins.length := by simp [hPIdef]
  have h1S : ∀ j, j < S.length → 1 ≤ S.getD j 0 := by
    intro j hj
    rw [List.getD_eq_getElem _ _ hj]
    exact le_trans (by decide) (h2 _ (List.getElem_mem _))
  have h1 : ∀ j ∈ PI.flatten, 1 ≤ S.getD j 0 := fun j hj => h1S j (hcov.2 j hj)
  have hmem : ∀ i, i ∈ sched ↔ i < PI.length := by
    intro i
    rw [hsched.mem_iff, List.mem_range, hpool, hPIlen]
  have hser := run_steppers_traced_subs f y t dt S (f t y) (List.range S.length)
    (ss.m_outputs, ss.m_scratch.getD 0 ⟨0, 0, 0⟩)
    (fun ind hind => h1S ind (List.mem_range.mp hind))
  have hsersubs : (_evaluate_traced ss y t dt sched).2.subs
      = (run_steppers_traced f y t dt S (f t y) (List.range S.length)
          (ss.m_outputs, ss.m_scratch.getD 0 ⟨0, 0, 0⟩)).2 := by
    simp only [_evaluate_traced, hpool_s, _evaluate_serial_traced, hsys_s, hsteps_s]
  have hpar := parallel_traced_aux f S PI y t dt h1 sched (sp, ⟨[], []⟩)
    (fun i hi => (hmem i).mp hi) (by rw [hsys_p, hPIlen]) hPI_p hsteps_p
  have hpareq : _evaluate_traced sp y t dt sched
      = sched.foldl
          (fun acc index =>
            ((target_traced acc.1 y t dt index).1,
              (⟨acc.2.start ++ (target_traced acc.1 y t dt index).2.start,
                acc.2.subs ++ (target_traced acc.1 y t dt index).2.subs⟩ : eval_trace K Y)))
          (sp, ⟨[], []⟩) := by
    simp only [_evaluate_traced, hpool_p]
    rfl
  have hcalls : ∀ c : sub_call K Y,
      c.calls.map Prod.fst = substep_times t dt (S.getD c.ind 0) →
      c.calls.length = S.getD c.ind 0 := by
    intro c hc
    have := congrArg List.length hc
    simpa [substep_times] using this
  refine ⟨ss, sp, isbn, S, Wq, htab, hss, hsp, evaluate_traced_fst ss y t dt sched,
    evaluate_traced_fst sp y t dt sched, ?_, ?_, ?_, ?_, ?_, ?_⟩
  · simp only [_evaluate_traced, hpool_s, _evaluate_serial_traced]
  · have hslen : sched.length = pool_size order cores := by
      rw [hsched.length_eq, List.length_range]
    rw [hpareq, hpar.1, ← hslen]
    simp [List.eq_replicate_iff]
  · rw [hsersubs, hser.1]
  · intro c hc
    rw [hpareq] at hc
    have hc2 : (c.ind, c.fval0) ∈ (sched.map
        (fun i => (PI.getD i []).map (fun ind => (ind, f t y)))).flatten := by
      have := List.mem_map_of_mem (fun c : sub_call K Y => (c.ind, c.fval0)) hc
      rw [hpar.2.1] at this
      simpa using this
    simp only [List.mem_flatten, List.mem_map] at hc2
    obtain ⟨l, ⟨i, -, rfl⟩, hl⟩ := hc2
    obtain ⟨ind, -, hind⟩ := List.mem_map.mp hl
    exact (Prod.mk.inj hind).2.symm
  · intro j hj
    obtain ⟨i, hi, hji⟩ := (mem_flatten_iff_getD PI j).mp (hcov.1 j hj)
    have hin : (j, f t y) ∈ (sched.map
        (fun i => (PI.getD i []).map (fun ind => (ind, f t y)))).flatten := by
      simp only [List.mem_flatten, List.mem_map]
      exact ⟨_, ⟨i, (hmem i).mpr hi, rfl⟩, List.mem_map.mpr ⟨j, hji, rfl⟩⟩
    have hin2 : (j, f t y) ∈ (_evaluate_traced sp y t dt sched).2.subs.map
        (fun c => (c.ind, c.fval0)) := by
      rw [hpareq, hpar.2.1]
      simpa using hin
    obtain ⟨c, hc, hcj⟩ := List.mem_map.mp hin2
    exact ⟨c, hc, (Prod.mk.inj hcj).1⟩
  · intro c hc
    have htimes : c.calls.map Prod.fst = substep_times t dt (S.getD c.ind 0) := by
      rcases List.mem_append.mp hc with hc | hc
      · rw [hsersubs] at hc
        exact hser.2 c hc
      · rw [hpareq] at hc
        rcases hpar.2.2 c hc with h | h
        · simp at h
        · exact h
    exact ⟨htimes, hcalls c htimes⟩

/-- Witness for `system_evaluations`: order 8 on three cores, `y' = y`, the
workers taken in the order 2, 0, 1. -/
theorem system_evaluations_witness :
    ((8, 3) : Nat × Nat) ∈ supported_configs
      ∧ ([2, 0, 1] : List Nat).Perm (List.range (pool_size 8 3))
      ∧ ∃ (ss sp : extrapolation_stepper ℚ ℚ) (isbn : ℚ) (S : List Nat) (Wq : List ℚ),
        detail.extrap_table 8 3 = some (isbn, S, Wq)
        ∧ make_extrapolation_stepper (fun (_ : ℚ) (y : ℚ) => y) (1 : ℚ) 8 3 false = some ss
        ∧ make_extrapolation_stepper (fun (_ : ℚ) (y : ℚ) => y) (1 : ℚ) 8 3 true = some sp
        ∧ (_evaluate_traced ss 1 0 (1 / 2) [2, 0, 1]).1 = _evaluate ss 1 0 (1 / 2) [2, 0, 1]
        ∧ (_evaluate_traced sp 1 0 (1 / 2) [2, 0, 1]).1 = _evaluate sp 1 0 (1 / 2) [2, 0, 1]
        ∧ (_evaluate_traced ss 1 0 (1 / 2) [2, 0, 1]).2.start = [((0 : ℚ), (1 : ℚ))]
        ∧ (_evaluate_traced sp 1 0 (1 / 2) [2, 0, 1]).2.start
            = List.replicate (pool_size 8 3) ((0 : ℚ), (1 : ℚ))
        ∧ (_evaluate_traced ss 1 0 (1 / 2) [2, 0, 1]).2.subs.map (fun c => (c.ind, c.fval0))
            = (List.range S.length).map (fun j => (j, (fun (_ : ℚ) (y : ℚ) => y) 0 1))
        ∧ (∀ c ∈ (_evaluate_traced sp 1 0 (1 / 2) [2, 0, 1]).2.subs,
            c.fval0 = (fun (_ : ℚ) (y : ℚ) => y) 0 1)
        ∧ (∀ j, j < S.length →
            ∃ c ∈ (_evaluate_traced sp 1 0 (1 / 2) [2, 0, 1]).2.subs, c.ind = j)
        ∧ ∀ c ∈ (_evaluate_traced ss 1 0 (1 / 2) [2, 0, 1]).2.subs
              ++ (_evaluate_traced sp 1 0 (1 / 2) [2, 0, 1]).2.subs,
            c.calls.map Prod.fst = substep_times 0 (1 / 2) (S.getD c.ind 0)
            ∧ c.calls.length = S.getD c.ind 0 :=
  ⟨by decide, by decide,
    system_evaluations (fun (_ : ℚ) (y : ℚ) => y) 1 1 0 (1 / 2) 8 3 [2, 0, 1] (by decide)
      (by decide)⟩

end Evaluations

/-! ## The worker thread -/

section WorkerTheorems

open threading

/-- From a state of the list, a step leads to the next state of the list, and
the last state has no step. -/
theorem worker_test_step_shape (r k j th : Nat) (hv : worker_test_valid r k j)
    (st : worker_test) (h : worker_test.step (worker_test_shape r k j) th = some st) :
    ∃ k2 j2, worker_test_valid r k2 j2 ∧ st = worker_test_shape r k2 j2
      ∧ 7 * k2 + j2 = 7 * k + j + 1 := by
  rcases hv with ⟨hk, hj⟩ | ⟨rfl, hj⟩
  · by_cases hk2 : k + 1 < r
    · interval_cases j <;> rcases th with _ | _ | th <;>
        simp [worker_test_shape, hk, worker_test.step, worker_test.main_step,
          worker_test.worker_step, worker._run, worker.notify, semaphore.wait,
          semaphore.notify] at h <;> subst h
      · exact ⟨k, 1, Or.inl ⟨hk, by decide⟩, by simp [worker_test_shape, hk], by omega⟩
      · exact ⟨k, 2, Or.inl ⟨hk, by decide⟩, by simp [worker_test_shape, hk], by omega⟩
      · exact ⟨k, 3, Or.inl ⟨hk, by decide⟩, by simp [worker_test_shape, hk], by omega⟩
      · exact ⟨k, 4, Or.inl ⟨hk, by decide⟩, by simp [worker_test_shape, hk], by omega⟩
      · exact ⟨k, 5, Or.inl ⟨hk, by decide⟩, by simp [worker_test_shape, hk], by omega⟩
      · exact ⟨k, 6, Or.inl ⟨hk, by decide⟩, by simp [worker_test_shape, hk], by omega⟩
      · exact ⟨k + 1, 0, Or.inl ⟨hk2, by decide⟩, by simp [worker_test_shape, hk2], by omega⟩
    · have hkr : k + 1 = r := by omega
      interval_cases j <;> rcases th with _ | _ | th <;>
        simp [worker_test_shape, hk, worker_test.step, worker_test.main_step,
          worker_test.worker_step, worker._run, worker.notify, semaphore.wait,
          semaphore.notify] at h <;> subst h
      · exact ⟨k, 1, Or.inl ⟨hk, by decide⟩, by simp [worker_test_shape, hk], by omega⟩
      · exact ⟨k, 2, Or.inl ⟨hk, by decide⟩, by simp [worker_test_shape, hk], by omega⟩
      · exact ⟨k, 3, Or.inl ⟨hk, by decide⟩, by simp [worker_test_shape, hk], by omega⟩
      · exact ⟨k, 4, Or.inl ⟨hk, by decide⟩, by simp [worker_test_shape, hk], by omega⟩
      · exact ⟨k, 5, Or.inl ⟨hk, by decide⟩, by simp [worker_test_shape, hk], by omega⟩
      · exact ⟨k, 6, Or.inl ⟨hk, by decide⟩, by simp [worker_test_shape, hk], by omega⟩
      · exact ⟨k + 1, 0, Or.inr ⟨hkr, by decide⟩, by simp [worker_test_shape, hk2, hkr],
          by omega⟩
  · interval_cases j <;> rcases th with _ | _ | th <;>
      simp [worker_test_shape, worker_test.step, worker_test.main_step,
        worker_test.worker_step, worker._run, worker.notify, semaphore.wait,
        semaphore.notify] at h <;> subst h
    · exact ⟨k, 1, Or.inr ⟨rfl, by decide⟩, by simp [worker_test_shape], by omega⟩
    · exact ⟨k, 2, Or.inr ⟨rfl, by decide⟩, by simp [worker_test_shape], by omega⟩
    · exact ⟨k, 3, Or.inr ⟨rfl, by decide⟩, by simp [worker_test_shape], by omega⟩
    · exact ⟨k, 4, Or.inr ⟨rfl, by decide⟩, by simp [worker_test_shape], by omega⟩
    · exact ⟨k, 5, Or.inr ⟨rfl, by decide⟩, by simp [worker_test_shape], by omega⟩

/-- A run from a state of the list ends in the state as many places further. -/
theorem worker_test_exec_shape (r : Nat) : ∀ (sched : List Nat) (k j : Nat) (st : worker_test),
    worker_test_valid r k j →
    exec worker_test.step (worker_test_shape r k j) sched = some st →
    ∃ k2 j2, worker_test_valid r k2 j2 ∧ st = worker_test_shape r k2 j2
      ∧ 7 * k2 + j2 = 7 * k + j + sched.length
  | [], k, j, st, hv, h => by
    simp only [exec, Option.some.injEq] at h
    exact ⟨k, j, hv, h.symm, by simp⟩
  | th :: sched, k, j, st, hv, h => by
    simp only [exec] at h
    cases hstep : worker_test.step (worker_test_shape r k j) th with
    | none => simp [hstep] at h
    | some st1 =>
      rw [hstep, Option.some_bind] at h
      obtain ⟨k1, j1, hv1, rfl, hrank1⟩ := worker_test_step_shape r k j th hv st1 hstep
      obtain ⟨k2, j2, hv2, hst, hrank2⟩ := worker_test_exec_shape r sched k1 j1 st hv1 h
      exact ⟨k2, j2, hv2, hst, by simp only [List.length_cons]; omega⟩

/-- In every state of the list but the last some thread can take a step. -/
theorem worker_test_progress (r k j : Nat) (hv : worker_test_valid r k j)
    (hne : (worker_test_shape r k j).main ≠ test_pc.finished) :
    ∃ th, (worker_test.step (worker_test_shape r k j) th).isSome = true := by
  rcases hv with ⟨hk, hj⟩ | ⟨rfl, hj⟩
  · refine ⟨if j = 0 ∨ j = 5 ∨ j = 6 then 0 else 1, ?_⟩
    interval_cases j <;>
      simp [worker_test_shape, hk, worker_test.step, worker_test.main_step,
        worker_test.worker_step, worker._run, semaphore.wait]
  · have hj5 : j ≠ 5 := by
      rintro rfl
      simp [worker_test_shape] at hne
    refine ⟨if j = 0 ∨ j = 1 ∨ j = 4 then 0 else 1, ?_⟩
    interval_cases j <;>
      simp [worker_test_shape, worker_test.step, worker_test.main_step,
        worker_test.worker_step, worker._run, semaphore.wait] at hj5 ⊢

/-- **C28.** In every run of `test_worker_notify` with `r` rounds of
notify-then-wait-for-completion followed by `join()`, under every interleaving
of the two threads: the target is called at most `r` times, once for each
return of `wait()` that found the exit flag clear (the call of the last such
return may be pending); once `join()` has set the exit flag the count stays `r`;
the run has at most `7r + 5` steps, as long as the main thread has not finished
some thread can take a step, and the main thread finishes exactly after
`7r + 5` steps, with the target called exactly `r` times, the worker thread
returned and no step left. -/
theorem worker_runs_target_once (r : Nat) (sched : List Nat) (st : worker_test)
    (h : exec worker_test.step (worker_test.init r) sched = some st) :
    st.counter ≤ r ∧ st.counter ≤ st.consumed ∧ st.consumed ≤ st.counter + 1
      ∧ (st.w.m_exit_flag = true → st.counter = r)
      ∧ sched.length ≤ 7 * r + 5
      ∧ (st.main = test_pc.finished ↔ sched.length = 7 * r + 5)
      ∧ (st.main = test_pc.finished →
          st.counter = r ∧ st.consumed = r ∧ st.w.pc = worker_pc.exited
          ∧ ∀ th, worker_test.step st th = none)
      ∧ (st.main ≠ test_pc.finished → ∃ th, (worker_test.step st th).isSome = true) := by
  have hinit : worker_test.init r = worker_test_shape r 0 0 := by
    by_cases hr : 0 < r
    · simp [worker_test.init, worker_test_shape, hr, worker.make, semaphore.make]
    · have : r = 0 := by omega
      subst this
      simp [worker_test.init, worker_test_shape, worker.make, semaphore.make]
  have hv0 : worker_test_valid r 0 0 := by
    by_cases hr : 0 < r
    · exact Or.inl ⟨hr, by decide⟩
    · exact Or.inr ⟨by omega, by decide⟩
  rw [hinit] at h
  obtain ⟨k, j, hv, rfl, hrank⟩ := worker_test_exec_shape r sched 0 0 st hv0 h
  refine ⟨?_, ?_, ?_, ?_, ?_, ?_, ?_, worker_test_progress r k j hv⟩
  · rcases hv with ⟨hk, hj⟩ | ⟨rfl, hj⟩
    · interval_cases j <;> simp [worker_test_shape, hk] <;> omega
    · interval_cases j <;> simp [worker_test_shape]
  · rcases hv with ⟨hk, hj⟩ | ⟨rfl, hj⟩
    · interval_cases j <;> simp [worker_test_shape, hk]
    · interval_cases j <;> simp [worker_test_shape]
  · rcases hv with ⟨hk, hj⟩ | ⟨rfl, hj⟩
    · interval_cases j <;> simp [worker_test_shape, hk]
    · interval_cases j <;> simp [worker_test_shape]
  · rcases hv with ⟨hk, hj⟩ | ⟨rfl, hj⟩
    · interval_cases j <;> simp [worker_test_shape, hk]
    · interval_cases j <;> simp [worker_test_shape]
  · rcases hv with ⟨hk, hj⟩ | ⟨rfl, hj⟩ <;> omega
  · rcases hv with ⟨hk, hj⟩ | ⟨rfl, hj⟩
    · interval_cases j <;> simp [worker_test_shape, hk] <;> omega
    · interval_cases j <;> simp [worker_test_shape] <;> omega
  · intro hfin
    rcases hv with ⟨hk, hj⟩ | ⟨rfl, hj⟩
    · exfalso
      interval_cases j <;> simp [worker_test_shape, hk] at hfin
    · interval_cases j <;> simp [worker_test_shape] at hfin
      refine ⟨by simp [worker_test_shape], by simp [worker_test_shape],
        by simp [worker_test_shape], ?_⟩
      intro th
      rcases th with _ | _ | th <;>
        simp [worker_test_shape, worker_test.step, worker_test.main_step,
          worker_test.worker_step, worker._run]

/-- Witness for `worker_runs_target_once`: one round, run to the end. -/
theorem worker_runs_target_once_witness :
    exec worker_test.step (worker_test.init 1) [0, 1, 1, 1, 1, 0, 0, 0, 0, 1, 1, 0]
        = some ⟨⟨true, ⟨false⟩, worker_pc.exited⟩, 1, false, 1, 1, test_pc.finished, 1⟩
      ∧ (1 ≤ 1 ∧ 1 ≤ 1 ∧ 1 ≤ 1 + 1
        ∧ (true = true → 1 = 1)
        ∧ ([0, 1, 1, 1, 1, 0, 0, 0, 0, 1, 1, 0] : List Nat).length ≤ 7 * 1 + 5
        ∧ (test_pc.finished = test_pc.finished
            ↔ ([0, 1, 1, 1, 1, 0, 0, 0, 0, 1, 1, 0] : List Nat).length = 7 * 1 + 5)
        ∧ (test_pc.finished = test_pc.finished →
            1 = 1 ∧ 1 = 1 ∧ worker_pc.exited = worker_pc.exited
            ∧ ∀ th, worker_test.step
                ⟨⟨true, ⟨false⟩, worker_pc.exited⟩, 1, false, 1, 1, test_pc.finished, 1⟩ th
                  = none)
        ∧ (test_pc.finished ≠ test_pc.finished →
            ∃ th, (worker_test.step
                ⟨⟨true, ⟨false⟩, worker_pc.exited⟩, 1, false, 1, 1, test_pc.finished, 1⟩
                th).isSome = true)) :=
  ⟨by decide,
    worker_runs_target_once 1 [0, 1, 1, 1, 1, 0, 0, 0, 0, 1, 1, 0]
      ⟨⟨true, ⟨false⟩, worker_pc.exited⟩, 1, false, 1, 1, test_pc.finished, 1⟩ (by decide)⟩

end WorkerTheorems

/-! ## The barrier of `pool::process` -/

section PoolTheorems

open threading

theorem sum_map_set (g : Nat → Nat) : ∀ (l : List Nat) (i : Nat) (x : Nat) (h : i < l.length),
    ((l.set i x).map g).sum + g l[i] = (l.map g).sum + g x
  | [], i, x, h => by simp at h
  | a :: l, 0, x, h => by simp; omega
  | a :: l, i + 1, x, h => by
    have := sum_map_set g l i x (by simpa using h)
    simp only [List.set_cons_succ, List.map_cons, List.sum_cons, List.getElem_cons_succ]
    omega

/-- A worker in one of the phases 1 to 4 takes its step to the next phase. -/
theorem pool_worker_step_abs (r c ii : Nat) (phases : List Nat) (i : Nat)
    (hi : i < phases.length) (h1 : 1 ≤ phases[i]) (h4 : phases[i] ≤ 4) :
    pool.worker_step (pool_abs r c ii phases) i
      = some (pool_abs r c ii (phases.set i (phases[i] + 1))) := by
  have hget : (pool_abs r c ii phases).m_workers[i]? = some (pool_slot c phases[i]) := by
    simp [pool_abs, List.getElem?_eq_getElem hi]
  have hcount := List.count_set (phases[i] + 1) 5 phases i hi
  generalize hp : phases[i] = p at *
  unfold pool.worker_step
  rw [hget]
  interval_cases p <;>
    simp [pool_slot, pool_abs, worker._run, semaphore.wait, hcount]

/-- A worker that has not been notified, or that has been counted, is blocked
in `wait()`. -/
theorem pool_worker_blocked (r c ii : Nat) (phases : List Nat) (i : Nat)
    (hi : i < phases.length) (hp : phases[i] = 0 ∨ 5 ≤ phases[i]) :
    pool.worker_step (pool_abs r c ii phases) i = none := by
  have hget : (pool_abs r c ii phases).m_workers[i]? = some (pool_slot c phases[i]) := by
    simp [pool_abs, List.getElem?_eq_getElem hi]
  unfold pool.worker_step
  rw [hget]
  rcases hp with hp | hp
  · simp [hp, pool_slot, worker._run, semaphore.wait]
  · have h0 : phases[i] ≠ 0 := by omega
    have h1 : phases[i] ≠ 1 := by omega
    have h2 : phases[i] ≠ 2 := by omega
    have h3 : phases[i] ≠ 3 := by omega
    have h4 : phases[i] ≠ 4 := by omega
    simp [pool_slot, h0, h1, h2, h3, h4, worker._run, semaphore.wait]

/-- There is no thread beyond the workers. -/
theorem pool_worker_none (r c ii : Nat) (phases : List Nat) (i : Nat)
    (hi : phases.length ≤ i) : pool.worker_step (pool_abs r c ii phases) i = none := by
  have hget : (pool_abs r c ii phases).m_workers[i]? = none := by
    simp [pool_abs, hi]
  unfold pool.worker_step
  rw [hget]

/-- The call `notify(ii)` moves worker `ii` from phase 0 to phase 1. -/
theorem pool_notify_abs (r c ii : Nat) (phases : List Nat) (hi : ii < phases.length)
    (h0 : phases[ii] = 0) :
    (pool_abs r c ii phases).notify ii = pool_abs r c ii (phases.set ii 1) := by
  have hget : (pool_abs r c ii phases).m_workers[ii]? = some (pool_slot c phases[ii]) := by
    simp [pool_abs, List.getElem?_eq_getElem hi]
  have hcount := List.count_set 1 5 phases ii hi
  unfold pool.notify
  rw [hget, h0]
  simp [pool_slot, pool_abs, worker.notify, semaphore.notify, hcount, h0]

theorem getD_set_nat (l : List Nat) (i j x : Nat) :
    (l.set i x).getD j 0 = if i = j ∧ i < l.length then x else l.getD j 0 := by
  simp only [List.getD_eq_getElem?_getD, List.getElem?_set]
  by_cases hij : i = j
  · subst hij
    by_cases hi : i < l.length
    · simp [hi]
    · simp [hi, List.getElem?_eq_none (Nat.le_of_not_lt hi)]
  · simp [hij]

/-- From a state of the pool in which the phases are valid, every step leads to
such a state, one step further. -/
theorem pool_step_abs (N r c ii : Nat) (phases : List Nat) (th : Nat) (st : pool)
    (hv : pool_valid N r c ii phases)
    (h : pool.step (pool_abs r c ii phases) th = some st) :
    ∃ c2 ii2 phases2, pool_valid N r c2 ii2 phases2 ∧ st = pool_abs r c2 ii2 phases2
      ∧ pool_rank N c2 ii2 phases2 = pool_rank N c ii phases + 1 := by
  obtain ⟨hlen, hii, hc, hcr, hph⟩ := hv
  have hgetD : ∀ i (hi : i < phases.length), phases.getD i 0 = phases[i] := fun i hi =>
    List.getD_eq_getElem _ _ hi
  cases th with
  | zero =>
    have hlen2 : (pool_abs r c ii phases).m_workers.length = N := by simp [pool_abs, hlen]
    have hf : (pool_abs r c ii phases).calls = c ∧ (pool_abs r c ii phases).rounds = r
        ∧ (pool_abs r c ii phases).ii = ii
        ∧ (pool_abs r c ii phases).m_completion_count = phases.count 5 := ⟨rfl, rfl, rfl, rfl⟩
    simp only [pool.step, pool.main_step, hlen2, hf.1, hf.2.1, hf.2.2.1, hf.2.2.2] at h
    by_cases hcr2 : c < r
    · rw [if_pos hcr2] at h
      by_cases hiiN : ii < N
      · rw [if_pos hiiN] at h
        have hi : ii < phases.length := by omega
        have h0 : phases[ii] = 0 := by
          rw [← hgetD ii hi]; exact (hph ii hiiN).2 (le_refl _)
        rw [pool_notify_abs r c ii phases hi h0] at h
        simp only [Option.some.injEq] at h
        refine ⟨c, ii + 1, phases.set ii 1, ⟨by simp [hlen], by omega, hc,
          fun hcr3 => absurd hcr3 (by omega), ?_⟩, ?_, ?_⟩
        · intro i hi2
          rw [getD_set_nat]
          by_cases hie : ii = i
          · subst hie
            simp [hi]
          · have := hph i hi2
            simp only [hie, false_and, if_false]
            exact ⟨fun hlt => this.1 (by omega), fun hle => this.2 (by omega)⟩
        · rw [← h]; rfl
        · have hsum := sum_map_set Nat.pred phases ii 1 hi
          rw [h0] at hsum
          simp only [pool_rank]
          simp at hsum
          simp
          omega
      · rw [if_neg hiiN] at h
        have hiiN2 : ii = N := by omega
        by_cases hcnt : phases.count 5 = N
        · rw [if_pos hcnt] at h
          simp only [Option.some.injEq] at h
          have hall : ∀ b ∈ phases, 5 = b := List.count_eq_length.mp (by rw [hcnt, hlen])
          have hrep : phases = List.replicate N 5 :=
            List.eq_replicate_iff.mpr ⟨hlen, fun b hb => (hall b hb).symm⟩
          refine ⟨c + 1, 0, List.replicate N 0, ⟨by simp, by omega, by omega, fun _ => rfl, ?_⟩,
            ?_, ?_⟩
          · intro i hi2
            simp [List.getD_eq_getElem?_getD, List.getElem?_replicate, hi2]
          · rw [← h, hrep]
            simp [pool_abs, pool_slot, List.count_replicate]
          · rw [hrep, hiiN2]
            simp only [pool_rank, List.map_replicate, List.sum_replicate, smul_eq_mul]
            simp
            rw [Nat.add_mul]
            omega
        · rw [if_neg hcnt] at h
          simp at h
    · rw [if_neg hcr2] at h
      simp at h
  | succ i =>
    simp only [pool.step] at h
    by_cases hi : i < N
    · have hi2 : i < phases.length := by omega
      have hpi := hph i hi
      rw [hgetD i hi2] at hpi
      by_cases hblk : phases[i] = 0 ∨ 5 ≤ phases[i]
      · rw [pool_worker_blocked r c ii phases i hi2 hblk] at h
        simp at h
      · have h1 : 1 ≤ phases[i] := by omega
        have h4 : phases[i] ≤ 4 := by omega
        have hlt : i < ii := by
          by_contra hge
          have := hpi.2 (by omega)
          omega
        rw [pool_worker_step_abs r c ii phases i hi2 h1 h4] at h
        simp only [Option.some.injEq] at h
        refine ⟨c, ii, phases.set i (phases[i] + 1), ⟨by simp [hlen], hii, hc, hcr, ?_⟩,
          h.symm, ?_⟩
        · intro j hj
          rw [getD_set_nat]
          by_cases hie : i = j
          · subst hie
            simp only [hi2, and_self, if_true]
            exact ⟨fun _ => ⟨by omega, by omega⟩, fun hle => absurd hle (by omega)⟩
          · simp only [hie, false_and, if_false]
            exact hph j hj
        · have hsum := sum_map_set Nat.pred phases i (phases[i] + 1) hi2
          simp only [pool_rank]
          simp only [Nat.pred_eq_sub_one] at hsum ⊢
          omega
    · rw [pool_worker_none r c ii phases i (by omega)] at h
      simp at h

/-- A run from a valid state of the pool ends in a valid state, as many steps
further. -/
theorem pool_exec_abs (N r : Nat) : ∀ (sched : List Nat) (c ii : Nat) (phases : List Nat)
    (st : pool), pool_valid N r c ii phases →
    exec pool.step (pool_abs r c ii phases) sched = some st →
    ∃ c2 ii2 phases2, pool_valid N r c2 ii2 phases2 ∧ st = pool_abs r c2 ii2 phases2
      ∧ pool_rank N c2 ii2 phases2 = pool_rank N c ii phases + sched.length
  | [], c, ii, phases, st, hv, h => by
    simp only [exec, Option.some.injEq] at h
    exact ⟨c, ii, phases, hv, h.symm, by simp⟩
  | th :: sched, c, ii, phases, st, hv, h => by
    simp only [exec] at h
    cases hstep : pool.step (pool_abs r c ii phases) th with
    | none => simp [hstep] at h
    | some st1 =>
      rw [hstep, Option.some_bind] at h
      obtain ⟨c1, ii1, phases1, hv1, rfl, hrank1⟩ := pool_step_abs N r c ii phases th st1 hv hstep
      obtain ⟨c2, ii2, phases2, hv2, hst, hrank2⟩ :=
        pool_exec_abs N r sched c1 ii1 phases1 st hv1 h
      exact ⟨c2, ii2, phases2, hv2, hst, by simp only [List.length_cons]; omega⟩

/-- The number of calls of the function of a slot in a valid state. -/
theorem pool_slot_runs (c p : Nat) :
    (pool_slot c p).runs = if p ≤ 3 then c else c + 1 := by
  unfold pool_slot
  split_ifs <;> first | rfl | omega

/-- Between two calls of `process()` (`ii = 0`) every worker is in phase 0. -/
theorem pool_valid_idle (N r c : Nat) (phases : List Nat) (hv : pool_valid N r c 0 phases) :
    phases = List.replicate N 0 := by
  obtain ⟨hlen, -, -, -, hph⟩ := hv
  refine List.eq_replicate_iff.mpr ⟨hlen, ?_⟩
  intro b hb
  obtain ⟨i, hi, rfl⟩ := List.getElem_of_mem hb
  have := (hph i (by omega)).2 (Nat.zero_le _)
  rwa [List.getD_eq_getElem _ _ hi] at this

/-- The phases of a valid state are at most 5. -/
theorem pool_valid_le (N r c ii : Nat) (phases : List Nat) (hv : pool_valid N r c ii phases) :
    ∀ p ∈ phases, p ≤ 5 := by
  obtain ⟨hlen, -, -, -, hph⟩ := hv
  intro b hb
  obtain ⟨i, hi, rfl⟩ := List.getElem_of_mem hb
  have := hph i (by omega)
  rw [List.getD_eq_getElem _ _ hi] at this
  by_cases hlt : i < ii
  · exact (this.1 hlt).2
  · have := this.2 (by omega)
    omega

/-- In a valid state in which calls of `process()` remain, some thread can take
a step. -/
theorem pool_progress (N r c ii : Nat) (phases : List Nat) (hv : pool_valid N r c ii phases)
    (hcr : c < r) : ∃ th, (pool.step (pool_abs r c ii phases) th).isSome = true := by
  have hle := pool_valid_le N r c ii phases hv
  obtain ⟨hlen, hii, hc, -, hph⟩ := hv
  by_cases hiiN : ii < N
  · refine ⟨0, ?_⟩
    simp [pool.step, pool.main_step, pool_abs, hcr, hlen, hiiN]
  · by_cases hcnt : phases.count 5 = N
    · refine ⟨0, ?_⟩
      simp [pool.step, pool.main_step, pool_abs, hcr, hlen, hiiN, hcnt]
    · have hex : ∃ b ∈ phases, 5 ≠ b := by
        by_contra hno
        push_neg at hno
        exact hcnt (by rw [← hlen]; exact List.count_eq_length.mpr hno)
      obtain ⟨b, hb, hb5⟩ := hex
      obtain ⟨i, hi, rfl⟩ := List.getElem_of_mem hb
      have hpi := (hph i (by omega)).1 (by omega)
      rw [List.getD_eq_getElem _ _ hi] at hpi
      refine ⟨i + 1, ?_⟩
      have h4 : phases[i] ≤ 4 := by
        have := hle _ hb
        omega
      simp [pool.step, pool_worker_step_abs r c ii phases i hi hpi.1 h4]

/-- The number of steps taken to reach a valid state: `r * (5 * N + 1)` when
all calls have returned, less before. -/
theorem pool_rank_le (N r c ii : Nat) (phases : List Nat) (hv : pool_valid N r c ii phases) :
    pool_rank N c ii phases ≤ r * (5 * N + 1)
      ∧ (c = r ↔ pool_rank N c ii phases = r * (5 * N + 1)) := by
  have hle := pool_valid_le N r c ii phases hv
  by_cases hcr : c = r
  · subst hcr
    have hii : ii = 0 := hv.2.2.2.1 rfl
    subst hii
    have hrep := pool_valid_idle N c c phases hv
    have hrank : pool_rank N c 0 phases = c * (5 * N + 1) := by
      rw [hrep]
      simp [pool_rank]
    exact ⟨by rw [hrank], by simp [hrank]⟩
  · obtain ⟨hlen, hii, hc, -, -⟩ := hv
    have hsum : (phases.map Nat.pred).sum ≤ 4 * N := by
      have := List.sum_le_card_nsmul (phases.map Nat.pred) 4 (by
        intro x hx
        obtain ⟨p, hp, rfl⟩ := List.mem_map.mp hx
        have := hle p hp
        simp only [Nat.pred_eq_sub_one]
        omega)
      simp only [List.length_map, hlen, smul_eq_mul] at this
      omega
    have hmul : (c + 1) * (5 * N + 1) ≤ r * (5 * N + 1) :=
      Nat.mul_le_mul_right _ (by omega)
    rw [Nat.add_mul] at hmul
    have hlt : pool_rank N c ii phases < r * (5 * N + 1) := by
      simp only [pool_rank]
      omega
    exact ⟨by omega, ⟨fun h => absurd h hcr, fun h => by omega⟩⟩

/-- **C26.** For a pool of `N` workers with a target installed in every slot and
a thread that calls `process()` `r` times, under every interleaving of the
threads: the function of every slot has run as often as calls have returned, or
once more; whenever no call is under way (before a call and on its return) the
completion counter is 0 and every function has run exactly once per returned
call; the step in which a call returns finds every function run exactly once
more than before the call and leaves the counter at 0; after `r` calls every
function has run exactly `r` times. The run has at most `r * (5 * N + 1)` steps,
all calls have returned exactly when it has that many, and before that some
thread can take a step. -/
theorem pool_process_barrier (N r : Nat) (sched : List Nat) (st : pool)
    (h : exec pool.step (pool.make N r) sched = some st) :
    st.m_workers.length = N ∧ st.calls ≤ r
      ∧ (∀ pw ∈ st.m_workers, pw.runs = st.calls ∨ pw.runs = st.calls + 1)
      ∧ (st.ii = 0 → st.m_completion_count = 0 ∧ ∀ pw ∈ st.m_workers, pw.runs = st.calls)
      ∧ (∀ st2, st.ii = N → pool.step st 0 = some st2 →
          st2.calls = st.calls + 1 ∧ st2.ii = 0 ∧ st2.m_completion_count = 0
          ∧ ∀ pw ∈ st2.m_workers, pw.runs = st.calls + 1)
      ∧ (st.calls = r → ∀ pw ∈ st.m_workers, pw.runs = r)
      ∧ sched.length ≤ r * (5 * N + 1)
      ∧ (st.calls = r ↔ sched.length = r * (5 * N + 1))
      ∧ (st.calls < r → ∃ th, (pool.step st th).isSome = true) := by
  have hinit : pool.make N r = pool_abs r 0 0 (List.replicate N 0) := by
    simp [pool.make, pool_abs, pool_slot, worker.make, semaphore.make, List.count_replicate]
  have hv0 : pool_valid N r 0 0 (List.replicate N 0) := by
    refine ⟨by simp, Nat.zero_le _, Nat.zero_le _, fun _ => rfl, ?_⟩
    intro i hi
    simp [List.getD_eq_getElem?_getD, List.getElem?_replicate, hi]
  rw [hinit] at h
  obtain ⟨c, ii, phases, hv, rfl, hrank⟩ := pool_exec_abs N r sched 0 0 _ st hv0 h
  have hrank0 : pool_rank N 0 0 (List.replicate N 0) = 0 := by simp [pool_rank]
  rw [hrank0, Nat.zero_add] at hrank
  have hidle : ∀ c2 (phases2 : List Nat), pool_valid N r c2 0 phases2 →
      (pool_abs r c2 0 phases2).m_completion_count = 0
        ∧ ∀ pw ∈ (pool_abs r c2 0 phases2).m_workers, pw.runs = c2 := by
    intro c2 phases2 hv2
    rw [pool_valid_idle N r c2 phases2 hv2]
    refine ⟨by simp [pool_abs, List.count_replicate], ?_⟩
    intro pw hpw
    simp only [pool_abs, List.map_replicate] at hpw
    rw [(List.mem_replicate.mp hpw).2, pool_slot_runs]
    simp
  have hrk := pool_rank_le N r c ii phases hv
  rw [hrank] at hrk
  refine ⟨by simp [pool_abs, hv.1], hv.2.2.1, ?_, ?_, ?_, ?_, hrk.1, hrk.2,
    fun hcr => pool_progress N r c ii phases hv hcr⟩
  · intro pw hpw
    obtain ⟨p, -, rfl⟩ := List.mem_map.mp hpw
    rw [pool_slot_runs]
    by_cases hp : p ≤ 3
    · exact Or.inl (by simp [hp, pool_abs])
    · exact Or.inr (by simp [hp, pool_abs])
  · intro hii
    have hii2 : ii = 0 := hii
    subst hii2
    exact hidle c phases hv
  · intro st2 hii hstep
    have hii2 : ii = N := hii
    obtain ⟨c2, ii2, phases2, hv2, rfl, -⟩ := pool_step_abs N r c ii phases 0 st2 hv hstep
    have hc2 : c2 = c + 1 ∧ ii2 = 0 := by
      have hlen2 : (pool_abs r c ii phases).m_workers.length = N := by simp [pool_abs, hv.1]
      simp only [pool.step, pool.main_step, hlen2] at hstep
      have hnot : ¬ (pool_abs r c ii phases).ii < N := by
        show ¬ ii < N
        omega
      rw [if_neg hnot] at hstep
      split_ifs at hstep
      simp only [Option.some.injEq] at hstep
      have h1 := congrArg pool.calls hstep
      have h2 := congrArg pool.ii hstep
      exact ⟨h1.symm, h2.symm⟩
    obtain ⟨rfl, rfl⟩ := hc2
    exact ⟨rfl, rfl, (hidle _ phases2 hv2).1, (hidle _ phases2 hv2).2⟩
  · intro hcr
    have hcr2 : c = r := hcr
    subst hcr2
    have hii : ii = 0 := hv.2.2.2.1 rfl
    subst hii
    exact (hidle c phases hv).2

/-- Witness for `pool_process_barrier`: two workers and one call of
`process()`, the workers taking their steps in turn. -/
theorem pool_process_barrier_witness :
    ∃ st : pool,
      exec pool.step (pool.make 2 1) [0, 0, 1, 2, 1, 2, 1, 2, 1, 2, 0] = some st
      ∧ st = ⟨[⟨⟨false, ⟨false⟩, worker_pc.at_wait⟩, 1⟩,
              ⟨⟨false, ⟨false⟩, worker_pc.at_wait⟩, 1⟩], 0, 0, 1, 1⟩
      ∧ st.m_workers.length = 2 ∧ st.calls ≤ 1
      ∧ (∀ pw ∈ st.m_workers, pw.runs = st.calls ∨ pw.runs = st.calls + 1)
      ∧ (st.ii = 0 → st.m_completion_count = 0 ∧ ∀ pw ∈ st.m_workers, pw.runs = st.calls)
      ∧ (∀ st2, st.ii = 2 → pool.step st 0 = some st2 →
          st2.calls = st.calls + 1 ∧ st2.ii = 0 ∧ st2.m_completion_count = 0
          ∧ ∀ pw ∈ st2.m_workers, pw.runs = st.calls + 1)
      ∧ (st.calls = 1 → ∀ pw ∈ st.m_workers, pw.runs = 1)
      ∧ ([0, 0, 1, 2, 1, 2, 1, 2, 1, 2, 0] : List Nat).length ≤ 1 * (5 * 2 + 1)
      ∧ (st.calls = 1 ↔ ([0, 0, 1, 2, 1, 2, 1, 2, 1, 2, 0] : List Nat).length = 1 * (5 * 2 + 1))
      ∧ (st.calls < 1 → ∃ th, (pool.step st th).isSome = true) :=
  ⟨⟨[⟨⟨false, ⟨false⟩, worker_pc.at_wait⟩, 1⟩, ⟨⟨false, ⟨false⟩, worker_pc.at_wait⟩, 1⟩],
      0, 0, 1, 1⟩,
    by decide, rfl,
    pool_process_barrier 2 1 [0, 0, 1, 2, 1, 2, 1, 2, 1, 2, 0]
      ⟨[⟨⟨false, ⟨false⟩, worker_pc.at_wait⟩, 1⟩, ⟨⟨false, ⟨false⟩, worker_pc.at_wait⟩, 1⟩],
        0, 0, 1, 1⟩
      (by decide)⟩

end PoolTheorems

/-! ## `gbs::step` and the contents of the scratch ring -/

section ScratchTheorems

open steppers

variable {K Y : Type} [Field K] [AddCommGroup Y] [Module K Y]

/-- The first pass of the leap frog loop writes slot 2, the only slot that the
two steps before the loop leave untouched. -/
theorem leapfrog_body_first (f : K → Y → Y) (h tn : K) (a b : Y) (σ : scratch_type Y) :
    gbs.leapfrog_body f h (2, tn, (σ.set 0 a).set 1 b)
      = (0, tn + h, ⟨a, b, a + (2 * h) • f (tn + h) b⟩) := by
  simp [gbs.leapfrog_body, gbs.inds, scratch_type.get, scratch_type.set]

/-- **C32.** For every `n ≥ 2`, two calls of `gbs::step` with equal `f`, `y0`,
`t`, `dt`, `n`, `f0` and different scratch rings on entry produce the same `y`
(and leave the same scratch ring). For `n = 1` the output depends on the slot
`scratch[2]` on entry: on `y' = y` with `y0 = 1`, `dt = 1`, `f0 = 1` the rings
`(0, 0, 0)` and `(0, 0, 4)` give `9/4` and `13/4`. -/
theorem gbs_step_scratch_independent (f : K → Y → Y) (y0 : Y) (t dt : K) (n : Nat) (f0 : Y)
    (σ σ2 : scratch_type Y) (hn : 2 ≤ n) :
    gbs.step f y0 t dt n f0 σ = gbs.step f y0 t dt n f0 σ2
      ∧ (gbs.step (fun (_ : ℚ) (y : ℚ) => y) 1 0 1 1 1 ⟨0, 0, 0⟩).1 = 9 / 4
      ∧ (gbs.step (fun (_ : ℚ) (y : ℚ) => y) 1 0 1 1 1 ⟨0, 0, 4⟩).1 = 13 / 4 := by
  refine ⟨?_, ?_, ?_⟩
  rotate_left
  · norm_num [gbs.step, gbs.leapfrog, gbs.inds, scratch_type.get, scratch_type.set]
  · norm_num [gbs.step, gbs.leapfrog, gbs.inds, scratch_type.get, scratch_type.set]
  obtain ⟨m, rfl⟩ : ∃ m, n = m + 2 := ⟨n - 2, by omega⟩
  have hget : ∀ (τ : scratch_type Y) (a : Y), (τ.set 0 a).get 0 = a := fun _ _ => rfl
  simp only [gbs.step, show m + 2 - 1 = m + 1 from rfl, gbs.leapfrog, leapfrog_body_first,
    hget]

/-- Witness for `gbs_step_scratch_independent`: two sub-steps of `y' = y` on
the rings `(0, 0, 0)` and `(5, 6, 7)`. -/
theorem gbs_step_scratch_independent_witness :
    2 ≤ 2
      ∧ gbs.step (fun (_ : ℚ) (y : ℚ) => y) 1 0 1 2 1 ⟨0, 0, 0⟩
          = gbs.step (fun (_ : ℚ) (y : ℚ) => y) 1 0 1 2 1 ⟨5, 6, 7⟩
      ∧ (gbs.step (fun (_ : ℚ) (y : ℚ) => y) 1 0 1 1 1 ⟨0, 0, 0⟩).1 = 9 / 4
      ∧ (gbs.step (fun (_ : ℚ) (y : ℚ) => y) 1 0 1 1 1 ⟨0, 0, 4⟩).1 = 13 / 4 :=
  ⟨by decide,
    gbs_step_scratch_independent (fun (_ : ℚ) (y : ℚ) => y) 1 0 1 2 1 ⟨0, 0, 0⟩ ⟨5, 6, 7⟩
      (by decide)⟩

end ScratchTheorems

/-! ## `partition`: non-empty bins and the order of the input -/

section PartitionMore

open detail

/-- With every element at most `H`, a bin that starts empty on a non-empty list
takes an element. -/
theorem spec_fill_bin_ne_nil (H : Nat) (remaining : List Nat) (hne : remaining ≠ [])
    (hle : ∀ x ∈ remaining, x ≤ H) : (spec_fill_bin H remaining 0).1 ≠ [] := by
  cases remaining with
  | nil => exact absurd rfl hne
  | cons x rest =>
    have hfit : x ≤ H := hle x (List.mem_cons_self _ _)
    simp [spec_fill_bin, hfit]

/-- When `k` is the least number of bins with which the first-fit pass places
every element, no bin stays empty. -/
theorem spec_first_fit_ne_nil (H : Nat) : ∀ (k : Nat) (remaining : List Nat),
    (∀ x ∈ remaining, x ≤ H) → (spec_first_fit H k remaining).2 = [] →
    (∀ k2, k2 < k → (spec_first_fit H k2 remaining).2 ≠ []) →
    ∀ b ∈ (spec_first_fit H k remaining).1, b ≠ []
  | 0, _, _, _, _ => by simp [spec_first_fit]
  | k + 1, remaining, hle, hall, hmin => by
    have hne : remaining ≠ [] := by
      have := hmin 0 (Nat.succ_pos _)
      simpa [spec_first_fit] using this
    intro b hb
    simp only [spec_first_fit, List.mem_cons] at hb
    rcases hb with rfl | hb
    · exact spec_fill_bin_ne_nil H remaining hne hle
    · refine spec_first_fit_ne_nil H k (spec_fill_bin H remaining 0).2
        (fun x hx => hle x (spec_fill_bin_left_mem H remaining 0 x hx)) ?_ ?_ b hb
      · simpa [spec_first_fit] using hall
      · intro k2 hk2
        have := hmin (k2 + 1) (by omega)
        simpa [spec_first_fit] using this

/-- **C33 (counterexample).** On `[4294967297, 1, 1, 1, 1]` the conversions to
`int` give `ceildiv(4294967301, 4294967297) = 5/1 = 5`, `partition` starts with
five bins and returns three empty ones. -/
theorem partition_bins_nonempty_counterexample :
    partition [4294967297, 1, 1, 1, 1] 5 = some [[4294967297], [1, 1, 1, 1], [], [], []] := by
  decide

/-- **C33 (amended).** For every non-empty list `A` of positive integers whose
sum is below `2 ^ 31`, `partition(A)` returns bins and every bin is non-empty. -/
theorem partition_bins_nonempty (A : List Nat) (hne : A ≠ []) (hpos : ∀ x ∈ A, 0 < x)
    (hsum : A.sum < 2 ^ 31) :
    ∃ bins, partition A A.length = some bins ∧ ∀ b ∈ bins, b ≠ [] := by
  obtain ⟨k, -, -, hall, hmin, hbins⟩ := partition_core A hne hpos hsum
  refine ⟨_, hbins, ?_⟩
  exact spec_first_fit_ne_nil (list_max A) k (sort_desc A)
    (fun x hx => le_list_max A x ((sort_desc_perm A).subset hx)) hall
    (fun k2 hk2 => hmin k2 hk2)

/-- Witness for `partition_bins_nonempty` at the step counts `[2, 16, 18, 20]`. -/
theorem partition_bins_nonempty_witness :
    ([2, 16, 18, 20] : List Nat) ≠ [] ∧ (∀ x ∈ ([2, 16, 18, 20] : List Nat), 0 < x)
      ∧ ([2, 16, 18, 20] : List Nat).sum < 2 ^ 31
      ∧ ∃ bins, partition [2, 16, 18, 20] ([2, 16, 18, 20] : List Nat).length = some bins
        ∧ ∀ b ∈ bins, b ≠ [] :=
  ⟨by decide, by decide, by decide,
    partition_bins_nonempty [2, 16, 18, 20] (by decide) (by decide) (by decide)⟩

/-- **C38.** For every list `A` and every permutation `A2` of `A`,
`partition(A2)` is `partition(A)`: the same bins in the same order (and no
defined result for the one exactly when there is none for the other); for a
non-empty list of positive integers with sum below `2 ^ 31` both calls return. -/
theorem partition_perm_invariant (A A2 : List Nat) (h : A.Perm A2) :
    partition A2 A2.length = partition A A.length
      ∧ (A ≠ [] → (∀ x ∈ A, 0 < x) → A.sum < 2 ^ 31 →
          ∃ bins, partition A A.length = some bins ∧ partition A2 A2.length = some bins) := by
  have hsort : (A2.take A2.length).insertionSort (fun x y => y ≤ x)
      = (A.take A.length).insertionSort (fun x y => y ≤ x) := by
    rw [List.take_length, List.take_length]
    apply List.eq_of_perm_of_sorted (r := fun x y => y ≤ x)
    · exact ((List.perm_insertionSort _ A2).trans h.symm).trans (List.perm_insertionSort _ A).symm
    · exact List.sorted_insertionSort _ A2
    · exact List.sorted_insertionSort _ A
  have heq : partition A2 A2.length = partition A A.length := by
    unfold partition
    rw [hsort, h.length_eq]
  refine ⟨heq, fun hne hpos hsum => ?_⟩
  obtain ⟨bins, hbins, -⟩ := partition_flatten_perm A hne hpos hsum
  exact ⟨bins, hbins, by rw [heq, hbins]⟩

/-- Witness for `partition_perm_invariant`: the step counts of order 8 on three
cores in two orders. -/
theorem partition_perm_invariant_witness :
    ([2, 16, 18, 20] : List Nat).Perm [20, 2, 18, 16]
      ∧ partition [20, 2, 18, 16] ([20, 2, 18, 16] : List Nat).length
        = partition [2, 16, 18, 20] ([2, 16, 18, 20] : List Nat).length
      ∧ (([2, 16, 18, 20] : List Nat) ≠ [] → (∀ x ∈ ([2, 16, 18, 20] : List Nat), 0 < x) →
          ([2, 16, 18, 20] : List Nat).sum < 2 ^ 31 →
          ∃ bins, partition [2, 16, 18, 20] ([2, 16, 18, 20] : List Nat).length = some bins
            ∧ partition [20, 2, 18, 16] ([20, 2, 18, 16] : List Nat).length = some bins) :=
  ⟨by decide, partition_perm_invariant [2, 16, 18, 20] [20, 2, 18, 16] (by decide)⟩

end PartitionMore

/-! ## Repeated step counts -/

section RepeatedCounts

open detail steppers extrapolation_stepper

variable {K Y : Type} [Field K] [AddCommGroup Y] [Module K Y]

/-- **C34.** For the step counts `[4, 4, 2]` the constructor of a parallel
stepper builds the bins `[4], [4], [2]` and the index lists `[0], [0], [2]`:
index 0 is named twice and index 1 never. One parallel evaluation, whatever the
order of the workers, leaves the output slot 1 as it was (`b`), while one serial
evaluation writes all three slots. -/
theorem repeated_step_count_skips_slot (f : K → Y → Y) (W : List K) (order : Nat) (isbn : ℚ)
    (a b c y : Y) (t dt : K) (sched : List Nat) (hsched : sched.Perm [0, 1, 2]) :
    ∃ sp ss : extrapolation_stepper K Y,
      make f 3 [4, 4, 2] W order isbn true = some sp
      ∧ make f 3 [4, 4, 2] W order isbn false = some ss
      ∧ sp.m_partitions = [[4], [4], [2]]
      ∧ sp.m_partition_indices = [[0], [0], [2]]
      ∧ (_evaluate { sp with m_outputs := [a, b, c] } y t dt sched).m_outputs
          = [midpoint_smoothed f y t dt 4, b, midpoint_smoothed f y t dt 2]
      ∧ (_evaluate { ss with m_outputs := [a, b, c] } y t dt sched).m_outputs
          = [midpoint_smoothed f y t dt 4, midpoint_smoothed f y t dt 4,
              midpoint_smoothed f y t dt 2] := by
  have hpart : partition [4, 4, 2] 3 = some [[4], [4], [2]] := by decide
  have hmem : ∀ i, i ∈ sched ↔ i < 3 := by
    intro i
    rw [hsched.mem_iff]
    simp only [List.mem_cons, List.mem_singleton, List.mem_nil_iff, or_false]
    omega
  refine ⟨
    { m_order := order, m_isbn := isbn, m_systems := List.replicate 3 f,
      m_scratch := List.replicate 3 ⟨0, 0, 0⟩, m_weights := W.take 3,
      m_step_counts := [4, 4, 2], m_outputs := List.replicate 3 0,
      m_partitions := [[4], [4], [2]], m_partition_indices := [[0], [0], [2]],
      m_pool := some 3 },
    { m_order := order, m_isbn := isbn, m_systems := [f], m_scratch := [⟨0, 0, 0⟩],
      m_weights := W.take 3, m_step_counts := [4, 4, 2], m_outputs := List.replicate 3 0,
      m_partitions := [], m_partition_indices := [], m_pool := none },
    ?_, ?_, rfl, rfl, ?_, ?_⟩
  · simp [make, _initialize_pool, hpart]
  · simp [make]
  · have hok : parallel_ok
        ({ m_order := order, m_isbn := isbn, m_systems := List.replicate 3 f,
           m_scratch := List.replicate 3 ⟨0, 0, 0⟩, m_weights := W.take 3,
           m_step_counts := [4, 4, 2], m_outputs := [a, b, c],
           m_partitions := [[4], [4], [2]], m_partition_indices := [[0], [0], [2]],
           m_pool := some 3 } : extrapolation_stepper K Y)
        f [4, 4, 2] (W.take 3) [[0], [0], [2]] := ⟨rfl, rfl, rfl, rfl, rfl, rfl⟩
    obtain ⟨hok2, hget⟩ := evaluate_parallel_getD f [4, 4, 2] (W.take 3) [[0], [0], [2]] y t dt
      (by decide) (by decide) sched _ hok (fun i hi => (hmem i).mp hi)
    show (_evaluate_parallel _ y t dt sched).m_outputs = _
    apply list_eq_of_getD 0 _ _ (by rw [hok2.2.2.2.2.2]; rfl)
    intro j hj
    rw [hok2.2.2.2.2.2] at hj
    rw [hget j]
    have hj3 : j < 3 := hj
    interval_cases j
    · rw [if_pos ⟨⟨0, (hmem 0).mpr (by decide), by decide⟩, by decide⟩]
      rfl
    · rw [if_neg]
      · rfl
      · rintro ⟨⟨i, hi, hmem1⟩, -⟩
        have hi3 := (hmem i).mp hi
        interval_cases i <;> simp at hmem1
    · rw [if_pos ⟨⟨2, (hmem 2).mpr (by decide), by decide⟩, by decide⟩]
      rfl
  · have hok : serial_ok
        ({ m_order := order, m_isbn := isbn, m_systems := [f], m_scratch := [⟨0, 0, 0⟩],
           m_weights := W.take 3, m_step_counts := [4, 4, 2], m_outputs := [a, b, c],
           m_partitions := [], m_partition_indices := [], m_pool := none }
          : extrapolation_stepper K Y)
        f [4, 4, 2] (W.take 3) := ⟨rfl, rfl, rfl, rfl, rfl⟩
    obtain ⟨-, hout⟩ := evaluate_serial_spec _ f [4, 4, 2] (W.take 3) y t dt hok (by decide)
    show (_evaluate_serial _ y t dt).m_outputs = _
    rw [hout]
    simp [ideal_outputs, List.range_succ]

/-- Witness for `repeated_step_count_skips_slot`: `y' = y` over the rationals,
the workers taken in the order 2, 0, 1. -/
theorem repeated_step_count_skips_slot_witness :
    ([2, 0, 1] : List Nat).Perm [0, 1, 2]
      ∧ ∃ sp ss : extrapolation_stepper ℚ ℚ,
        make (fun (_ : ℚ) (y : ℚ) => y) 3 [4, 4, 2] [1, 1, -1] 4 0 true = some sp
        ∧ make (fun (_ : ℚ) (y : ℚ) => y) 3 [4, 4, 2] [1, 1, -1] 4 0 false = some ss
        ∧ sp.m_partitions = [[4], [4], [2]]
        ∧ sp.m_partition_indices = [[0], [0], [2]]
        ∧ (_evaluate { sp with m_outputs := [7, 8, 9] } 1 0 (1 / 2) [2, 0, 1]).m_outputs
            = [midpoint_smoothed (fun (_ : ℚ) (y : ℚ) => y) 1 0 (1 / 2) 4, 8,
                midpoint_smoothed (fun (_ : ℚ) (y : ℚ) => y) 1 0 (1 / 2) 2]
        ∧ (_evaluate { ss with m_outputs := [7, 8, 9] } 1 0 (1 / 2) [2, 0, 1]).m_outputs
            = [midpoint_smoothed (fun (_ : ℚ) (y : ℚ) => y) 1 0 (1 / 2) 4,
                midpoint_smoothed (fun (_ : ℚ) (y : ℚ) => y) 1 0 (1 / 2) 4,
                midpoint_smoothed (fun (_ : ℚ) (y : ℚ) => y) 1 0 (1 / 2) 2] :=
  ⟨by decide,
    repeated_step_count_skips_slot (fun (_ : ℚ) (y : ℚ) => y) [1, 1, -1] 4 0 7 8 9 1 0 (1 / 2)
      [2, 0, 1] (by decide)⟩

end RepeatedCounts

/-! ## The moment conditions of the weights -/

section Moments

open detail

/-- For every supported pair the moments `k = 1 .. order/2 - 1` of the
configuration vanish (by evaluation). -/
theorem config_moment_zero : ∀ oc ∈ supported_configs,
    ∀ k ∈ List.range' 1 (oc.1 / 2 - 1), config_moment oc.1 oc.2 k = 0 := by
  decide!

/-- **C31.** For every supported `(order, cores)` pair, the rational weights `w`
and the step counts `s` of the configuration satisfy: the sum of the `w[j]` is
exactly 1, and for every `k = 1 .. order/2 - 1` the sum of `w[j] / s[j]^(2k)` is
exactly 0. -/
theorem moment_conditions (order cores : Nat) (h : (order, cores) ∈ supported_configs) :
    ∃ (isbn : ℚ) (step_counts : List Nat) (weights : List ℚ),
      make_extrap_config ℚ order cores = some (isbn, step_counts, weights)
      ∧ weights.length = step_counts.length
      ∧ moment step_counts weights 0 = 1 ∧ weights.sum = 1
      ∧ ∀ k, 1 ≤ k → k ≤ order / 2 - 1 → moment step_counts weights k = 0 := by
  obtain ⟨isbn, S, Wq, -, htab, -, hlen, -, -, -, hsum, -⟩ := table_facts order cores h
  have hm0 : ∀ (S : List Nat) (W : List ℚ), W.length = S.length → moment S W 0 = W.sum := by
    intro S
    induction S with
    | nil => intro W hW; simp [moment, List.length_eq_zero.mp hW]
    | cons s S ih =>
      intro W hW
      cases W with
      | nil => simp at hW
      | cons w W =>
        have := ih W (by simpa using hW)
        simp only [moment, List.zipWith_cons_cons, List.sum_cons] at this ⊢
        rw [this]
        simp
  refine ⟨isbn, S, Wq, ?_, hlen, by rw [hm0 S Wq hlen, hsum], hsum, ?_⟩
  · rw [make_extrap_config_eq ℚ order cores isbn S Wq htab]
    simp
  · intro k hk1 hk2
    have := config_moment_zero (order, cores) h k (by
      rw [List.mem_range'_1]
      constructor
      · exact hk1
      · show k < 1 + (order / 2 - 1)
        omega)
    simpa [config_moment, htab] using this

/-- Witness for `moment_conditions`: the pair `(16, 5)`. -/
theorem moment_conditions_witness :
    ((16, 5) : Nat × Nat) ∈ supported_configs
      ∧ ∃ (isbn : ℚ) (step_counts : List Nat) (weights : List ℚ),
        make_extrap_config ℚ 16 5 = some (isbn, step_counts, weights)
        ∧ weights.length = step_counts.length
        ∧ moment step_counts weights 0 = 1 ∧ weights.sum = 1
        ∧ ∀ k, 1 ≤ k → k ≤ 16 / 2 - 1 → moment step_counts weights k = 0 :=
  ⟨by decide, moment_conditions 16 5 (by decide)⟩

end Moments

/-! ## Constant systems -/

section ConstantSystem

open steppers extrapolation_stepper

variable {K Y : Type} [Field K] [AddCommGroup Y] [Module K Y]

/-- For a constant system the modified midpoint sequence is `z k = y0 + (k h) c`. -/
theorem midpoint_z_const (c y0 : Y) (t h : K) (k : Nat) :
    midpoint_z (fun (_ : K) (_ : Y) => c) y0 t h k = y0 + ((k : K) * h) • c
    ∧ midpoint_z (fun (_ : K) (_ : Y) => c) y0 t h (k + 1) = y0 + (((k + 1 : Nat) : K) * h) • c := by
  induction k with
  | zero =>
    constructor
    · simp [midpoint_z]
    · simp [midpoint_z]
  | succ k ih =>
    obtain ⟨h1, h2⟩ := ih
    refine ⟨h2, ?_⟩
    rw [midpoint_z, h1]
    push_cast
    module

/-- For a constant system the smoothed modified midpoint value is `y0 + dt c`. -/
theorem midpoint_smoothed_const [CharZero K] (c y0 : Y) (t dt : K) (n : Nat) (hn : 1 ≤ n) :
    midpoint_smoothed (fun (_ : K) (_ : Y) => c) y0 t dt n = y0 + dt • c := by
  have hnK : (n : K) ≠ 0 := Nat.cast_ne_zero.mpr (by omega)
  obtain ⟨m, rfl⟩ : ∃ m, n = m + 1 := ⟨n - 1, by omega⟩
  obtain ⟨h1, h2⟩ := midpoint_z_const c y0 t (dt / ((m + 1 : Nat) : K)) m
  obtain ⟨-, h3⟩ := midpoint_z_const c y0 t (dt / ((m + 1 : Nat) : K)) (m + 1)
  unfold midpoint_smoothed
  rw [Nat.add_sub_cancel, h1, h2, h3]
  have hdt : dt = ((m + 1 : Nat) : K) * (dt / ((m + 1 : Nat) : K)) :=
    (mul_div_cancel₀ dt hnK).symm
  generalize dt / ((m + 1 : Nat) : K) = h at hdt ⊢
  rw [hdt]
  push_cast
  module

/-- The terms of a list, taken by index, add up to its sum. -/
theorem sum_range_getD (W : List K) :
    ∑ j ∈ Finset.range W.length, W.getD j 0 = W.sum := by
  induction W with
  | nil => simp
  | cons w W ih =>
    rw [List.length_cons, Finset.sum_range_succ', List.sum_cons, add_comm]
    simp only [List.getD_cons_zero, List.getD_cons_succ]
    rw [ih]

/-- With weights that sum to 1, the extrapolation of the ideal outputs of a
constant system is `y + dt c`. -/
theorem combine_const [CharZero K] (c y : Y) (t dt : K) (S : List Nat) (W : List K)
    (hlen : S.length = W.length) (hm : 1 ≤ S.length) (h2 : ∀ n ∈ S, 2 ≤ n) (hsum : W.sum = 1) :
    combine W (ideal_outputs (fun (_ : K) (_ : Y) => c) S y t dt) S.length = y + dt • c := by
  rw [combine_eq_sum _ _ _ hm]
  have hterm : ∀ j ∈ Finset.range S.length,
      W.getD j 0 • (ideal_outputs (fun (_ : K) (_ : Y) => c) S y t dt).getD j 0
        = W.getD j 0 • (y + dt • c) := by
    intro j hj
    rw [Finset.mem_range] at hj
    have hc : 2 ≤ S.getD j 0 := by
      rw [List.getD_eq_getElem _ _ hj]; exact h2 _ (List.getElem_mem _)
    have hout : (ideal_outputs (fun (_ : K) (_ : Y) => c) S y t dt).getD j 0
        = midpoint_smoothed (fun (_ : K) (_ : Y) => c) y t dt (S.getD j 0) := by
      simp [ideal_outputs, hj, List.getD_eq_getElem?_getD]
    rw [hout, midpoint_smoothed_const c y t dt _ (by omega)]
  rw [Finset.sum_congr rfl hterm, ← Finset.sum_smul, hlen, sum_range_getD, hsum, one_smul]

/-- A serial stepper on a constant system, with weights that sum to 1, advances
the state by `dt c` in every macro-step. -/
theorem step_loop_const [CharZero K] (c : Y) (S : List Nat) (W : List K) (dt : K)
    (sched : Nat → List Nat) (hlen : S.length = W.length) (hm : 1 ≤ S.length)
    (h2 : ∀ n ∈ S, 2 ≤ n) (hsum : W.sum = 1) :
    ∀ (left ii : Nat) (ss : extrapolation_stepper K Y) (y : Y) (t : K)
      (observed : List (K × Y)),
      serial_ok ss (fun (_ : K) (_ : Y) => c) S W →
      (step_loop dt sched left ii ss y t observed).y = y + ((left : K) * dt) • c := by
  intro left
  induction left with
  | zero => intro ii ss y t observed _; simp [step_loop]
  | succ left ih =>
    intro ii ss y t observed hs
    have hse : _evaluate ss y t dt (sched ii) = _evaluate_serial ss y t dt := by
      simp [_evaluate, hs.1]
    obtain ⟨hs', hso⟩ := evaluate_serial_spec ss _ S _ y t dt hs h2
    simp only [step_loop, hse]
    rw [ih _ _ _ _ _ hs', hso, hs'.2.2.2.1, hs'.2.2.1, combine_const c y t dt S W hlen hm h2 hsum]
    push_cast
    module

/-- **C36.** For every constant system `f(t, y) = c`, every `y0`, `t`, `dt` and
`n ≥ 2`, in exact arithmetic: `gbs::step` returns `y0 + dt c`; one macro-step of
a serial stepper whose step counts are at least 2 and whose weights sum to 1
returns `y0 + dt c`; and `integrate` over `N` macro-steps with any supported
configuration, serial or parallel, returns `y0 + N dt c`. -/
theorem constant_system_exact [CharZero K] (c y0 : Y) (t dt : K) (n N order cores : Nat)
    (parallel : Bool) (sched : Nat → List Nat) (σ : scratch_type Y) (hn : 2 ≤ n)
    (h : (order, cores) ∈ supported_configs)
    (hsched : parallel = true → ∀ ii, (sched ii).Perm (List.range (pool_size order cores))) :
    (gbs.step (fun (_ : K) (_ : Y) => c) y0 t dt n c σ).1 = y0 + dt • c
      ∧ (∀ (ss : extrapolation_stepper K Y) (S : List Nat) (W : List K),
          serial_ok ss (fun (_ : K) (_ : Y) => c) S W → S.length = W.length → 1 ≤ S.length →
          (∀ m ∈ S, 2 ≤ m) → W.sum = 1 → (step ss y0 t dt 1 sched).y = y0 + dt • c)
      ∧ (integrate (fun (_ : K) (_ : Y) => c) y0 t dt N order cores parallel sched).map Prod.fst
          = some (y0 + ((N : K) * dt) • c) := by
  refine ⟨?_, ?_, ?_⟩
  · have := gbs_step_fst (fun (_ : K) (_ : Y) => c) y0 t dt n σ hn
    rw [this, midpoint_smoothed_const c y0 t dt n (by omega)]
  · intro ss S W hs hlen hm h2 hsum
    have := step_loop_const c S W dt sched hlen hm h2 hsum 1 0 ss y0 t [] hs
    rw [step, this]
    simp
  · obtain ⟨isbn, S, Wq, bins, htab, hlen, h2, hbins, hcov⟩ := config_facts order cores h
    obtain ⟨isbn2, S2, Wq2, -, htab2, -, -, -, -, -, hsum2, -⟩ := table_facts order cores h
    rw [htab] at htab2
    cases htab2
    have hm : 1 ≤ S.length := by
      rcases Nat.eq_zero_or_pos S.length with h0 | h0
      · exfalso
        have hS : S = [] := List.length_eq_zero.mp h0
        subst hS
        simp [detail.partition] at hbins
      · exact h0
    have hsumK : (Wq.map (fun (d : ℚ) => (d : K))).sum = 1 := by
      have := Rat.cast_list_sum (α := K) Wq
      rw [hsum2] at this
      simpa using this.symm
    have hlenK : S.length = (Wq.map (fun (d : ℚ) => (d : K))).length := by simpa using hlen
    have hpool : pool_size order cores = bins.length := by simp [pool_size, htab, hbins]
    obtain ⟨ss, hss, hsok, -⟩ := make_serial_ok (K := K) (fun (_ : K) (_ : Y) => c) y0 order
      cores isbn S Wq htab hlen
    have hserial : ∀ sched2 : Nat → List Nat,
        (integrate (fun (_ : K) (_ : Y) => c) y0 t dt N order cores false sched2).map Prod.fst
          = some (y0 + ((N : K) * dt) • c) := by
      intro sched2
      simp only [integrate, hss, Option.map_some', step]
      rw [step_loop_const c S _ dt sched2 hlenK hm h2 hsumK N 0 ss y0 t [] hsok]
    cases parallel with
    | false => exact hserial sched
    | true =>
      obtain ⟨sp, ss2, hsp, -, hall⟩ :=
        parallel_eq_serial_aux (fun (_ : K) (_ : Y) => c) y0 t dt N order cores h
      have hpart : sp.m_partitions.length = bins.length := by
        obtain ⟨sp2, hsp2, -, -, hp⟩ := make_parallel_ok (K := K) (fun (_ : K) (_ : Y) => c) y0
          order cores isbn S Wq bins htab hlen hbins
        rw [hsp] at hsp2
        cases hsp2
        rw [hp]
      have := (hall sched sched (fun ii => by rw [hpart, ← hpool]; exact hsched rfl ii)).2.2.2
      rw [this]
      exact hserial sched

/-- Witness for `constant_system_exact`: `f = 3`, `y0 = 1`, `dt = 1/2`, four
sub-steps, and five macro-steps of order 8 on three cores in parallel. -/
theorem constant_system_exact_witness :
    2 ≤ 4 ∧ ((8, 3) : Nat × Nat) ∈ supported_configs
      ∧ (true = true → ∀ ii : Nat,
          ((fun (_ : Nat) => [2, 0, 1]) ii).Perm (List.range (pool_size 8 3)))
      ∧ (gbs.step (fun (_ : ℚ) (_ : ℚ) => (3 : ℚ)) 1 0 (1 / 2) 4 3 ⟨5, 6, 7⟩).1
          = 1 + (1 / 2 : ℚ) • (3 : ℚ)
      ∧ (∀ (ss : extrapolation_stepper ℚ ℚ) (S : List Nat) (W : List ℚ),
          serial_ok ss (fun (_ : ℚ) (_ : ℚ) => (3 : ℚ)) S W → S.length = W.length →
          1 ≤ S.length → (∀ m ∈ S, 2 ≤ m) → W.sum = 1 →
          (step ss 1 0 (1 / 2) 1 (fun _ => [2, 0, 1])).y = 1 + (1 / 2 : ℚ) • (3 : ℚ))
      ∧ (integrate (fun (_ : ℚ) (_ : ℚ) => (3 : ℚ)) 1 0 (1 / 2) 5 8 3 true
            (fun _ => [2, 0, 1])).map Prod.fst
          = some (1 + (((5 : Nat) : ℚ) * (1 / 2)) • (3 : ℚ)) :=
  ⟨by decide, by decide,
    fun _ _ => by
      show ([2, 0, 1] : List Nat).Perm (List.range (pool_size 8 3))
      decide,
    constant_system_exact (3 : ℚ) 1 0 (1 / 2) 4 5 8 3 true (fun _ => [2, 0, 1]) ⟨5, 6, 7⟩
      (by decide) (by decide)
      (fun _ _ => by
        show ([2, 0, 1] : List Nat).Perm (List.range (pool_size 8 3))
        decide)⟩

end ConstantSystem

/-! ## Splitting a run of `step` -/

section StepSplit

open steppers extrapolation_stepper

variable {K Y : Type} [Field K] [AddCommGroup Y] [Module K Y]

/-- The loop of `step` appends to the observer log it is given. -/
theorem step_loop_observed_append (dt : K) (sched : Nat → List Nat) :
    ∀ (left ii : Nat) (s : extrapolation_stepper K Y) (y : Y) (t : K) (observed : List (K × Y)),
      step_loop dt sched left ii s y t observed
        = ⟨(step_loop dt sched left ii s y t []).y, (step_loop dt sched left ii s y t []).stepper,
            observed ++ (step_loop dt sched left ii s y t []).observed⟩
  | 0, _, _, _, _, _ => by simp [step_loop]
  | left + 1, ii, s, y, t, observed => by
    rw [step_loop, step_loop_observed_append dt sched left, step_loop]
    rw [step_loop_observed_append dt sched left (ii + 1) _ _ _ ([] ++ _)]
    simp

/-- Starting the loop of `step` at pass `ii + a` is starting it at pass `ii`
with the orders of the workers shifted by `a`. -/
theorem step_loop_shift (dt : K) (sched : Nat → List Nat) (a : Nat) :
    ∀ (left ii : Nat) (s : extrapolation_stepper K Y) (y : Y) (t : K) (observed : List (K × Y)),
      step_loop dt sched left (a + ii) s y t observed
        = step_loop dt (fun i => sched (a + i)) left ii s y t observed
  | 0, _, _, _, _, _ => by simp [step_loop]
  | left + 1, ii, s, y, t, observed => by
    rw [step_loop, step_loop]
    exact step_loop_shift dt sched a left (ii + 1) _ _ _ _

/-- Running `a + b` passes of the loop of `step` is running `a` passes and then
`b` passes from where the first `a` ended. -/
theorem step_loop_add (dt : K) (sched : Nat → List Nat) (b : Nat) :
    ∀ (a ii : Nat) (s : extrapolation_stepper K Y) (y : Y) (t : K) (observed : List (K × Y)),
      step_loop dt sched (a + b) ii s y t observed
        = step_loop dt sched b (a + ii) (step_loop dt sched a ii s y t observed).stepper
            (step_loop dt sched a ii s y t observed).y (t + (a : K) * dt)
            (step_loop dt sched a ii s y t observed).observed
  | 0, ii, s, y, t, observed => by simp [step_loop]
  | a + 1, ii, s, y, t, observed => by
    rw [show a + 1 + b = (a + b) + 1 by omega, step_loop, step_loop_add dt sched b a, step_loop]
    have ht : t + dt + (a : K) * dt = t + ((a + 1 : Nat) : K) * dt := by push_cast; ring
    have hi : a + (ii + 1) = a + 1 + ii := by omega
    rw [ht, hi]

/-- **C37.** For every stepper, system, state `y`, time `t`, step `dt` and counts
`n1, n2 ≥ 0`, in exact arithmetic: `step(y, t, dt, n1 + n2)` leaves the same `y`,
the same stepper and the same sequence of observer calls as `step(y, t, dt, n1)`
followed by `step(y, t + n1*dt, dt, n2)` on the same stepper (the workers
finishing in the same orders in the corresponding macro-steps). -/
theorem step_split (s : extrapolation_stepper K Y) (y : Y) (t dt : K) (n1 n2 : Nat)
    (sched : Nat → List Nat) :
    (step s y t dt (n1 + n2) sched).y
        = (step (step s y t dt n1 sched).stepper (step s y t dt n1 sched).y
            (t + (n1 : K) * dt) dt n2 (fun i => sched (n1 + i))).y
      ∧ (step s y t dt (n1 + n2) sched).observed
        = (step s y t dt n1 sched).observed
          ++ (step (step s y t dt n1 sched).stepper (step s y t dt n1 sched).y
              (t + (n1 : K) * dt) dt n2 (fun i => sched (n1 + i))).observed
      ∧ (step s y t dt (n1 + n2) sched).stepper
        = (step (step s y t dt n1 sched).stepper (step s y t dt n1 sched).y
            (t + (n1 : K) * dt) dt n2 (fun i => sched (n1 + i))).stepper := by
  have h := step_loop_add dt sched n2 n1 0 s y t []
  rw [step_loop_shift dt sched n1 n2 0,
    step_loop_observed_append dt (fun i => sched (n1 + i)) n2 0
      (step_loop dt sched n1 0 s y t []).stepper (step_loop dt sched n1 0 s y t []).y
      (t + (n1 : K) * dt) (step_loop dt sched n1 0 s y t []).observed] at h
  unfold step
  rw [h]
  exact ⟨rfl, rfl, rfl⟩

end StepSplit

/-! ## The pass of `_try_partition` and classical first-fit -/

section FirstFit

open detail

/-- With no bin, classical first-fit places nothing. -/
theorem ffd_run_nil (H : Nat) : ∀ a : List Nat, ffd_run H a [] = ([], a)
  | [] => rfl
  | x :: a => by simp [ffd_run, ffd_insert, ffd_run_nil H a]

/-- In classical first-fit the first bin receives exactly the elements that one
scan of the list puts into it, and the other bins see the elements left over,
in order. -/
theorem ffd_run_cons (H : Nat) : ∀ (a : List Nat) (b : List Nat) (bins : List (List Nat)),
    ffd_run H a (b :: bins)
      = ((b ++ (spec_fill_bin H a b.sum).1) :: (ffd_run H (spec_fill_bin H a b.sum).2 bins).1,
          (ffd_run H (spec_fill_bin H a b.sum).2 bins).2)
  | [], b, bins => by simp [ffd_run, spec_fill_bin]
  | x :: a, b, bins => by
    by_cases hfit : b.sum + x ≤ H
    · have ih := ffd_run_cons H a (b ++ [x]) bins
      have hs : (b ++ [x]).sum = b.sum + x := by simp
      rw [hs] at ih
      simp only [ffd_run, ffd_insert, hfit, if_true, spec_fill_bin]
      rw [ih]
      simp
    · have ih := ffd_run_cons H a b
      cases hins : ffd_insert H x bins with
      | none =>
        simp only [ffd_run, ffd_insert, hfit, if_false, spec_fill_bin, hins, Option.map_none']
        rw [ih bins]
      | some bins2 =>
        simp only [ffd_run, ffd_insert, hfit, if_false, spec_fill_bin, hins, Option.map_some']
        rw [ih bins2]

/-- The bin-by-bin pass and classical first-fit build the same bins and leave
the same elements. -/
theorem ffd_eq_spec_first_fit (H : Nat) : ∀ (k : Nat) (a : List Nat),
    ffd H k a = spec_first_fit H k a
  | 0, a => by simp [ffd, ffd_run_nil, spec_first_fit]
  | k + 1, a => by
    have ih := ffd_eq_spec_first_fit H k (spec_fill_bin H a 0).2
    unfold ffd at ih ⊢
    rw [List.replicate_succ, ffd_run_cons]
    simp only [List.sum_nil, List.nil_append]
    rw [ih]
    simp [spec_first_fit]

/-- **C35 (counterexample).** With `a = [2^64 - 1, 2^64 - 1]`, two bins and
`H = 2^64 - 1` the sum `sums[0] + a[1]` wraps around in `std::size_t`:
`_try_partition` puts both elements into the first bin, classical first-fit
puts the second element into the second bin. -/
theorem try_partition_first_fit_counterexample :
    _try_partition [18446744073709551615, 18446744073709551615] 2 2 18446744073709551615
        = [[18446744073709551615, 18446744073709551615], []]
      ∧ ffd 18446744073709551615 2 [18446744073709551615, 18446744073709551615]
        = ([[18446744073709551615], [18446744073709551615]], []) := by
  decide

/-- **C35 (amended).** For every list `a` (sorted or not), bin count `k` and
height `H` with `H + x < 2^64` for every element `x`: the bin-by-bin pass of
`_try_partition` builds the bins of classical first-fit, its test that every
element is used holds exactly when classical first-fit leaves no element
unplaced, and `_try_partition` returns those bins in that case and the empty
vector otherwise. -/
theorem try_partition_first_fit (H k : Nat) (a : List Nat)
    (hx : ∀ x ∈ a, H + x < SIZE_MOD) :
    (_try_partition.fill a H k (List.replicate a.length false)).1 = (ffd H k a).1
      ∧ ((_try_partition.fill a H k (List.replicate a.length false)).2.all id = true
          ↔ (ffd H k a).2 = [])
      ∧ _try_partition a a.length k H = if (ffd H k a).2 = [] then (ffd H k a).1 else [] := by
  obtain ⟨h1, h2, h3⟩ := fill_eq_spec H a hx k (List.replicate a.length false) (by simp)
  rw [unused_replicate_false] at h1 h2
  have hiff := all_used_iff a (_try_partition.fill a H k (List.replicate a.length false)).2
    (by rw [h3]; simp)
  rw [h2] at hiff
  rw [ffd_eq_spec_first_fit]
  refine ⟨h1, hiff, ?_⟩
  rw [try_partition_eq_spec H k a hx]
  rfl

/-- Witness for `try_partition_first_fit`: the step counts of order 8 on three
cores, sorted, into three bins of height 20. -/
theorem try_partition_first_fit_witness :
    (∀ x ∈ ([20, 18, 16, 2] : List Nat), 20 + x < SIZE_MOD)
      ∧ (_try_partition.fill [20, 18, 16, 2] 20 3
            (List.replicate ([20, 18, 16, 2] : List Nat).length false)).1
          = (ffd 20 3 [20, 18, 16, 2]).1
      ∧ ((_try_partition.fill [20, 18, 16, 2] 20 3
            (List.replicate ([20, 18, 16, 2] : List Nat).length false)).2.all id = true
          ↔ (ffd 20 3 [20, 18, 16, 2]).2 = [])
      ∧ _try_partition [20, 18, 16, 2] ([20, 18, 16, 2] : List Nat).length 3 20
          = if (ffd 20 3 [20, 18, 16, 2]).2 = [] then (ffd 20 3 [20, 18, 16, 2]).1 else [] :=
  ⟨by decide, try_partition_first_fit 20 3 [20, 18, 16, 2] (by decide)⟩

end FirstFit

end odex
